import Mathlib

/-!
# Verification of the dancing-links Sudoku solver (`src/main.py`)

This file shallowly embeds the solver's toroidal doubly-linked structure and
its operations.  Python node objects are represented by natural-number ids in
an arena: the root node is id `0`, constraint columns get ids `1..324` in
creation order, and row nodes get consecutive ids from `325` on.  Object
attribute maps (`left`, `right`, `up`, `down`, `num_of_nodes`, `constraint`,
`value`) become function fields of a `DLX` state record, and each Python
assignment statement becomes a `Function.update` in the same order as the
source.  Unbounded `while` loops become fuel-indexed recursions.
-/

set_option autoImplicit false

namespace DancingLinks

/-- The `Constraint` enum of the source. -/
inductive Constraint where
  | CELL | ROW | COLUMN | BOX
deriving DecidableEq, Repr

/-- A constraint-column identifier: the `value` tuple of a `ConstraintNode`. -/
abbrev CVal := Constraint × Nat × Nat

/-- A row payload: the `(row, column, value)` tuple stored in every row node. -/
abbrev RCV := Nat × Nat × Nat

/-- The mutable state of the toroidal linked structure.  Node ids are `Nat`;
`col` is the `constraint` back-reference (a column id), `cval` the tuple value
of constraint nodes, `payload` the `(row, column, value)` of row nodes, and
`fresh` the next unallocated id.  Uncreated ids are self-looped, matching
`Node.__init__`. -/
@[ext] structure DLX where
  left : Nat → Nat
  right : Nat → Nat
  up : Nat → Nat
  down : Nat → Nat
  num : Nat → Int
  col : Nat → Nat
  cval : Nat → CVal
  payload : Nat → RCV
  fresh : Nat

/-- `cur_node.up.down = cur_node.down ; cur_node.down.up = cur_node.up ;
cur_node.constraint.num_of_nodes -= 1`: splice node `n` out of its column's
vertical list (the body of the inner loop of `ConstraintNode.cover`). -/
def removeNode (s : DLX) (n : Nat) : DLX :=
  let s1 := { s with down := Function.update s.down (s.up n) (s.down n) }
  let s2 := { s1 with up := Function.update s1.up (s1.down n) (s1.up n) }
  { s2 with num := Function.update s2.num (s2.col n) (s2.num (s2.col n) - 1) }

/-- `cur_node.up.down = cur_node ; cur_node.down.up = cur_node ;
cur_node.constraint.num_of_nodes += 1`: splice node `n` back into its column's
vertical list (the body of the inner loop of `ConstraintNode.uncover`). -/
def relinkNode (s : DLX) (n : Nat) : DLX :=
  let s1 := { s with down := Function.update s.down (s.up n) n }
  let s2 := { s1 with up := Function.update s1.up (s1.down n) n }
  { s2 with num := Function.update s2.num (s2.col n) (s2.num (s2.col n) + 1) }

/-- Inner `while cur_node != cur_row` loop of `ConstraintNode.cover`. -/
def coverRowLoop : Nat → DLX → Nat → Nat → DLX
  | 0, s, _, _ => s
  | fuel+1, s, curRow, curNode =>
    if curNode = curRow then s
    else
      let s' := removeNode s curNode
      coverRowLoop fuel s' curRow (s'.right curNode)

/-- Outer `while cur_row != self` loop of `ConstraintNode.cover`. -/
def coverColLoop : Nat → Nat → DLX → Nat → Nat → DLX
  | 0, _, s, _, _ => s
  | fuel+1, rowFuel, s, c, curRow =>
    if curRow = c then s
    else
      let s' := coverRowLoop rowFuel s curRow (s.right curRow)
      coverColLoop fuel rowFuel s' c (s'.up curRow)

/-- `ConstraintNode.cover`: remove the rows hanging in column `c`'s vertical
list from all other columns, then unlink `c` from the horizontal list
(`self.left.right = self.right ; self.right.left = self.left`). -/
def cover (fuel : Nat) (s : DLX) (c : Nat) : DLX :=
  let s1 := coverColLoop fuel fuel s c (s.up c)
  let s2 := { s1 with right := Function.update s1.right (s1.left c) (s1.right c) }
  { s2 with left := Function.update s2.left (s2.right c) (s2.left c) }

/-- Inner loop of `ConstraintNode.uncover`. -/
def uncoverRowLoop : Nat → DLX → Nat → Nat → DLX
  | 0, s, _, _ => s
  | fuel+1, s, curRow, curNode =>
    if curNode = curRow then s
    else
      let s' := relinkNode s curNode
      uncoverRowLoop fuel s' curRow (s'.right curNode)

/-- Outer loop of `ConstraintNode.uncover`. -/
def uncoverColLoop : Nat → Nat → DLX → Nat → Nat → DLX
  | 0, _, s, _, _ => s
  | fuel+1, rowFuel, s, c, curRow =>
    if curRow = c then s
    else
      let s' := uncoverRowLoop rowFuel s curRow (s.right curRow)
      uncoverColLoop fuel rowFuel s' c (s'.up curRow)

/-- `ConstraintNode.uncover`: relink the rows of column `c`, then re-add `c`
to the horizontal list (`self.right.left = self ; self.left.right = self`). -/
def uncover (fuel : Nat) (s : DLX) (c : Nat) : DLX :=
  let s1 := uncoverColLoop fuel fuel s c (s.up c)
  let s2 := { s1 with left := Function.update s1.left (s1.right c) c }
  { s2 with right := Function.update s2.right (s2.left c) c }

/-- Loop of `RootNode.get_min_constraint`. -/
def getMinLoop : Nat → DLX → Nat → Nat → Nat
  | 0, _, _, m => m
  | fuel+1, s, cur, m =>
    if cur = 0 then m
    else getMinLoop fuel s (s.right cur) (if s.num cur < s.num m then cur else m)

/-- `RootNode.get_min_constraint`: the uncovered column with the least
`num_of_nodes` (leftmost on ties). -/
def get_min_constraint (fuel : Nat) (s : DLX) : Nat :=
  getMinLoop fuel s (s.right 0) (s.right 0)

/-! ## The search engine (`SudokuSolver.solve`)

The Python method mutates `self.answer` and a `solutions` list that is the
*shared mutable default argument* of `solve`; both are threaded explicitly
through a `SolverSt` record.  `solutions.append`/`.pop` become appending to
and dropping from the end of `sols`, and `solutions[:]` is the captured value
of `sols`. -/

/-- The mutable state visible to `solve`: the matrix, `self.answer`, and the
shared `solutions` list. -/
structure SolverSt where
  m : DLX
  answer : Option (List RCV)
  sols : List RCV

/-- Inner `while row_node != cur_node` loop of `solve` that covers the
constraint of every other node in the candidate's row. -/
def coverRowColsLoop : Nat → Nat → DLX → Nat → Nat → DLX
  | 0, _, s, _, _ => s
  | fuel+1, coverFuel, s, curNode, rowNode =>
    if rowNode = curNode then s
    else
      let s' := cover coverFuel s (s.col rowNode)
      coverRowColsLoop fuel coverFuel s' curNode (s'.right rowNode)

/-- The matching loop of `solve` that uncovers the constraint of every other
node in the candidate's row (same traversal direction as the cover loop). -/
def uncoverRowColsLoop : Nat → Nat → DLX → Nat → Nat → DLX
  | 0, _, s, _, _ => s
  | fuel+1, coverFuel, s, curNode, rowNode =>
    if rowNode = curNode then s
    else
      let s' := uncover coverFuel s (s.col rowNode)
      uncoverRowColsLoop fuel coverFuel s' curNode (s'.right rowNode)

/-- `while cur_node != constraint_node` loop of `solve`: cover the candidate
row's other columns, push its payload, recurse (the recursive `solve` call is
the closure `recur`), pop, uncover the other columns in the same order, and
advance `cur_node = cur_node.down`. -/
def solveRowIter (recur : SolverSt → SolverSt) (coverFuel : Nat) :
    Nat → SolverSt → Nat → Nat → SolverSt
  | 0, st, _, _ => st
  | fuel+1, st, c, cur =>
    if cur = c then st
    else
      let m1 := coverRowColsLoop coverFuel coverFuel st.m cur (st.m.right cur)
      let st1 := { st with m := m1, sols := st.sols ++ [st.m.payload cur] }
      let st2 := recur st1
      let st3 := { st2 with sols := st2.sols.dropLast }
      let m2 := uncoverRowColsLoop coverFuel coverFuel st3.m cur (st3.m.right cur)
      solveRowIter recur coverFuel fuel { st3 with m := m2 } c (m2.down cur)

/-- `SudokuSolver.solve`, with explicit fuel.  Records `solutions[:]` in
`answer` when the root's horizontal list is empty, returns immediately when an
answer already exists, and otherwise covers the minimum column and iterates
over its candidate rows. -/
def solveAux : Nat → SolverSt → SolverSt
  | 0, st => st
  | fuel+1, st =>
    if st.m.right 0 = 0 then { st with answer := some st.sols }
    else if st.answer.isSome then st
    else
      let c := get_min_constraint (fuel+1) st.m
      let m1 := cover (fuel+1) st.m c
      let st1 := solveRowIter (solveAux fuel) (fuel+1) (fuel+1)
        { st with m := m1 } c (m1.down c)
      { st1 with m := uncover (fuel+1) st1.m c }

/-! ## The matrix builder (`__init__`, `add_constraints`, `add_nodes`) -/

/-- `SudokuSolver.calculate_box`. -/
def calculate_box (row column : Nat) : Nat :=
  ((row / 3) * 3) + (column / 3)

/-- `SudokuSolver.add_constraint`: allocate a `ConstraintNode` (self-looped,
counter `0`, `constraint = self`) and splice it left of the root. -/
def add_constraint (s : DLX) (cv : CVal) : DLX :=
  let i := s.fresh
  let s0 := { s with
    fresh := i + 1,
    cval := Function.update s.cval i cv,
    col := Function.update s.col i i,
    num := Function.update s.num i 0,
    up := Function.update s.up i i,
    down := Function.update s.down i i,
    left := Function.update s.left i i,
    right := Function.update s.right i i }
  let last := s0.left 0
  let s1 := { s0 with right := Function.update s0.right last i }
  let s2 := { s1 with right := Function.update s1.right i 0 }
  let s3 := { s2 with left := Function.update s2.left i last }
  { s3 with left := Function.update s3.left 0 i }

/-- The sequence `1, 2, ..., 9` (`range(1, 10)`). -/
def rng19 : List Nat := (List.range 9).map (· + 1)

/-- `SudokuSolver.add_constraints`: 81 cell constraints (column-major), then
81 column, 81 row and 81 box constraints. -/
def add_constraints (s : DLX) : DLX :=
  let s1 := (List.range 9).foldl (fun acc column =>
    (List.range 9).foldl (fun acc2 row =>
      add_constraint acc2 (Constraint.CELL, row, column)) acc) s
  let s2 := (List.range 9).foldl (fun acc column =>
    rng19.foldl (fun acc2 value =>
      add_constraint acc2 (Constraint.COLUMN, column, value)) acc) s1
  let s3 := (List.range 9).foldl (fun acc row =>
    rng19.foldl (fun acc2 value =>
      add_constraint acc2 (Constraint.ROW, row, value)) acc) s2
  (List.range 9).foldl (fun acc box =>
    rng19.foldl (fun acc2 value =>
      add_constraint acc2 (Constraint.BOX, box, value)) acc) s3

/-- `ConstraintNode.append_node`: allocate a row node under header `h`,
splice it at the top of `h`'s vertical list, increment the counter, and
splice it left of `initial` into its row's horizontal list (or start the row
when `initial` is `none`).  Returns the new state and the row's initial
node. -/
def append_node (s : DLX) (h : Nat) (rcv : RCV) (initial : Option Nat) : DLX × Nat :=
  let i := s.fresh
  let s0 := { s with
    fresh := i + 1,
    payload := Function.update s.payload i rcv,
    col := Function.update s.col i h,
    left := Function.update s.left i i,
    right := Function.update s.right i i,
    up := Function.update s.up i i,
    down := Function.update s.down i i }
  let last := s0.down h
  let s1 := { s0 with up := Function.update s0.up last i }
  let s2 := { s1 with down := Function.update s1.down h i }
  let s3 := { s2 with down := Function.update s2.down i last }
  let s4 := { s3 with up := Function.update s3.up i h }
  let s5 := { s4 with num := Function.update s4.num h (s4.num h + 1) }
  match initial with
  | some init =>
    let last2 := s5.left init
    let s6 := { s5 with right := Function.update s5.right last2 i }
    let s7 := { s6 with left := Function.update s6.left init i }
    let s8 := { s7 with left := Function.update s7.left i last2 }
    let s9 := { s8 with right := Function.update s8.right i init }
    (s9, init)
  | none => (s5, i)

/-- `for _ in range(skip_amount): constraint = constraint.right`. -/
def skipRight : Nat → DLX → Nat → Nat
  | 0, _, cur => cur
  | k+1, s, cur => skipRight k s (s.right cur)

/-- The body of the `value` loop of `SudokuSolver.add_nodes`: walk the
horizontal constraint list by the four skip amounts and append one node for
`(row, column, value)` under each of the four constraints reached. -/
def addNodesValue (s : DLX) (row column box value : Nat) : DLX :=
  let cell := ((row + 1) * 9) - (9 - column)
  let rcv : RCV := (row, column, value)
  let c := (column * 9) + (value - 1)
  let r := (row * 9) + (value - 1)
  let b := (box * 9) + (value - 1)
  (([cell, (81 - cell) + c, (81 - c) + r, (81 - r) + b].foldl
    (fun (acc : DLX × Nat × Option Nat) skip =>
      let s' := acc.1
      let cur := acc.2.1
      let init := acc.2.2
      let cur' := skipRight skip s' cur
      let p := append_node s' cur' rcv init
      (p.1, cur', some p.2))
    (s, s.right 0, none))).1

/-- `SudokuSolver.add_nodes`: every `(row, column, value)` combination. -/
def add_nodes (s : DLX) : DLX :=
  (List.range 9).foldl (fun acc row =>
    (List.range 9).foldl (fun acc2 column =>
      rng19.foldl (fun acc3 value =>
        addNodesValue acc3 row column (calculate_box row column) value) acc2) acc) s

/-- The state holding only the root node (id `0`), before `__init__` builds
anything: all pointers self-looped. -/
def initState : DLX :=
  { left := id, right := id, up := id, down := id,
    num := fun _ => 0, col := id,
    cval := fun _ => (Constraint.CELL, 0, 0),
    payload := fun _ => (0, 0, 0), fresh := 1 }

/-- `SudokuSolver.__init__`: the fully built matrix (324 constraint columns
and 2916 candidate nodes). -/
def buildState : DLX := add_nodes (add_constraints initState)

/-! ## Pre-covering and `start` -/

/-- `while constraint_node != self.root and constraint_node.value !=
constraint: constraint_node = constraint_node.right`. -/
def findConstraintLoop : Nat → DLX → Nat → CVal → Nat
  | 0, _, cur, _ => cur
  | fuel+1, s, cur, target =>
    if cur = 0 then cur
    else if s.cval cur = target then cur
    else findConstraintLoop fuel s (s.right cur) target

/-- The `for constraint in [...]` loop of `SudokuSolver.cover_constraints`:
locate each target along the horizontal list (the cursor persists between
targets) and cover it; report `false` if the root is reached. -/
def coverConstraintsGo (fuel : Nat) : List CVal → DLX → Nat → DLX × Bool
  | [], s, _ => (s, true)
  | t :: ts, s, cur =>
    let cur' := findConstraintLoop fuel s cur t
    if cur' = 0 then (s, false)
    else coverConstraintsGo fuel ts (cover fuel s cur') cur'

/-- `SudokuSolver.cover_constraints`: cover the four constraints satisfied by
clue `(row, column, value)`.  Note the cell target is `(CELL, column, row)`,
matching the transposed tuple the cell constraint for this clue carries. -/
def cover_constraints (fuel : Nat) (s : DLX) (row column value : Nat) : DLX × Bool :=
  coverConstraintsGo fuel
    [(Constraint.CELL, column, row),
     (Constraint.COLUMN, column, value),
     (Constraint.ROW, row, value),
     (Constraint.BOX, calculate_box row column, value)]
    s (s.right 0)

/-- An output grid: `self.solution`, a 9×9 array of integers. -/
abbrev OutGrid := Nat → Nat → Int

/-- An input grid (`sudoku`), with cell values read as naturals. -/
abbrev InGrid := Nat → Nat → Nat

/-- `self.solution[row][column] = value`. -/
def setCell (g : OutGrid) (r c : Nat) (v : Int) : OutGrid :=
  fun i j => if i = r ∧ j = c then v else g i j

/-- `np.zeros((9, 9))`. -/
def zeroGrid : OutGrid := fun _ _ => 0

/-- `np.array([[-1] * 9] * 9)`. -/
def negGrid : OutGrid := fun _ _ => -1

/-- The cells `(0,0), (0,1), ..., (8,8)` in `np.ndenumerate` order. -/
def cells99 : List (Nat × Nat) :=
  (List.range 9).flatMap (fun r => (List.range 9).map (fun c => (r, c)))

/-- The clue loop of `SudokuSolver.start`: skip zeros, cover each clue's
constraints, record the clue in `solution`, and break on failure. -/
def startClues (fuel : Nat) (grid : InGrid) :
    List (Nat × Nat) → DLX → OutGrid → DLX × Bool × OutGrid
  | [], s, sol => (s, true, sol)
  | (r, c) :: rest, s, sol =>
    let v := grid r c
    if v = 0 then startClues fuel grid rest s sol
    else
      let p := cover_constraints fuel s r c v
      if p.2 then startClues fuel grid rest p.1 (setCell sol r c (v : Int))
      else (p.1, false, sol)

/-- Write the answer's `(row, column, value)` payloads into the solution. -/
def fillAnswer (sol : OutGrid) : List RCV → OutGrid
  | [] => sol
  | (r, c, v) :: rest => fillAnswer (setCell sol r c (v : Int)) rest

/-- `SudokuSolver.start`, threading the shared `solutions` list of `solve`
(the mutable default argument).  Returns the result grid and the final
contents of the shared list. -/
def start (fuel : Nat) (s : DLX) (shared : List RCV) (grid : InGrid) :
    OutGrid × List RCV :=
  let t := startClues fuel grid cells99 s zeroGrid
  if t.2.1 then
    let st := solveAux fuel { m := t.1, answer := none, sols := shared }
    match st.answer with
    | none => (negGrid, st.sols)
    | some ans => (fillAnswer t.2.2 ans, st.sols)
  else (negGrid, shared)

/-- `sudoku_solver`: build a fresh solver and run `start`.  The `shared`
argument models the mutable default `solutions` list, which outlives solver
instances. -/
def sudoku_solver (fuel : Nat) (shared : List RCV) (grid : InGrid) :
    OutGrid × List RCV :=
  start fuel buildState shared grid

/-! ## Basic algebra of `removeNode` / `relinkNode`

The loops of `cover`/`uncover` are folds of `removeNode`/`relinkNode` over the
traversal order; these lemmas compute each field of a single step. -/

/-- Removing a list of nodes in order (the composite effect of the cover
loops' inner bodies). -/
def removeList (s : DLX) (l : List Nat) : DLX := l.foldl removeNode s

/-- Relinking a list of nodes in order (the composite effect of the uncover
loops' inner bodies). -/
def relinkList (s : DLX) (l : List Nat) : DLX := l.foldl relinkNode s

section StepLemmas

variable (s : DLX) (n : Nat)

@[simp] theorem removeNode_left : (removeNode s n).left = s.left := rfl
@[simp] theorem removeNode_right : (removeNode s n).right = s.right := rfl
@[simp] theorem removeNode_col : (removeNode s n).col = s.col := rfl
@[simp] theorem removeNode_cval : (removeNode s n).cval = s.cval := rfl
@[simp] theorem removeNode_payload : (removeNode s n).payload = s.payload := rfl
@[simp] theorem removeNode_fresh : (removeNode s n).fresh = s.fresh := rfl

@[simp] theorem removeNode_down :
    (removeNode s n).down = Function.update s.down (s.up n) (s.down n) := rfl

theorem removeNode_up :
    (removeNode s n).up = Function.update s.up (s.down n) (s.up n) := by
  show Function.update s.up (Function.update s.down (s.up n) (s.down n) n) (s.up n)
      = Function.update s.up (s.down n) (s.up n)
  rw [Function.update_apply]
  split <;> rfl

@[simp] theorem removeNode_num :
    (removeNode s n).num = Function.update s.num (s.col n) (s.num (s.col n) - 1) := rfl

@[simp] theorem relinkNode_left : (relinkNode s n).left = s.left := rfl
@[simp] theorem relinkNode_right : (relinkNode s n).right = s.right := rfl
@[simp] theorem relinkNode_col : (relinkNode s n).col = s.col := rfl
@[simp] theorem relinkNode_cval : (relinkNode s n).cval = s.cval := rfl
@[simp] theorem relinkNode_payload : (relinkNode s n).payload = s.payload := rfl
@[simp] theorem relinkNode_fresh : (relinkNode s n).fresh = s.fresh := rfl

@[simp] theorem relinkNode_down :
    (relinkNode s n).down = Function.update s.down (s.up n) n := rfl

/-- The second statement of the relink body reads `cur_node.down` after the
first write; when `n` is not vertically self-looped the read is unaffected. -/
theorem relinkNode_up_of (h : s.up n = n → s.down n = n) :
    (relinkNode s n).up = Function.update s.up (s.down n) n := by
  show Function.update s.up (Function.update s.down (s.up n) n n) n
      = Function.update s.up (s.down n) n
  rw [Function.update_apply]
  split
  · next heq =>
    rw [h heq.symm]
  · rfl

@[simp] theorem relinkNode_num :
    (relinkNode s n).num = Function.update s.num (s.col n) (s.num (s.col n) + 1) := rfl

end StepLemmas

section ListLemmas

@[simp] theorem removeList_nil (s : DLX) : removeList s [] = s := rfl
@[simp] theorem removeList_cons (s : DLX) (n : Nat) (l : List Nat) :
    removeList s (n :: l) = removeList (removeNode s n) l := rfl
@[simp] theorem relinkList_nil (s : DLX) : relinkList s [] = s := rfl
@[simp] theorem relinkList_cons (s : DLX) (n : Nat) (l : List Nat) :
    relinkList s (n :: l) = relinkList (relinkNode s n) l := rfl

theorem removeList_left (s : DLX) (l : List Nat) : (removeList s l).left = s.left := by
  induction l generalizing s with
  | nil => rfl
  | cons n l ih => simpa using ih (removeNode s n)

theorem removeList_right (s : DLX) (l : List Nat) : (removeList s l).right = s.right := by
  induction l generalizing s with
  | nil => rfl
  | cons n l ih => simpa using ih (removeNode s n)

theorem removeList_col (s : DLX) (l : List Nat) : (removeList s l).col = s.col := by
  induction l generalizing s with
  | nil => rfl
  | cons n l ih => simpa using ih (removeNode s n)

theorem removeList_cval (s : DLX) (l : List Nat) : (removeList s l).cval = s.cval := by
  induction l generalizing s with
  | nil => rfl
  | cons n l ih => simpa using ih (removeNode s n)

theorem removeList_payload (s : DLX) (l : List Nat) :
    (removeList s l).payload = s.payload := by
  induction l generalizing s with
  | nil => rfl
  | cons n l ih => simpa using ih (removeNode s n)

theorem removeList_fresh (s : DLX) (l : List Nat) : (removeList s l).fresh = s.fresh := by
  induction l generalizing s with
  | nil => rfl
  | cons n l ih => simpa using ih (removeNode s n)

theorem relinkList_left (s : DLX) (l : List Nat) : (relinkList s l).left = s.left := by
  induction l generalizing s with
  | nil => rfl
  | cons n l ih => simpa using ih (relinkNode s n)

theorem relinkList_right (s : DLX) (l : List Nat) : (relinkList s l).right = s.right := by
  induction l generalizing s with
  | nil => rfl
  | cons n l ih => simpa using ih (relinkNode s n)

theorem relinkList_col (s : DLX) (l : List Nat) : (relinkList s l).col = s.col := by
  induction l generalizing s with
  | nil => rfl
  | cons n l ih => simpa using ih (relinkNode s n)

theorem relinkList_cval (s : DLX) (l : List Nat) : (relinkList s l).cval = s.cval := by
  induction l generalizing s with
  | nil => rfl
  | cons n l ih => simpa using ih (relinkNode s n)

theorem relinkList_payload (s : DLX) (l : List Nat) :
    (relinkList s l).payload = s.payload := by
  induction l generalizing s with
  | nil => rfl
  | cons n l ih => simpa using ih (relinkNode s n)

theorem relinkList_fresh (s : DLX) (l : List Nat) : (relinkList s l).fresh = s.fresh := by
  induction l generalizing s with
  | nil => rfl
  | cons n l ih => simpa using ih (relinkNode s n)

/-- The counter updates of a removal sequence, per column. -/
theorem removeList_num (s : DLX) (l : List Nat) : ∀ k,
    (removeList s l).num k = s.num k - (l.countP (fun n => s.col n = k) : Int) := by
  induction l generalizing s with
  | nil => simp
  | cons n l ih =>
    intro k
    rw [removeList_cons, ih (removeNode s n) k]
    simp only [removeNode_col, removeNode_num, List.countP_cons, Function.update_apply]
    by_cases h : s.col n = k
    · simp [h]
      omega
    · simp [h]
      omega

/-- The counter updates of a relink sequence, per column. -/
theorem relinkList_num (s : DLX) (l : List Nat) : ∀ k,
    (relinkList s l).num k = s.num k + (l.countP (fun n => s.col n = k) : Int) := by
  induction l generalizing s with
  | nil => simp
  | cons n l ih =>
    intro k
    rw [relinkList_cons, ih (relinkNode s n) k]
    simp only [relinkNode_col, relinkNode_num, List.countP_cons, Function.update_apply]
    by_cases h : s.col n = k
    · simp [h]
      omega
    · simp [h]
      omega

end ListLemmas

/-! ## The restoration theorem for same-order removal/relink sequences

`cover` splices a sequence of nodes out of their vertical lists and `uncover`
splices the same sequence back in, iterating in the *same* order (not the
reverse).  This section proves that from a vertically well-formed state,
removing any duplicate-free list of nodes and then relinking the same list in
the same order restores the `up`/`down` maps exactly.

The removal phase is characterised by three invariants relative to the start
state `s0`, with `R` the list of nodes removed so far:
* `LiveWF R s`: nodes outside `R` point (vertically) to nodes outside `R`,
  and the doubly-linked property holds there;
* `CorrB s0 R s`: a vertical pointer can differ from its original value only
  if its original value is a removed node;
* `BFrozP s0 l s`: a node whose original neighbour is *not earlier* in the
  removal list `l` still carries its original pointer (such fields are never
  written before the relink phase corrects everything). -/

/-- Vertical well-formedness away from the removed set `R`. -/
def LiveWF (R : List Nat) (s : DLX) : Prop :=
  ∀ x, x ∉ R → s.up x ∉ R ∧ s.down x ∉ R ∧
    s.up (s.down x) = x ∧ s.down (s.up x) = x

/-- Corruption bound: vertical pointers differ from `s0` only towards
members of `R`. -/
def CorrB (s0 : DLX) (R : List Nat) (s : DLX) : Prop :=
  ∀ y, (s.down y = s0.down y ∨ s0.down y ∈ R) ∧
    (s.up y = s0.up y ∨ s0.up y ∈ R)

/-- Frozen-field property relative to the ordered list `S`: a node whose
original vertical neighbour lies at its own position or later in `S` still
carries the original pointer. -/
def BFrozP (s0 : DLX) (S : List Nat) (s : DLX) : Prop :=
  ∀ n aft, (n :: aft) <:+ S →
    (s0.down n ∈ n :: aft → s.down n = s0.down n) ∧
    (s0.up n ∈ n :: aft → s.up n = s0.up n)

theorem liveWF_congr {R R' : List Nat} (h : ∀ x, x ∈ R ↔ x ∈ R') {s : DLX}
    (hw : LiveWF R s) : LiveWF R' s := by
  intro x hx
  obtain ⟨h1, h2, h3, h4⟩ := hw x (fun c => hx ((h x).1 c))
  exact ⟨fun c => h1 ((h _).2 c), fun c => h2 ((h _).2 c), h3, h4⟩

theorem corrB_congr {s0 : DLX} {R R' : List Nat} (h : ∀ x, x ∈ R ↔ x ∈ R')
    {s : DLX} (hc : CorrB s0 R s) : CorrB s0 R' s := by
  intro y
  obtain ⟨h1, h2⟩ := hc y
  constructor
  · rcases h1 with h1 | h1
    · exact Or.inl h1
    · exact Or.inr ((h _).1 h1)
  · rcases h2 with h2 | h2
    · exact Or.inl h2
    · exact Or.inr ((h _).1 h2)

/-- In a duplicate-free list, the suffix starting at a given element is
unique. -/
theorem suffix_head_unique {l : List Nat} (hnd : l.Nodup) {n : Nat}
    {a b : List Nat} (ha : (n :: a) <:+ l) (hb : (n :: b) <:+ l) : a = b := by
  induction l with
  | nil =>
    have := ha.length_le
    simp at this
  | cons x xs ih =>
    rw [List.suffix_cons_iff] at ha hb
    rcases ha with ha | ha <;> rcases hb with hb | hb
    · rw [List.cons.injEq] at ha hb
      rw [ha.2, hb.2]
    · exfalso
      have hx : n ∈ xs := hb.sublist.subset (List.mem_cons_self n b)
      rw [List.cons.injEq] at ha
      rw [← ha.1] at hnd
      exact (List.nodup_cons.mp hnd).1 hx
    · exfalso
      have hx : n ∈ xs := ha.sublist.subset (List.mem_cons_self n a)
      rw [List.cons.injEq] at hb
      rw [← hb.1] at hnd
      exact (List.nodup_cons.mp hnd).1 hx
    · exact ih (List.nodup_cons.mp hnd).2 ha hb

/-- Removing a live node preserves live well-formedness. -/
theorem liveWF_remove {R : List Nat} {s : DLX} {n : Nat} (hn : n ∉ R)
    (h : LiveWF R s) : LiveWF (n :: R) (removeNode s n) := by
  obtain ⟨ha, hb, hub, hdb⟩ := h n hn
  intro x hx
  rw [List.mem_cons] at hx
  push_neg at hx
  obtain ⟨hxn, hxR⟩ := hx
  obtain ⟨h1, h2, h3, h4⟩ := h x hxR
  rw [removeNode_down, removeNode_up]
  refine ⟨?_, ?_, ?_, ?_⟩
  · rw [Function.update_apply]
    split
    · next hxb =>
      intro hmem
      rcases List.mem_cons.mp hmem with hc | hc
      · -- `s.up n = n` forces `s.down n = n`, so `x = n`
        apply hxn
        have hd : s.down n = n := by nth_rewrite 1 [← hc]; exact hdb
        rw [hxb, hd]
      · exact ha hc
    · next hxb =>
      intro hmem
      rcases List.mem_cons.mp hmem with hc | hc
      · apply hxb
        have := h4
        rw [hc] at this
        rw [← this]
      · exact h1 hc
  · rw [Function.update_apply]
    split
    · next hxa =>
      intro hmem
      rcases List.mem_cons.mp hmem with hc | hc
      · apply hxn
        have hu : s.up n = n := by nth_rewrite 1 [← hc]; exact hub
        rw [hxa, hu]
      · exact hb hc
    · next hxa =>
      intro hmem
      rcases List.mem_cons.mp hmem with hc | hc
      · apply hxa
        have := h3
        rw [hc] at this
        rw [← this]
      · exact h2 hc
  · by_cases hxa : x = s.up n
    · rw [hxa, Function.update_same, Function.update_same]
    · rw [Function.update_noteq hxa]
      have hne : s.down x ≠ s.down n := by
        intro hc
        apply hxn
        have := h3
        rw [hc, hub] at this
        exact this.symm
      rw [Function.update_noteq hne]
      exact h3
  · by_cases hxb : x = s.down n
    · rw [hxb, Function.update_same, Function.update_same]
    · rw [Function.update_noteq hxb]
      have hne : s.up x ≠ s.up n := by
        intro hc
        apply hxn
        have := h4
        rw [hc, hdb] at this
        exact this.symm
      rw [Function.update_noteq hne]
      exact h4

/-- Removing a live node preserves the corruption bound. -/
theorem corrB_remove {s0 s : DLX} {R : List Nat} {n : Nat} (hn : n ∉ R)
    (hl : LiveWF R s) (h : CorrB s0 R s) : CorrB s0 (n :: R) (removeNode s n) := by
  obtain ⟨_, _, hub, hdb⟩ := hl n hn
  intro y
  rw [removeNode_down, removeNode_up]
  constructor
  · rw [Function.update_apply]
    split
    · next hy =>
      rcases (h y).1 with h' | h'
      · right
        rw [← h', hy, hdb]
        exact List.mem_cons_self _ _
      · exact Or.inr (List.mem_cons_of_mem _ h')
    · rcases (h y).1 with h' | h'
      · exact Or.inl h'
      · exact Or.inr (List.mem_cons_of_mem _ h')
  · rw [Function.update_apply]
    split
    · next hy =>
      rcases (h y).2 with h' | h'
      · right
        rw [← h', hy, hub]
        exact List.mem_cons_self _ _
      · exact Or.inr (List.mem_cons_of_mem _ h')
    · rcases (h y).2 with h' | h'
      · exact Or.inl h'
      · exact Or.inr (List.mem_cons_of_mem _ h')

/-- Removing the next pending node preserves the frozen-field property:
fields whose original neighbour is not yet removed are never written. -/
theorem bFrozP_remove {s0 s : DLX} {l l2' : List Nat} {R : List Nat} {n : Nat}
    (hnd : l.Nodup) (hsuf : (n :: l2') <:+ l)
    (hcover : ∀ m ∈ l, m ∈ R ∨ m ∈ n :: l2') (hn : n ∉ R)
    (hl : LiveWF R s) (h : BFrozP s0 l s) : BFrozP s0 l (removeNode s n) := by
  obtain ⟨ha, hb, hub, hdb⟩ := hl n hn
  have hndn : (n :: l2').Nodup := List.Nodup.sublist hsuf.sublist hnd
  intro m aft hmsuf
  obtain ⟨hd, hu⟩ := h m aft hmsuf
  constructor
  · intro hmem
    rw [removeNode_down, Function.update_apply]
    split
    · next hma =>
      -- `m` is the written address `s.up n`; the prior value was `n`
      have hdm : s.down m = n := by rw [hma]; exact hdb
      have holdv : s.down m = s0.down m := hd hmem
      have h0n : s0.down m = n := by rw [← holdv, hdm]
      by_cases hmn : m = n
      · -- self-loop: `s.up n = n` hence `s.down n = n`
        have h5 : s.up n = n := by rw [← hma, hmn]
        have h6 : s.down n = n := by nth_rewrite 1 [← h5]; exact hdb
        rw [h6, h0n]
      · exfalso
        have hnaft : n ∈ aft := by
          have : n ∈ m :: aft := h0n ▸ hmem
          rcases List.mem_cons.mp this with hc | hc
          · exact absurd hc.symm hmn
          · exact hc
        have hmR : m ∉ R := by rw [hma]; exact ha
        have hml : m ∈ l := hmsuf.sublist.subset (List.mem_cons_self m aft)
        have hml2 : m ∈ l2' := by
          rcases hcover m hml with hc | hc
          · exact absurd hc hmR
          · rcases List.mem_cons.mp hc with hc' | hc'
            · exact absurd hc' hmn
            · exact hc'
        obtain ⟨p, t, hpt⟩ := List.append_of_mem hml2
        have hmt : (m :: t) <:+ l2' := ⟨p, hpt.symm⟩
        have hmtl : (m :: t) <:+ l :=
          hmt.trans ((List.suffix_cons n l2').trans hsuf)
        have haft : aft = t := suffix_head_unique hnd hmsuf hmtl
        have hnl2 : n ∈ l2' := hmt.sublist.subset (by
          rw [← haft] at *
          exact List.mem_cons_of_mem _ hnaft)
        exact (List.nodup_cons.mp hndn).1 hnl2
    · exact hd hmem
  · intro hmem
    rw [removeNode_up, Function.update_apply]
    split
    · next hma =>
      have hdm : s.up m = n := by rw [hma]; exact hub
      have holdv : s.up m = s0.up m := hu hmem
      have h0n : s0.up m = n := by rw [← holdv, hdm]
      by_cases hmn : m = n
      · have h5 : s.down n = n := by rw [← hma, hmn]
        have h6 : s.up n = n := by nth_rewrite 1 [← h5]; exact hub
        rw [h6, h0n]
      · exfalso
        have hnaft : n ∈ aft := by
          have : n ∈ m :: aft := h0n ▸ hmem
          rcases List.mem_cons.mp this with hc | hc
          · exact absurd hc.symm hmn
          · exact hc
        have hmR : m ∉ R := by rw [hma]; exact hb
        have hml : m ∈ l := hmsuf.sublist.subset (List.mem_cons_self m aft)
        have hml2 : m ∈ l2' := by
          rcases hcover m hml with hc | hc
          · exact absurd hc hmR
          · rcases List.mem_cons.mp hc with hc' | hc'
            · exact absurd hc' hmn
            · exact hc'
        obtain ⟨p, t, hpt⟩ := List.append_of_mem hml2
        have hmt : (m :: t) <:+ l2' := ⟨p, hpt.symm⟩
        have hmtl : (m :: t) <:+ l :=
          hmt.trans ((List.suffix_cons n l2').trans hsuf)
        have haft : aft = t := suffix_head_unique hnd hmsuf hmtl
        have hnl2 : n ∈ l2' := hmt.sublist.subset (by
          rw [← haft] at *
          exact List.mem_cons_of_mem _ hnaft)
        exact (List.nodup_cons.mp hndn).1 hnl2
    · exact hu hmem

/-- The removal phase: processing the pending suffix `l2` of the full list
`l` extends the three invariants. -/
theorem removePhase (s0 : DLX) (l : List Nat) (hnd : l.Nodup) :
    ∀ (l2 R : List Nat) (s : DLX), l2 <:+ l →
      (∀ m ∈ R, m ∉ l2) → (∀ m ∈ l, m ∈ R ∨ m ∈ l2) →
      LiveWF R s → CorrB s0 R s → BFrozP s0 l s →
      LiveWF (l2 ++ R) (removeList s l2) ∧ CorrB s0 (l2 ++ R) (removeList s l2) ∧
        BFrozP s0 l (removeList s l2) := by
  intro l2
  induction l2 with
  | nil =>
    intro R s _ _ hcover hw hc hf
    exact ⟨hw, hc, hf⟩
  | cons n l2' ih =>
    intro R s hsuf hdisj hcover hw hc hf
    have hn : n ∉ R := fun hmem => hdisj n hmem (List.mem_cons_self n l2')
    have hndn : (n :: l2').Nodup := List.Nodup.sublist hsuf.sublist hnd
    have hw' := liveWF_remove hn hw
    have hc' := corrB_remove hn hw hc
    have hf' := bFrozP_remove hnd hsuf hcover hn hw hf
    have hsuf' : l2' <:+ l := (List.suffix_cons n l2').trans hsuf
    have hdisj' : ∀ m ∈ n :: R, m ∉ l2' := by
      intro m hm
      rcases List.mem_cons.mp hm with hm | hm
      · rw [hm]; exact (List.nodup_cons.mp hndn).1
      · intro hc2
        exact hdisj m hm (List.mem_cons_of_mem _ hc2)
    have hcover' : ∀ m ∈ l, m ∈ n :: R ∨ m ∈ l2' := by
      intro m hm
      rcases hcover m hm with hm' | hm'
      · exact Or.inl (List.mem_cons_of_mem _ hm')
      · rcases List.mem_cons.mp hm' with hm'' | hm''
        · exact Or.inl (hm'' ▸ List.mem_cons_self _ _)
        · exact Or.inr hm''
    obtain ⟨rw1, rc1, rf1⟩ := ih (n :: R) (removeNode s n) hsuf' hdisj' hcover' hw' hc' hf'
    have hiff : ∀ x, x ∈ l2' ++ n :: R ↔ x ∈ (n :: l2') ++ R := by
      intro x
      simp only [List.mem_append, List.mem_cons]
      tauto
    exact ⟨liveWF_congr hiff rw1, corrB_congr hiff rc1, rf1⟩

/-- The relink phase: relinking the pending list in its original removal
order restores the original vertical pointers exactly. -/
theorem relinkPhase (s0 : DLX) (hwf : LiveWF [] s0) :
    ∀ (S : List Nat) (s : DLX), S.Nodup → CorrB s0 S s → BFrozP s0 S s →
      (relinkList s S).down = s0.down ∧ (relinkList s S).up = s0.up := by
  intro S
  induction S with
  | nil =>
    intro s _ hc _
    constructor
    · funext y
      rcases (hc y).1 with h | h
      · exact h
      · exact absurd h (List.not_mem_nil _)
    · funext y
      rcases (hc y).2 with h | h
      · exact h
      · exact absurd h (List.not_mem_nil _)
  | cons n S' ih =>
    intro s hnd hc hf
    obtain ⟨_, _, hub0, hdb0⟩ := hwf n (List.not_mem_nil n)
    -- the two reads of the relink body hold their original values
    have hdr : s.down n = s0.down n := by
      by_cases hmem : s0.down n ∈ n :: S'
      · exact (hf n S' List.suffix_rfl).1 hmem
      · rcases (hc n).1 with h | h
        · exact h
        · exact absurd h hmem
    have hur : s.up n = s0.up n := by
      by_cases hmem : s0.up n ∈ n :: S'
      · exact (hf n S' List.suffix_rfl).2 hmem
      · rcases (hc n).2 with h | h
        · exact h
        · exact absurd h hmem
    have hcond : s.up n = n → s.down n = n := by
      intro hc1
      rw [hur] at hc1
      rw [hdr]
      nth_rewrite 1 [← hc1]
      exact hdb0
    have hsd : (relinkNode s n).down = Function.update s.down (s0.up n) n := by
      rw [relinkNode_down, hur]
    have hsu : (relinkNode s n).up = Function.update s.up (s0.down n) n := by
      rw [relinkNode_up_of s n hcond, hdr]
    have hc' : CorrB s0 S' (relinkNode s n) := by
      intro y
      constructor
      · rw [hsd, Function.update_apply]
        split
        · next hy =>
          left
          rw [hy, hdb0]
        · next hy =>
          rcases (hc y).1 with h | h
          · exact Or.inl h
          · rcases List.mem_cons.mp h with h' | h'
            · exfalso
              apply hy
              obtain ⟨_, _, huby, _⟩ := hwf y (List.not_mem_nil y)
              rw [h'] at huby
              exact huby.symm
            · exact Or.inr h'
      · rw [hsu, Function.update_apply]
        split
        · next hy =>
          left
          rw [hy, hub0]
        · next hy =>
          rcases (hc y).2 with h | h
          · exact Or.inl h
          · rcases List.mem_cons.mp h with h' | h'
            · exfalso
              apply hy
              obtain ⟨_, _, _, hdby⟩ := hwf y (List.not_mem_nil y)
              rw [h'] at hdby
              exact hdby.symm
            · exact Or.inr h'
    have hf' : BFrozP s0 S' (relinkNode s n) := by
      intro m aft hmsuf
      obtain ⟨hd, hu⟩ := hf m aft (hmsuf.trans (List.suffix_cons n S'))
      constructor
      · intro hmem
        rw [hsd, Function.update_apply]
        split
        · next hma =>
          rw [hma]
          exact hdb0.symm
        · exact hd hmem
      · intro hmem
        rw [hsu, Function.update_apply]
        split
        · next hma =>
          rw [hma]
          exact hub0.symm
        · exact hu hmem
    obtain ⟨r1, r2⟩ := ih (relinkNode s n) (List.nodup_cons.mp hnd).2 hc' hf'
    rw [relinkList_cons]
    exact ⟨r1, r2⟩

/-- Removing a duplicate-free list of nodes from a vertically well-formed
state and then relinking the same list in the same order restores the state
exactly (all fields). -/
theorem crown_restore (s0 : DLX) (l : List Nat) (hnd : l.Nodup)
    (hwf : LiveWF [] s0) : relinkList (removeList s0 l) l = s0 := by
  obtain ⟨_, rc1, rf1⟩ := removePhase s0 l hnd l [] s0 List.suffix_rfl
    (by intro m hm; exact absurd hm (List.not_mem_nil m))
    (fun m hm => Or.inr hm) hwf
    (fun y => ⟨Or.inl rfl, Or.inl rfl⟩)
    (fun n aft _ => ⟨fun _ => rfl, fun _ => rfl⟩)
  have rc1' : CorrB s0 l (removeList s0 l) := corrB_congr (by simp) rc1
  obtain ⟨hd, hu⟩ := relinkPhase s0 hwf l (removeList s0 l) hnd rc1' rf1
  apply DLX.ext
  · rw [relinkList_left, removeList_left]
  · rw [relinkList_right, removeList_right]
  · exact hu
  · exact hd
  · funext k
    rw [relinkList_num, removeList_num]
    have hcnt : (l.countP (fun n => (removeList s0 l).col n = k)) =
        (l.countP (fun n => s0.col n = k)) := by
      rw [removeList_col]
    rw [hcnt]
    omega
  · rw [relinkList_col, removeList_col]
  · rw [relinkList_cval, removeList_cval]
  · rw [relinkList_payload, removeList_payload]
  · rw [relinkList_fresh, removeList_fresh]

/-! ## Loop traversals as folds over static paths

The `while` loops of `cover`/`uncover` follow pointers of the evolving state.
When vertical lists are column-pure and the removed nodes belong to other
columns, the writes never touch the pointers the traversal reads, so each
loop equals a fold over the path read off the *initial* state. -/

/-- `pathB f x o b`: starting at `x`, the loop processes exactly the nodes of
`o` in order (following `f`) and then reaches the sentinel `b`. -/
def pathB (f : Nat → Nat) : Nat → List Nat → Nat → Bool
  | x, [], b => x == b
  | x, n :: ns, b => x == n && pathB f (f n) ns b

theorem removeList_append (σ : DLX) (a b : List Nat) :
    removeList σ (a ++ b) = removeList (removeList σ a) b := by
  simp [removeList, List.foldl_append]

theorem relinkList_append (σ : DLX) (a b : List Nat) :
    relinkList σ (a ++ b) = relinkList (relinkList σ a) b := by
  simp [relinkList, List.foldl_append]

/-- Column purity is preserved by a removal. -/
theorem colpure_remove {σ : DLX} {n : Nat}
    (h : ∀ x, σ.col (σ.up x) = σ.col x ∧ σ.col (σ.down x) = σ.col x) :
    ∀ x, (removeNode σ n).col ((removeNode σ n).up x) = (removeNode σ n).col x ∧
      (removeNode σ n).col ((removeNode σ n).down x) = (removeNode σ n).col x := by
  intro x
  rw [removeNode_col, removeNode_up, removeNode_down]
  constructor
  · rw [Function.update_apply]
    split
    · next hx =>
      rw [(h n).1, hx]
      exact ((h n).2).symm
    · exact (h x).1
  · rw [Function.update_apply]
    split
    · next hx =>
      rw [(h n).2, hx]
      exact ((h n).1).symm
    · exact (h x).2

/-- Column purity is preserved by a relink. -/
theorem colpure_relink {σ : DLX} {n : Nat}
    (h : ∀ x, σ.col (σ.up x) = σ.col x ∧ σ.col (σ.down x) = σ.col x) :
    ∀ x, (relinkNode σ n).col ((relinkNode σ n).up x) = (relinkNode σ n).col x ∧
      (relinkNode σ n).col ((relinkNode σ n).down x) = (relinkNode σ n).col x := by
  intro x
  have hup : (relinkNode σ n).up =
      Function.update σ.up (Function.update σ.down (σ.up n) n n) n := rfl
  rw [relinkNode_col, hup, relinkNode_down]
  constructor
  · rw [Function.update_apply]
    split
    · next hx =>
      rw [hx, Function.update_apply]
      split
      · rfl
      · exact ((h n).2).symm
    · exact (h x).1
  · rw [Function.update_apply]
    split
    · next hx =>
      rw [hx]
      exact ((h n).1).symm
    · exact (h x).2

/-- Removing nodes of other columns does not disturb vertical pointers of
column-`c` nodes and keeps purity. -/
theorem removeList_stab (c : Nat) : ∀ (L : List Nat) (σ : DLX),
    (∀ x, σ.col (σ.up x) = σ.col x ∧ σ.col (σ.down x) = σ.col x) →
    (∀ n ∈ L, σ.col n ≠ c) →
    (∀ x, (removeList σ L).col ((removeList σ L).up x) = (removeList σ L).col x ∧
      (removeList σ L).col ((removeList σ L).down x) = (removeList σ L).col x) ∧
    (∀ x, σ.col x = c →
      (removeList σ L).up x = σ.up x ∧ (removeList σ L).down x = σ.down x) := by
  intro L
  induction L with
  | nil => intro σ hp _; exact ⟨hp, fun x _ => ⟨rfl, rfl⟩⟩
  | cons n ns ih =>
    intro σ hp hnc
    have hnc0 : σ.col n ≠ c := hnc n (List.mem_cons_self n ns)
    have hup : ∀ x, σ.col x = c → (removeNode σ n).up x = σ.up x := by
      intro x hx
      rw [removeNode_up, Function.update_apply, if_neg]
      intro hc
      apply hnc0
      rw [← (hp n).2, ← hc, hx]
    have hdn : ∀ x, σ.col x = c → (removeNode σ n).down x = σ.down x := by
      intro x hx
      rw [removeNode_down, Function.update_apply, if_neg]
      intro hc
      apply hnc0
      rw [← (hp n).1, ← hc, hx]
    obtain ⟨p1, p2⟩ := ih (removeNode σ n) (colpure_remove hp)
      (by intro m hm; rw [removeNode_col]; exact hnc m (List.mem_cons_of_mem _ hm))
    refine ⟨p1, ?_⟩
    intro x hx
    have hx' : (removeNode σ n).col x = c := hx
    obtain ⟨q1, q2⟩ := p2 x hx'
    rw [removeList_cons]
    exact ⟨q1.trans (hup x hx), q2.trans (hdn x hx)⟩

/-- Relinking nodes of other columns does not disturb vertical pointers of
column-`c` nodes and keeps purity. -/
theorem relinkList_stab (c : Nat) : ∀ (L : List Nat) (σ : DLX),
    (∀ x, σ.col (σ.up x) = σ.col x ∧ σ.col (σ.down x) = σ.col x) →
    (∀ n ∈ L, σ.col n ≠ c) →
    (∀ x, (relinkList σ L).col ((relinkList σ L).up x) = (relinkList σ L).col x ∧
      (relinkList σ L).col ((relinkList σ L).down x) = (relinkList σ L).col x) ∧
    (∀ x, σ.col x = c →
      (relinkList σ L).up x = σ.up x ∧ (relinkList σ L).down x = σ.down x) := by
  intro L
  induction L with
  | nil => intro σ hp _; exact ⟨hp, fun x _ => ⟨rfl, rfl⟩⟩
  | cons n ns ih =>
    intro σ hp hnc
    have hnc0 : σ.col n ≠ c := hnc n (List.mem_cons_self n ns)
    have hupr : (relinkNode σ n).up =
        Function.update σ.up (Function.update σ.down (σ.up n) n n) n := rfl
    have hup : ∀ x, σ.col x = c → (relinkNode σ n).up x = σ.up x := by
      intro x hx
      rw [hupr, Function.update_apply, if_neg]
      intro hc
      rw [Function.update_apply] at hc
      apply hnc0
      by_cases hcase : n = σ.up n
      · rw [if_pos hcase] at hc
        rw [← hc, hx]
      · rw [if_neg hcase] at hc
        rw [← (hp n).2, ← hc, hx]
    have hdn : ∀ x, σ.col x = c → (relinkNode σ n).down x = σ.down x := by
      intro x hx
      rw [relinkNode_down, Function.update_apply, if_neg]
      intro hc
      apply hnc0
      rw [← (hp n).1, ← hc, hx]
    obtain ⟨p1, p2⟩ := ih (relinkNode σ n) (colpure_relink hp)
      (by intro m hm; rw [relinkNode_col]; exact hnc m (List.mem_cons_of_mem _ hm))
    refine ⟨p1, ?_⟩
    intro x hx
    have hx' : (relinkNode σ n).col x = c := hx
    obtain ⟨q1, q2⟩ := p2 x hx'
    rw [relinkList_cons]
    exact ⟨q1.trans (hup x hx), q2.trans (hdn x hx)⟩

/-- The inner cover loop removes exactly the nodes of the row path, in path
order. -/
theorem coverRowLoop_eq (s : DLX) (r : Nat) :
    ∀ (o : List Nat) (x : Nat) (σ : DLX) (fuel : Nat),
      o.length < fuel →
      pathB s.right x o r = true → r ∉ o →
      (∀ n ∈ o, σ.right n = s.right n) →
      coverRowLoop fuel σ r x = removeList σ o := by
  intro o
  induction o with
  | nil =>
    intro x σ fuel hf hp _ _
    cases fuel with
    | zero => simp at hf
    | succ f =>
      have hx : x = r := by simpa [pathB] using hp
      simp [coverRowLoop, hx]
  | cons n ns ih =>
    intro x σ fuel hf hp hr hstab
    cases fuel with
    | zero => simp at hf
    | succ f =>
      have hx : x = n ∧ pathB s.right (s.right n) ns r = true := by
        simpa [pathB] using hp
      obtain ⟨hx1, hx2⟩ := hx
      have hxr : x ≠ r := by
        rw [hx1]
        intro hc
        exact hr (hc ▸ List.mem_cons_self n ns)
      have step : coverRowLoop (f+1) σ r x =
          coverRowLoop f (removeNode σ x) r ((removeNode σ x).right x) := by
        simp only [coverRowLoop, if_neg hxr]
      rw [step, hx1, removeList_cons]
      have harg : (removeNode σ n).right n = s.right n := by
        rw [removeNode_right]
        exact hstab n (List.mem_cons_self n ns)
      rw [harg]
      apply ih (s.right n) (removeNode σ n) f (by simpa using hf) hx2
        (fun hc => hr (List.mem_cons_of_mem _ hc))
      intro m hm
      rw [removeNode_right]
      exact hstab m (List.mem_cons_of_mem _ hm)

/-- The inner uncover loop relinks exactly the nodes of the row path, in the
same path order. -/
theorem uncoverRowLoop_eq (s : DLX) (r : Nat) :
    ∀ (o : List Nat) (x : Nat) (σ : DLX) (fuel : Nat),
      o.length < fuel →
      pathB s.right x o r = true → r ∉ o →
      (∀ n ∈ o, σ.right n = s.right n) →
      uncoverRowLoop fuel σ r x = relinkList σ o := by
  intro o
  induction o with
  | nil =>
    intro x σ fuel hf hp _ _
    cases fuel with
    | zero => simp at hf
    | succ f =>
      have hx : x = r := by simpa [pathB] using hp
      simp [uncoverRowLoop, hx]
  | cons n ns ih =>
    intro x σ fuel hf hp hr hstab
    cases fuel with
    | zero => simp at hf
    | succ f =>
      have hx : x = n ∧ pathB s.right (s.right n) ns r = true := by
        simpa [pathB] using hp
      obtain ⟨hx1, hx2⟩ := hx
      have hxr : x ≠ r := by
        rw [hx1]
        intro hc
        exact hr (hc ▸ List.mem_cons_self n ns)
      have step : uncoverRowLoop (f+1) σ r x =
          uncoverRowLoop f (relinkNode σ x) r ((relinkNode σ x).right x) := by
        simp only [uncoverRowLoop, if_neg hxr]
      rw [step, hx1, relinkList_cons]
      have harg : (relinkNode σ n).right n = s.right n := by
        rw [relinkNode_right]
        exact hstab n (List.mem_cons_self n ns)
      rw [harg]
      apply ih (s.right n) (relinkNode σ n) f (by simpa using hf) hx2
        (fun hc => hr (List.mem_cons_of_mem _ hc))
      intro m hm
      rw [relinkNode_right]
      exact hstab m (List.mem_cons_of_mem _ hm)

/-- The outer cover loop removes exactly the concatenation of the row paths
of the column path, in traversal order. -/
theorem coverColLoop_eq (s : DLX) (c : Nat) :
    ∀ (rows : List Nat) (others : List (List Nat)) (y : Nat) (σ : DLX)
      (fuel rowFuel : Nat),
      rows.length < fuel →
      pathB s.up y rows c = true → c ∉ rows →
      (∀ r ∈ rows, s.col r = c) →
      List.Forall₂ (fun r o => pathB s.right (s.right r) o r = true ∧ r ∉ o ∧
        o.length < rowFuel) rows others →
      (∀ n ∈ others.flatten, s.col n ≠ c) →
      σ.col = s.col →
      (∀ x, σ.col (σ.up x) = σ.col x ∧ σ.col (σ.down x) = σ.col x) →
      (∀ x, s.col x = c → σ.up x = s.up x) →
      (∀ r ∈ rows, σ.right r = s.right r) →
      (∀ n ∈ others.flatten, σ.right n = s.right n) →
      coverColLoop fuel rowFuel σ c y = removeList σ others.flatten := by
  intro rows
  induction rows with
  | nil =>
    intro others y σ fuel rowFuel hf hp _ _ hfa _ _ _ _ _ _
    cases hfa
    cases fuel with
    | zero => simp at hf
    | succ f =>
      have hy : y = c := by simpa [pathB] using hp
      simp [coverColLoop, hy, removeList]
  | cons r rows' ih =>
    intro others y σ fuel rowFuel hf hp hcr hrc hfa hoc hcol hpure hupst hrst host
    rcases hfa with _ | ⟨⟨hpo, hro, hlo⟩, hfa'⟩
    rename_i o others'
    cases fuel with
    | zero => simp at hf
    | succ f =>
      have hy : y = r ∧ pathB s.up (s.up r) rows' c = true := by
        simpa [pathB] using hp
      obtain ⟨hy1, hy2⟩ := hy
      have hyc : y ≠ c := by
        rw [hy1]
        intro hc
        exact hcr (hc ▸ List.mem_cons_self r rows')
      have step : coverColLoop (f+1) rowFuel σ c y =
          coverColLoop f rowFuel (coverRowLoop rowFuel σ y (σ.right y)) c
            ((coverRowLoop rowFuel σ y (σ.right y)).up y) := by
        simp only [coverColLoop, if_neg hyc]
      have hrr : σ.right y = s.right y := by
        rw [hy1]
        exact hrst r (List.mem_cons_self r rows')
      have hinner : coverRowLoop rowFuel σ y (σ.right y) = removeList σ o := by
        rw [hrr, hy1]
        exact coverRowLoop_eq s r o (s.right r) σ rowFuel hlo hpo hro
          (fun m hm => host m (by simp [List.mem_flatten]; exact Or.inl hm))
      have hocol : ∀ n ∈ o, σ.col n ≠ c := by
        intro m hm
        rw [hcol]
        exact hoc m (by simp [List.mem_flatten]; exact Or.inl hm)
      obtain ⟨hstp, hstf⟩ := removeList_stab c o σ hpure hocol
      have hupy : (removeList σ o).up y = s.up y := by
        have hyc2 : σ.col y = c := by
          rw [hcol, hy1]
          exact hrc r (List.mem_cons_self r rows')
        exact ((hstf y hyc2).1).trans (hupst y (by rw [← hcol]; exact hyc2))
      rw [step, hinner, hupy, hy1]
      have := ih others' (s.up r) (removeList σ o) f rowFuel
        (by simpa using hf) hy2
        (fun hc => hcr (List.mem_cons_of_mem _ hc))
        (fun m hm => hrc m (List.mem_cons_of_mem _ hm)) hfa'
        (fun m hm => hoc m (by simp [List.mem_flatten] at hm ⊢; exact Or.inr hm))
        (by rw [removeList_col, hcol]) hstp
        (by
          intro x hx
          have hxσ : σ.col x = c := by rw [hcol]; exact hx
          exact ((hstf x hxσ).1).trans (hupst x hx))
        (by
          intro m hm
          rw [removeList_right]
          exact hrst m (List.mem_cons_of_mem _ hm))
        (by
          intro m hm
          rw [removeList_right]
          exact host m (by simp [List.mem_flatten] at hm ⊢; exact Or.inr hm))
      rw [this, ← removeList_append]
      simp [List.flatten]

/-- The outer uncover loop relinks exactly the concatenation of the row
paths of the column path, in the same traversal order as the cover loop. -/
theorem uncoverColLoop_eq (s : DLX) (c : Nat) :
    ∀ (rows : List Nat) (others : List (List Nat)) (y : Nat) (σ : DLX)
      (fuel rowFuel : Nat),
      rows.length < fuel →
      pathB s.up y rows c = true → c ∉ rows →
      (∀ r ∈ rows, s.col r = c) →
      List.Forall₂ (fun r o => pathB s.right (s.right r) o r = true ∧ r ∉ o ∧
        o.length < rowFuel) rows others →
      (∀ n ∈ others.flatten, s.col n ≠ c) →
      σ.col = s.col →
      (∀ x, σ.col (σ.up x) = σ.col x ∧ σ.col (σ.down x) = σ.col x) →
      (∀ x, s.col x = c → σ.up x = s.up x) →
      (∀ r ∈ rows, σ.right r = s.right r) →
      (∀ n ∈ others.flatten, σ.right n = s.right n) →
      uncoverColLoop fuel rowFuel σ c y = relinkList σ others.flatten := by
  intro rows
  induction rows with
  | nil =>
    intro others y σ fuel rowFuel hf hp _ _ hfa _ _ _ _ _ _
    cases hfa
    cases fuel with
    | zero => simp at hf
    | succ f =>
      have hy : y = c := by simpa [pathB] using hp
      simp [uncoverColLoop, hy, relinkList]
  | cons r rows' ih =>
    intro others y σ fuel rowFuel hf hp hcr hrc hfa hoc hcol hpure hupst hrst host
    rcases hfa with _ | ⟨⟨hpo, hro, hlo⟩, hfa'⟩
    rename_i o others'
    cases fuel with
    | zero => simp at hf
    | succ f =>
      have hy : y = r ∧ pathB s.up (s.up r) rows' c = true := by
        simpa [pathB] using hp
      obtain ⟨hy1, hy2⟩ := hy
      have hyc : y ≠ c := by
        rw [hy1]
        intro hc
        exact hcr (hc ▸ List.mem_cons_self r rows')
      have step : uncoverColLoop (f+1) rowFuel σ c y =
          uncoverColLoop f rowFuel (uncoverRowLoop rowFuel σ y (σ.right y)) c
            ((uncoverRowLoop rowFuel σ y (σ.right y)).up y) := by
        simp only [uncoverColLoop, if_neg hyc]
      have hrr : σ.right y = s.right y := by
        rw [hy1]
        exact hrst r (List.mem_cons_self r rows')
      have hinner : uncoverRowLoop rowFuel σ y (σ.right y) = relinkList σ o := by
        rw [hrr, hy1]
        exact uncoverRowLoop_eq s r o (s.right r) σ rowFuel hlo hpo hro
          (fun m hm => host m (by simp [List.mem_flatten]; exact Or.inl hm))
      have hocol : ∀ n ∈ o, σ.col n ≠ c := by
        intro m hm
        rw [hcol]
        exact hoc m (by simp [List.mem_flatten]; exact Or.inl hm)
      obtain ⟨hstp, hstf⟩ := relinkList_stab c o σ hpure hocol
      have hupy : (relinkList σ o).up y = s.up y := by
        have hyc2 : σ.col y = c := by
          rw [hcol, hy1]
          exact hrc r (List.mem_cons_self r rows')
        exact ((hstf y hyc2).1).trans (hupst y (by rw [← hcol]; exact hyc2))
      rw [step, hinner, hupy, hy1]
      have := ih others' (s.up r) (relinkList σ o) f rowFuel
        (by simpa using hf) hy2
        (fun hc => hcr (List.mem_cons_of_mem _ hc))
        (fun m hm => hrc m (List.mem_cons_of_mem _ hm)) hfa'
        (fun m hm => hoc m (by simp [List.mem_flatten] at hm ⊢; exact Or.inr hm))
        (by rw [relinkList_col, hcol]) hstp
        (by
          intro x hx
          have hxσ : σ.col x = c := by rw [hcol]; exact hx
          exact ((hstf x hxσ).1).trans (hupst x hx))
        (by
          intro m hm
          rw [relinkList_right]
          exact hrst m (List.mem_cons_of_mem _ hm))
        (by
          intro m hm
          rw [relinkList_right]
          exact host m (by simp [List.mem_flatten] at hm ⊢; exact Or.inr hm))
      rw [this, ← relinkList_append]
      simp [List.flatten]

/-- Vertical splices ignore the horizontal fields entirely. -/
theorem relinkList_setLR (l : List Nat) : ∀ (σ : DLX) (Lf Rf : Nat → Nat),
    relinkList { σ with left := Lf, right := Rf } l =
      { relinkList σ l with left := Lf, right := Rf } := by
  induction l with
  | nil => intro σ Lf Rf; rfl
  | cons n ns ih =>
    intro σ Lf Rf
    rw [relinkList_cons, relinkList_cons]
    have hstep : relinkNode { σ with left := Lf, right := Rf } n =
        { relinkNode σ n with left := Lf, right := Rf } := rfl
    rw [hstep, ih]

/-- **C2**: for every column node `c` of a well-formed matrix (vertically
well-formed, column-pure, with `c` doubly linked in the horizontal list),
calling `c.cover()` and then `c.uncover()` with no other structural change in
between restores every `left`/`right`/`up`/`down` pointer and every
`num_of_nodes` counter of the whole structure to its exact pre-cover value.
`rows` is the vertical path of column `c` and `others` the horizontal paths
of its rows (the nodes the cover loops remove and the uncover loops relink,
in the same order). -/
theorem cover_uncover_inverse (s : DLX) (c : Nat) (rows : List Nat)
    (others : List (List Nat)) (fuel : Nat)
    (hwf : LiveWF [] s)
    (hpure : ∀ x, s.col (s.up x) = s.col x ∧ s.col (s.down x) = s.col x)
    (hlr : s.left (s.right c) = c) (hrl : s.right (s.left c) = c)
    (hcc : s.col c = c)
    (hpath : pathB s.up (s.up c) rows c = true)
    (hcrows : c ∉ rows)
    (hrowsc : ∀ r ∈ rows, s.col r = c)
    (hforall : List.Forall₂ (fun r o => pathB s.right (s.right r) o r = true ∧
      r ∉ o ∧ o.length < fuel) rows others)
    (hothersc : ∀ n ∈ others.flatten, s.col n ≠ c)
    (hnd : others.flatten.Nodup)
    (hlen : rows.length < fuel)
    (hlc1 : s.left c ∉ rows) (hlc2 : s.left c ∉ others.flatten) :
    uncover fuel (cover fuel s c) c = s := by
  set L := others.flatten with hL
  -- the cover loops remove exactly `L`
  have hloop : coverColLoop fuel fuel s c (s.up c) = removeList s L :=
    coverColLoop_eq s c rows others (s.up c) s fuel fuel hlen hpath hcrows
      hrowsc hforall hothersc rfl hpure (fun _ _ => rfl)
      (fun _ _ => rfl) (fun _ _ => rfl)
  -- the state after `cover`
  have hcov : cover fuel s c =
      { removeList s L with
        right := Function.update s.right (s.left c) (s.right c),
        left := Function.update s.left (s.right c) (s.left c) } := by
    unfold cover
    rw [hloop]
    apply DLX.ext <;>
      simp [removeList_left, removeList_right, Function.update_apply]
  -- stability data for the state after removal
  obtain ⟨hstp, hstf⟩ := removeList_stab c L s hpure (fun n hn => hothersc n hn)
  have hRmidc : Function.update s.right (s.left c) (s.right c) c = s.right c := by
    rw [Function.update_apply]
    split <;> rfl
  have hupc : (cover fuel s c).up c = s.up c := by
    rw [hcov]
    show (removeList s L).up c = s.up c
    exact (hstf c hcc).1
  -- the uncover loops relink exactly `L`, in the same order
  have hloop2 : uncoverColLoop fuel fuel (cover fuel s c) c
      ((cover fuel s c).up c) = relinkList (cover fuel s c) L := by
    rw [hupc]
    apply uncoverColLoop_eq s c rows others (s.up c) (cover fuel s c) fuel fuel
      hlen hpath hcrows hrowsc hforall hothersc
    · rw [hcov]
      show (removeList s L).col = s.col
      exact removeList_col s L
    · intro x
      rw [hcov]
      exact hstp x
    · intro x hx
      rw [hcov]
      show (removeList s L).up x = s.up x
      exact (hstf x hx).1
    · intro r hr
      rw [hcov]
      show Function.update s.right (s.left c) (s.right c) r = s.right r
      rw [Function.update_apply, if_neg]
      intro hcontra
      exact hlc1 (hcontra ▸ hr)
    · intro n hn
      rw [hcov]
      show Function.update s.right (s.left c) (s.right c) n = s.right n
      rw [Function.update_apply, if_neg]
      intro hcontra
      exact hlc2 (hcontra ▸ hn)
  -- the relinks restore the vertical structure (same-order restoration)
  have hcrown : relinkList (cover fuel s c) L =
      { s with
        right := Function.update s.right (s.left c) (s.right c),
        left := Function.update s.left (s.right c) (s.left c) } := by
    rw [hcov, relinkList_setLR, crown_restore s L hnd hwf]
  -- assemble `uncover`
  unfold uncover
  rw [hloop2, hcrown]
  have hs1r : Function.update s.right (s.left c) (s.right c) c = s.right c := hRmidc
  apply DLX.ext
  · -- left
    show Function.update
        (Function.update s.left (s.right c) (s.left c))
        (Function.update s.right (s.left c) (s.right c) c) c = s.left
    rw [hs1r, Function.update_idem]
    nth_rewrite 2 [← hlr]
    exact Function.update_eq_self _ _
  · -- right
    show Function.update (Function.update s.right (s.left c) (s.right c))
        (Function.update
          (Function.update s.left (s.right c) (s.left c))
          (Function.update s.right (s.left c) (s.right c) c) c c) c = s.right
    rw [hs1r, Function.update_idem]
    have hlc : Function.update s.left (s.right c) c c = s.left c := by
      rw [Function.update_apply]
      split
      · next hceq =>
        have hlcc : s.left c = c := by
          nth_rewrite 1 [hceq]
          exact hlr
        rw [hlcc]
      · rfl
    rw [hlc, Function.update_idem]
    nth_rewrite 2 [← hrl]
    exact Function.update_eq_self _ _
  · rfl
  · rfl
  · rfl
  · rfl
  · rfl
  · rfl
  · rfl

/-! ## A small well-formed fixture

Two constraint columns (ids 1, 2) and one candidate row with nodes 3 (in
column 1) and 4 (in column 2); id 0 is the root.  Used to instantiate the
cover/uncover theorems on a concrete input. -/

/-- A concrete two-column, one-row matrix. -/
def covWitness : DLX where
  left := fun x => if x = 0 then 2 else if x = 1 then 0 else if x = 2 then 1
    else if x = 3 then 4 else if x = 4 then 3 else x
  right := fun x => if x = 0 then 1 else if x = 1 then 2 else if x = 2 then 0
    else if x = 3 then 4 else if x = 4 then 3 else x
  up := fun x => if x = 1 then 3 else if x = 3 then 1 else if x = 2 then 4
    else if x = 4 then 2 else x
  down := fun x => if x = 1 then 3 else if x = 3 then 1 else if x = 2 then 4
    else if x = 4 then 2 else x
  num := fun x => if x = 1 then 1 else if x = 2 then 1 else 0
  col := fun x => if x = 3 then 1 else if x = 4 then 2 else x
  cval := fun _ => (Constraint.CELL, 0, 0)
  payload := fun _ => (0, 0, 0)
  fresh := 5

theorem covWitness_wf : LiveWF [] covWitness := by
  intro x _
  refine ⟨List.not_mem_nil _, List.not_mem_nil _, ?_, ?_⟩ <;>
  · simp only [covWitness]
    split_ifs <;> omega

theorem covWitness_pure : ∀ x,
    covWitness.col (covWitness.up x) = covWitness.col x ∧
    covWitness.col (covWitness.down x) = covWitness.col x := by
  intro x
  constructor <;>
  · simp only [covWitness]
    split_ifs <;> omega

/-- Witness for C2: the hypotheses are satisfied by the concrete two-column
matrix `covWitness` with column `1`, and cover-then-uncover restores it. -/
theorem cover_uncover_inverse_witness :
    pathB covWitness.up (covWitness.up 1) [3] 1 = true ∧
    uncover 5 (cover 5 covWitness 1) 1 = covWitness :=
  ⟨by decide,
   cover_uncover_inverse covWitness 1 [3] [[4]] 5 covWitness_wf covWitness_pure
     (by decide) (by decide) (by decide) (by decide) (by decide) (by decide)
     (List.Forall₂.cons ⟨by decide, by decide, by decide⟩ List.Forall₂.nil)
     (by decide) (by decide) (by decide) (by decide) (by decide)⟩

/-! ## Traversal orders

The observable traversal order of each loop: the sequence of nodes it
processes (for the cover/uncover loops) or of columns it covers/uncovers
(for the backtracking loops of `solve`).  Each loop provably equals the fold
of its step over its own trace, so the traces are faithful records of the
loops' operation order. -/

/-- Nodes removed by the inner cover loop, in processing order. -/
def coverRowLoopTrace : Nat → DLX → Nat → Nat → List Nat
  | 0, _, _, _ => []
  | fuel+1, s, curRow, curNode =>
    if curNode = curRow then []
    else
      let s' := removeNode s curNode
      curNode :: coverRowLoopTrace fuel s' curRow (s'.right curNode)

/-- Nodes removed by `cover`'s loops, in processing order. -/
def coverColLoopTrace : Nat → Nat → DLX → Nat → Nat → List Nat
  | 0, _, _, _, _ => []
  | fuel+1, rowFuel, s, c, curRow =>
    if curRow = c then []
    else
      let s' := coverRowLoop rowFuel s curRow (s.right curRow)
      coverRowLoopTrace rowFuel s curRow (s.right curRow) ++
        coverColLoopTrace fuel rowFuel s' c (s'.up curRow)

/-- The order in which `c.cover()` removes nodes. -/
def coverTrace (fuel : Nat) (s : DLX) (c : Nat) : List Nat :=
  coverColLoopTrace fuel fuel s c (s.up c)

/-- Nodes relinked by the inner uncover loop, in processing order. -/
def uncoverRowLoopTrace : Nat → DLX → Nat → Nat → List Nat
  | 0, _, _, _ => []
  | fuel+1, s, curRow, curNode =>
    if curNode = curRow then []
    else
      let s' := relinkNode s curNode
      curNode :: uncoverRowLoopTrace fuel s' curRow (s'.right curNode)

/-- Nodes relinked by `uncover`'s loops, in processing order. -/
def uncoverColLoopTrace : Nat → Nat → DLX → Nat → Nat → List Nat
  | 0, _, _, _, _ => []
  | fuel+1, rowFuel, s, c, curRow =>
    if curRow = c then []
    else
      let s' := uncoverRowLoop rowFuel s curRow (s.right curRow)
      uncoverRowLoopTrace rowFuel s curRow (s.right curRow) ++
        uncoverColLoopTrace fuel rowFuel s' c (s'.up curRow)

/-- The order in which `c.uncover()` relinks nodes. -/
def uncoverTrace (fuel : Nat) (s : DLX) (c : Nat) : List Nat :=
  uncoverColLoopTrace fuel fuel s c (s.up c)

/-- Columns covered by the backtracking step's cover loop, in order. -/
def coverRowColsTrace : Nat → Nat → DLX → Nat → Nat → List Nat
  | 0, _, _, _, _ => []
  | fuel+1, coverFuel, s, curNode, rowNode =>
    if rowNode = curNode then []
    else
      let s' := cover coverFuel s (s.col rowNode)
      s.col rowNode :: coverRowColsTrace fuel coverFuel s' curNode (s'.right rowNode)

/-- Columns uncovered by the backtracking step's uncover loop, in order. -/
def uncoverRowColsTrace : Nat → Nat → DLX → Nat → Nat → List Nat
  | 0, _, _, _, _ => []
  | fuel+1, coverFuel, s, curNode, rowNode =>
    if rowNode = curNode then []
    else
      let s' := uncover coverFuel s (s.col rowNode)
      s.col rowNode :: uncoverRowColsTrace fuel coverFuel s' curNode (s'.right rowNode)

/-- The inner cover loop is the fold of `removeNode` over its trace. -/
theorem coverRowLoop_eq_trace : ∀ (fuel : Nat) (s : DLX) (r x : Nat),
    coverRowLoop fuel s r x = removeList s (coverRowLoopTrace fuel s r x) := by
  intro fuel
  induction fuel with
  | zero => intro s r x; rfl
  | succ f ih =>
    intro s r x
    simp only [coverRowLoop, coverRowLoopTrace]
    split
    · rfl
    · rw [removeList_cons]
      exact ih _ _ _

/-- `cover`'s loops are the fold of `removeNode` over the cover trace. -/
theorem coverColLoop_eq_trace : ∀ (fuel rowFuel : Nat) (s : DLX) (c y : Nat),
    coverColLoop fuel rowFuel s c y =
      removeList s (coverColLoopTrace fuel rowFuel s c y) := by
  intro fuel
  induction fuel with
  | zero => intro rowFuel s c y; rfl
  | succ f ih =>
    intro rowFuel s c y
    simp only [coverColLoop, coverColLoopTrace]
    split
    · rfl
    · rw [removeList_append, ← coverRowLoop_eq_trace]
      exact ih _ _ _ _

/-- The inner uncover loop is the fold of `relinkNode` over its trace. -/
theorem uncoverRowLoop_eq_trace : ∀ (fuel : Nat) (s : DLX) (r x : Nat),
    uncoverRowLoop fuel s r x = relinkList s (uncoverRowLoopTrace fuel s r x) := by
  intro fuel
  induction fuel with
  | zero => intro s r x; rfl
  | succ f ih =>
    intro s r x
    simp only [uncoverRowLoop, uncoverRowLoopTrace]
    split
    · rfl
    · rw [relinkList_cons]
      exact ih _ _ _

/-- `uncover`'s loops are the fold of `relinkNode` over the uncover trace. -/
theorem uncoverColLoop_eq_trace : ∀ (fuel rowFuel : Nat) (s : DLX) (c y : Nat),
    uncoverColLoop fuel rowFuel s c y =
      relinkList s (uncoverColLoopTrace fuel rowFuel s c y) := by
  intro fuel
  induction fuel with
  | zero => intro rowFuel s c y; rfl
  | succ f ih =>
    intro rowFuel s c y
    simp only [uncoverColLoop, uncoverColLoopTrace]
    split
    · rfl
    · rw [relinkList_append, ← uncoverRowLoop_eq_trace]
      exact ih _ _ _ _

/-- Under the path hypotheses, the inner cover loop's trace is the row
path. -/
theorem coverRowLoopTrace_eq (s : DLX) (r : Nat) :
    ∀ (o : List Nat) (x : Nat) (σ : DLX) (fuel : Nat),
      o.length < fuel →
      pathB s.right x o r = true → r ∉ o →
      (∀ n ∈ o, σ.right n = s.right n) →
      coverRowLoopTrace fuel σ r x = o := by
  intro o
  induction o with
  | nil =>
    intro x σ fuel hf hp _ _
    cases fuel with
    | zero => simp at hf
    | succ f =>
      have hx : x = r := by simpa [pathB] using hp
      simp [coverRowLoopTrace, hx]
  | cons n ns ih =>
    intro x σ fuel hf hp hr hstab
    cases fuel with
    | zero => simp at hf
    | succ f =>
      have hx : x = n ∧ pathB s.right (s.right n) ns r = true := by
        simpa [pathB] using hp
      obtain ⟨hx1, hx2⟩ := hx
      have hxr : x ≠ r := by
        rw [hx1]
        intro hc
        exact hr (hc ▸ List.mem_cons_self n ns)
      have step : coverRowLoopTrace (f+1) σ r x =
          x :: coverRowLoopTrace f (removeNode σ x) r ((removeNode σ x).right x) := by
        simp only [coverRowLoopTrace, if_neg hxr]
      rw [step, hx1]
      have harg : (removeNode σ n).right n = s.right n := by
        rw [removeNode_right]
        exact hstab n (List.mem_cons_self n ns)
      rw [harg]
      congr 1
      apply ih (s.right n) (removeNode σ n) f (by simpa using hf) hx2
        (fun hc => hr (List.mem_cons_of_mem _ hc))
      intro m hm
      rw [removeNode_right]
      exact hstab m (List.mem_cons_of_mem _ hm)

/-- Under the path hypotheses, the inner uncover loop's trace is the row
path. -/
theorem uncoverRowLoopTrace_eq (s : DLX) (r : Nat) :
    ∀ (o : List Nat) (x : Nat) (σ : DLX) (fuel : Nat),
      o.length < fuel →
      pathB s.right x o r = true → r ∉ o →
      (∀ n ∈ o, σ.right n = s.right n) →
      uncoverRowLoopTrace fuel σ r x = o := by
  intro o
  induction o with
  | nil =>
    intro x σ fuel hf hp _ _
    cases fuel with
    | zero => simp at hf
    | succ f =>
      have hx : x = r := by simpa [pathB] using hp
      simp [uncoverRowLoopTrace, hx]
  | cons n ns ih =>
    intro x σ fuel hf hp hr hstab
    cases fuel with
    | zero => simp at hf
    | succ f =>
      have hx : x = n ∧ pathB s.right (s.right n) ns r = true := by
        simpa [pathB] using hp
      obtain ⟨hx1, hx2⟩ := hx
      have hxr : x ≠ r := by
        rw [hx1]
        intro hc
        exact hr (hc ▸ List.mem_cons_self n ns)
      have step : uncoverRowLoopTrace (f+1) σ r x =
          x :: uncoverRowLoopTrace f (relinkNode σ x) r ((relinkNode σ x).right x) := by
        simp only [uncoverRowLoopTrace, if_neg hxr]
      rw [step, hx1]
      have harg : (relinkNode σ n).right n = s.right n := by
        rw [relinkNode_right]
        exact hstab n (List.mem_cons_self n ns)
      rw [harg]
      congr 1
      apply ih (s.right n) (relinkNode σ n) f (by simpa using hf) hx2
        (fun hc => hr (List.mem_cons_of_mem _ hc))
      intro m hm
      rw [relinkNode_right]
      exact hstab m (List.mem_cons_of_mem _ hm)

/-- Under the path hypotheses, the cover trace is the concatenation of the
row paths, in the column path's order. -/
theorem coverColLoopTrace_eq (s : DLX) (c : Nat) :
    ∀ (rows : List Nat) (others : List (List Nat)) (y : Nat) (σ : DLX)
      (fuel rowFuel : Nat),
      rows.length < fuel →
      pathB s.up y rows c = true → c ∉ rows →
      (∀ r ∈ rows, s.col r = c) →
      List.Forall₂ (fun r o => pathB s.right (s.right r) o r = true ∧ r ∉ o ∧
        o.length < rowFuel) rows others →
      (∀ n ∈ others.flatten, s.col n ≠ c) →
      σ.col = s.col →
      (∀ x, σ.col (σ.up x) = σ.col x ∧ σ.col (σ.down x) = σ.col x) →
      (∀ x, s.col x = c → σ.up x = s.up x) →
      (∀ r ∈ rows, σ.right r = s.right r) →
      (∀ n ∈ others.flatten, σ.right n = s.right n) →
      coverColLoopTrace fuel rowFuel σ c y = others.flatten := by
  intro rows
  induction rows with
  | nil =>
    intro others y σ fuel rowFuel hf hp _ _ hfa _ _ _ _ _ _
    cases hfa
    cases fuel with
    | zero => simp at hf
    | succ f =>
      have hy : y = c := by simpa [pathB] using hp
      simp [coverColLoopTrace, hy]
  | cons r rows' ih =>
    intro others y σ fuel rowFuel hf hp hcr hrc hfa hoc hcol hpure hupst hrst host
    rcases hfa with _ | ⟨⟨hpo, hro, hlo⟩, hfa'⟩
    rename_i o others'
    cases fuel with
    | zero => simp at hf
    | succ f =>
      have hy : y = r ∧ pathB s.up (s.up r) rows' c = true := by
        simpa [pathB] using hp
      obtain ⟨hy1, hy2⟩ := hy
      have hyc : y ≠ c := by
        rw [hy1]
        intro hc
        exact hcr (hc ▸ List.mem_cons_self r rows')
      have step : coverColLoopTrace (f+1) rowFuel σ c y =
          coverRowLoopTrace rowFuel σ y (σ.right y) ++
            coverColLoopTrace f rowFuel (coverRowLoop rowFuel σ y (σ.right y)) c
              ((coverRowLoop rowFuel σ y (σ.right y)).up y) := by
        simp only [coverColLoopTrace, if_neg hyc]
      have hrr : σ.right y = s.right y := by
        rw [hy1]
        exact hrst r (List.mem_cons_self r rows')
      have htr : coverRowLoopTrace rowFuel σ y (σ.right y) = o := by
        rw [hrr, hy1]
        exact coverRowLoopTrace_eq s r o (s.right r) σ rowFuel hlo hpo hro
          (fun m hm => host m (by simp [List.mem_flatten]; exact Or.inl hm))
      have hinner : coverRowLoop rowFuel σ y (σ.right y) = removeList σ o := by
        rw [hrr, hy1]
        exact coverRowLoop_eq s r o (s.right r) σ rowFuel hlo hpo hro
          (fun m hm => host m (by simp [List.mem_flatten]; exact Or.inl hm))
      have hocol : ∀ n ∈ o, σ.col n ≠ c := by
        intro m hm
        rw [hcol]
        exact hoc m (by simp [List.mem_flatten]; exact Or.inl hm)
      obtain ⟨hstp, hstf⟩ := removeList_stab c o σ hpure hocol
      have hupy : (removeList σ o).up y = s.up y := by
        have hyc2 : σ.col y = c := by
          rw [hcol, hy1]
          exact hrc r (List.mem_cons_self r rows')
        exact ((hstf y hyc2).1).trans (hupst y (by rw [← hcol]; exact hyc2))
      rw [step, htr, hinner, hupy, hy1]
      have := ih others' (s.up r) (removeList σ o) f rowFuel
        (by simpa using hf) hy2
        (fun hc => hcr (List.mem_cons_of_mem _ hc))
        (fun m hm => hrc m (List.mem_cons_of_mem _ hm)) hfa'
        (fun m hm => hoc m (by simp [List.mem_flatten] at hm ⊢; exact Or.inr hm))
        (by rw [removeList_col, hcol]) hstp
        (by
          intro x hx
          have hxσ : σ.col x = c := by rw [hcol]; exact hx
          exact ((hstf x hxσ).1).trans (hupst x hx))
        (by
          intro m hm
          rw [removeList_right]
          exact hrst m (List.mem_cons_of_mem _ hm))
        (by
          intro m hm
          rw [removeList_right]
          exact host m (by simp [List.mem_flatten] at hm ⊢; exact Or.inr hm))
      rw [this]
      simp [List.flatten]

/-- Under the path hypotheses, the uncover trace is the concatenation of the
row paths, in the same order as the cover trace. -/
theorem uncoverColLoopTrace_eq (s : DLX) (c : Nat) :
    ∀ (rows : List Nat) (others : List (List Nat)) (y : Nat) (σ : DLX)
      (fuel rowFuel : Nat),
      rows.length < fuel →
      pathB s.up y rows c = true → c ∉ rows →
      (∀ r ∈ rows, s.col r = c) →
      List.Forall₂ (fun r o => pathB s.right (s.right r) o r = true ∧ r ∉ o ∧
        o.length < rowFuel) rows others →
      (∀ n ∈ others.flatten, s.col n ≠ c) →
      σ.col = s.col →
      (∀ x, σ.col (σ.up x) = σ.col x ∧ σ.col (σ.down x) = σ.col x) →
      (∀ x, s.col x = c → σ.up x = s.up x) →
      (∀ r ∈ rows, σ.right r = s.right r) →
      (∀ n ∈ others.flatten, σ.right n = s.right n) →
      uncoverColLoopTrace fuel rowFuel σ c y = others.flatten := by
  intro rows
  induction rows with
  | nil =>
    intro others y σ fuel rowFuel hf hp _ _ hfa _ _ _ _ _ _
    cases hfa
    cases fuel with
    | zero => simp at hf
    | succ f =>
      have hy : y = c := by simpa [pathB] using hp
      simp [uncoverColLoopTrace, hy]
  | cons r rows' ih =>
    intro others y σ fuel rowFuel hf hp hcr hrc hfa hoc hcol hpure hupst hrst host
    rcases hfa with _ | ⟨⟨hpo, hro, hlo⟩, hfa'⟩
    rename_i o others'
    cases fuel with
    | zero => simp at hf
    | succ f =>
      have hy : y = r ∧ pathB s.up (s.up r) rows' c = true := by
        simpa [pathB] using hp
      obtain ⟨hy1, hy2⟩ := hy
      have hyc : y ≠ c := by
        rw [hy1]
        intro hc
        exact hcr (hc ▸ List.mem_cons_self r rows')
      have step : uncoverColLoopTrace (f+1) rowFuel σ c y =
          uncoverRowLoopTrace rowFuel σ y (σ.right y) ++
            uncoverColLoopTrace f rowFuel (uncoverRowLoop rowFuel σ y (σ.right y)) c
              ((uncoverRowLoop rowFuel σ y (σ.right y)).up y) := by
        simp only [uncoverColLoopTrace, if_neg hyc]
      have hrr : σ.right y = s.right y := by
        rw [hy1]
        exact hrst r (List.mem_cons_self r rows')
      have htr : uncoverRowLoopTrace rowFuel σ y (σ.right y) = o := by
        rw [hrr, hy1]
        exact uncoverRowLoopTrace_eq s r o (s.right r) σ rowFuel hlo hpo hro
          (fun m hm => host m (by simp [List.mem_flatten]; exact Or.inl hm))
      have hinner : uncoverRowLoop rowFuel σ y (σ.right y) = relinkList σ o := by
        rw [hrr, hy1]
        exact uncoverRowLoop_eq s r o (s.right r) σ rowFuel hlo hpo hro
          (fun m hm => host m (by simp [List.mem_flatten]; exact Or.inl hm))
      have hocol : ∀ n ∈ o, σ.col n ≠ c := by
        intro m hm
        rw [hcol]
        exact hoc m (by simp [List.mem_flatten]; exact Or.inl hm)
      obtain ⟨hstp, hstf⟩ := relinkList_stab c o σ hpure hocol
      have hupy : (relinkList σ o).up y = s.up y := by
        have hyc2 : σ.col y = c := by
          rw [hcol, hy1]
          exact hrc r (List.mem_cons_self r rows')
        exact ((hstf y hyc2).1).trans (hupst y (by rw [← hcol]; exact hyc2))
      rw [step, htr, hinner, hupy, hy1]
      have := ih others' (s.up r) (relinkList σ o) f rowFuel
        (by simpa using hf) hy2
        (fun hc => hcr (List.mem_cons_of_mem _ hc))
        (fun m hm => hrc m (List.mem_cons_of_mem _ hm)) hfa'
        (fun m hm => hoc m (by simp [List.mem_flatten] at hm ⊢; exact Or.inr hm))
        (by rw [relinkList_col, hcol]) hstp
        (by
          intro x hx
          have hxσ : σ.col x = c := by rw [hcol]; exact hx
          exact ((hstf x hxσ).1).trans (hupst x hx))
        (by
          intro m hm
          rw [relinkList_right]
          exact hrst m (List.mem_cons_of_mem _ hm))
        (by
          intro m hm
          rw [relinkList_right]
          exact host m (by simp [List.mem_flatten] at hm ⊢; exact Or.inr hm))
      rw [this]
      simp [List.flatten]

/-- **C4 (amended)**: uncovering is performed in the *same* order as
covering, not the reverse: under the well-formedness hypotheses of C2, the
sequence of nodes `c.uncover()` relinks equals the sequence `c.cover()`
removed, in identical order (both iterate `self.up` through the rows and
`cur_node.right` within each row). -/
theorem uncover_same_order_as_cover (s : DLX) (c : Nat) (rows : List Nat)
    (others : List (List Nat)) (fuel : Nat)
    (hwf : LiveWF [] s)
    (hpure : ∀ x, s.col (s.up x) = s.col x ∧ s.col (s.down x) = s.col x)
    (hlr : s.left (s.right c) = c) (hrl : s.right (s.left c) = c)
    (hcc : s.col c = c)
    (hpath : pathB s.up (s.up c) rows c = true)
    (hcrows : c ∉ rows)
    (hrowsc : ∀ r ∈ rows, s.col r = c)
    (hforall : List.Forall₂ (fun r o => pathB s.right (s.right r) o r = true ∧
      r ∉ o ∧ o.length < fuel) rows others)
    (hothersc : ∀ n ∈ others.flatten, s.col n ≠ c)
    (hnd : others.flatten.Nodup)
    (hlen : rows.length < fuel)
    (hlc1 : s.left c ∉ rows) (hlc2 : s.left c ∉ others.flatten) :
    uncoverTrace fuel (cover fuel s c) c = coverTrace fuel s c := by
  set L := others.flatten with hL
  have hloop : coverColLoop fuel fuel s c (s.up c) = removeList s L :=
    coverColLoop_eq s c rows others (s.up c) s fuel fuel hlen hpath hcrows
      hrowsc hforall hothersc rfl hpure (fun _ _ => rfl)
      (fun _ _ => rfl) (fun _ _ => rfl)
  have hcov : cover fuel s c =
      { removeList s L with
        right := Function.update s.right (s.left c) (s.right c),
        left := Function.update s.left (s.right c) (s.left c) } := by
    unfold cover
    rw [hloop]
    apply DLX.ext <;>
      simp [removeList_left, removeList_right, Function.update_apply]
  obtain ⟨hstp, hstf⟩ := removeList_stab c L s hpure (fun n hn => hothersc n hn)
  have hupc : (cover fuel s c).up c = s.up c := by
    rw [hcov]
    show (removeList s L).up c = s.up c
    exact (hstf c hcc).1
  have h1 : coverTrace fuel s c = L :=
    coverColLoopTrace_eq s c rows others (s.up c) s fuel fuel hlen hpath hcrows
      hrowsc hforall hothersc rfl hpure (fun _ _ => rfl)
      (fun _ _ => rfl) (fun _ _ => rfl)
  have h2 : uncoverTrace fuel (cover fuel s c) c = L := by
    unfold uncoverTrace
    rw [hupc]
    apply uncoverColLoopTrace_eq s c rows others (s.up c) (cover fuel s c)
      fuel fuel hlen hpath hcrows hrowsc hforall hothersc
    · rw [hcov]
      show (removeList s L).col = s.col
      exact removeList_col s L
    · intro x
      rw [hcov]
      exact hstp x
    · intro x hx
      rw [hcov]
      show (removeList s L).up x = s.up x
      exact (hstf x hx).1
    · intro r hr
      rw [hcov]
      show Function.update s.right (s.left c) (s.right c) r = s.right r
      rw [Function.update_apply, if_neg]
      intro hcontra
      exact hlc1 (hcontra ▸ hr)
    · intro n hn
      rw [hcov]
      show Function.update s.right (s.left c) (s.right c) n = s.right n
      rw [Function.update_apply, if_neg]
      intro hcontra
      exact hlc2 (hcontra ▸ hn)
  rw [h1, h2]

/-- A three-column fixture: columns 1, 2, 3; row `X` = nodes 4 (col 1),
5 (col 2), 6 (col 3); row `Y` = nodes 7 (col 1), 8 (col 2). -/
def c4W : DLX where
  left := fun x => if x = 0 then 3 else if x = 1 then 0 else if x = 2 then 1
    else if x = 3 then 2 else if x = 4 then 6 else if x = 5 then 4
    else if x = 6 then 5 else if x = 7 then 8 else if x = 8 then 7 else x
  right := fun x => if x = 0 then 1 else if x = 1 then 2 else if x = 2 then 3
    else if x = 3 then 0 else if x = 4 then 5 else if x = 5 then 6
    else if x = 6 then 4 else if x = 7 then 8 else if x = 8 then 7 else x
  up := fun x => if x = 1 then 4 else if x = 4 then 7 else if x = 7 then 1
    else if x = 2 then 5 else if x = 5 then 8 else if x = 8 then 2
    else if x = 3 then 6 else if x = 6 then 3 else x
  down := fun x => if x = 1 then 7 else if x = 7 then 4 else if x = 4 then 1
    else if x = 2 then 8 else if x = 8 then 5 else if x = 5 then 2
    else if x = 3 then 6 else if x = 6 then 3 else x
  num := fun x => if x = 1 then 2 else if x = 2 then 2 else if x = 3 then 1 else 0
  col := fun x => if x = 4 then 1 else if x = 5 then 2 else if x = 6 then 3
    else if x = 7 then 1 else if x = 8 then 2 else x
  cval := fun _ => (Constraint.CELL, 0, 0)
  payload := fun _ => (0, 0, 0)
  fresh := 9

theorem c4W_wf : LiveWF [] c4W := by
  intro x _
  refine ⟨List.not_mem_nil _, List.not_mem_nil _, ?_, ?_⟩ <;>
  · rcases Nat.lt_or_ge x 9 with h | h
    · interval_cases x <;> decide
    · have hdown : c4W.down x = x := by
        simp only [c4W]
        split_ifs <;> omega
      have hup : c4W.up x = x := by
        simp only [c4W]
        split_ifs <;> omega
      simp only [hdown, hup]

theorem c4W_pure : ∀ x,
    c4W.col (c4W.up x) = c4W.col x ∧ c4W.col (c4W.down x) = c4W.col x := by
  intro x
  constructor <;>
  · rcases Nat.lt_or_ge x 9 with h | h
    · interval_cases x <;> decide
    · have hdown : c4W.down x = x := by
        simp only [c4W]
        split_ifs <;> omega
      have hup : c4W.up x = x := by
        simp only [c4W]
        split_ifs <;> omega
      simp only [hdown, hup]

/-- Counterexample to C4 as stated: on the concrete matrix `c4W`, covering
column 1 removes nodes in order `[5, 6, 8]` and uncovering relinks them in
the *same* order `[5, 6, 8]`, which is not the reverse; likewise the
backtracking step of `solve` uncovers a candidate row's other columns in the
same order `[2, 3]` in which it covered them, not the reverse. -/
theorem uncover_not_reverse_order :
    coverTrace 9 c4W 1 = [5, 6, 8] ∧
    uncoverTrace 9 (cover 9 c4W 1) 1 = [5, 6, 8] ∧
    uncoverTrace 9 (cover 9 c4W 1) 1 ≠ (coverTrace 9 c4W 1).reverse ∧
    coverRowColsTrace 9 9 c4W 4 (c4W.right 4) = [2, 3] ∧
    uncoverRowColsTrace 9 9 (coverRowColsLoop 9 9 c4W 4 (c4W.right 4)) 4
      ((coverRowColsLoop 9 9 c4W 4 (c4W.right 4)).right 4) = [2, 3] ∧
    uncoverRowColsTrace 9 9 (coverRowColsLoop 9 9 c4W 4 (c4W.right 4)) 4
      ((coverRowColsLoop 9 9 c4W 4 (c4W.right 4)).right 4) ≠
      (coverRowColsTrace 9 9 c4W 4 (c4W.right 4)).reverse := by
  refine ⟨by decide, by decide, by decide, by decide, by decide, by decide⟩

/-- Witness for the amended C4 on the concrete matrix `c4W`. -/
theorem uncover_same_order_witness :
    pathB c4W.up (c4W.up 1) [4, 7] 1 = true ∧
    uncoverTrace 9 (cover 9 c4W 1) 1 = coverTrace 9 c4W 1 :=
  ⟨by decide,
   uncover_same_order_as_cover c4W 1 [4, 7] [[5, 6], [8]] 9 c4W_wf c4W_pure
     (by decide) (by decide) (by decide) (by decide) (by decide) (by decide)
     (List.Forall₂.cons ⟨by decide, by decide, by decide⟩
       (List.Forall₂.cons ⟨by decide, by decide, by decide⟩ List.Forall₂.nil))
     (by decide) (by decide) (by decide) (by decide) (by decide)⟩

/-! ## The search after a solution is found (claim C5)

`solve` checks `self.answer is not None` only on *entry* to a recursive
call; the `while cur_node != constraint_node` loop itself has no such check,
so open recursion levels keep iterating after a solution is recorded, and a
later candidate that itself empties the root's horizontal list overwrites
the recorded answer (the root-empty test precedes the answer test). -/

/-- Modelled from the spec: the Search Engine of §4.3 with true
short-circuiting — "If a solution was already found during the recursive
call, propagate success immediately without further iteration".  This is the
spec's described control flow, for comparison with the source's
`solveRowIter`, which always pops, uncovers and advances. -/
def solveRowIterSpec (recur : SolverSt → SolverSt) (coverFuel : Nat) :
    Nat → SolverSt → Nat → Nat → SolverSt
  | 0, st, _, _ => st
  | fuel+1, st, c, cur =>
    if cur = c then st
    else
      let m1 := coverRowColsLoop coverFuel coverFuel st.m cur (st.m.right cur)
      let st1 := { st with m := m1, sols := st.sols ++ [st.m.payload cur] }
      let st2 := recur st1
      if st2.answer.isSome then st2
      else
        let st3 := { st2 with sols := st2.sols.dropLast }
        let m2 := uncoverRowColsLoop coverFuel coverFuel st3.m cur (st3.m.right cur)
        solveRowIterSpec recur coverFuel fuel { st3 with m := m2 } c (m2.down cur)

/-- Modelled from the spec: the search driver of §4.3 using the
short-circuiting row iteration (success terminates the whole search). -/
def solveSpecAux : Nat → SolverSt → SolverSt
  | 0, st => st
  | fuel+1, st =>
    if st.m.right 0 = 0 then { st with answer := some st.sols }
    else if st.answer.isSome then st
    else
      let c := get_min_constraint (fuel+1) st.m
      let m1 := cover (fuel+1) st.m c
      let st1 := solveRowIterSpec (solveSpecAux fuel) (fuel+1) (fuel+1)
        { st with m := m1 } c (m1.down c)
      if st1.answer.isSome then st1
      else { st1 with m := uncover (fuel+1) st1.m c }

/-- A one-column fixture with two one-node candidate rows: column 1 with
row nodes 2 (payload `(0,0,1)`, appended first) and 3 (payload `(0,0,2)`).
`solve` explores node 3 first (it starts from `constraint_node.down`). -/
def c5W : DLX where
  left := fun x => if x = 0 then 1 else if x = 1 then 0 else x
  right := fun x => if x = 0 then 1 else if x = 1 then 0 else x
  up := fun x => if x = 1 then 2 else if x = 2 then 3 else if x = 3 then 1 else x
  down := fun x => if x = 1 then 3 else if x = 3 then 2 else if x = 2 then 1 else x
  num := fun x => if x = 1 then 2 else 0
  col := fun x => if x = 2 then 1 else if x = 3 then 1 else x
  cval := fun _ => (Constraint.CELL, 0, 0)
  payload := fun x => if x = 2 then (0, 0, 1) else if x = 3 then (0, 0, 2) else (0, 0, 0)
  fresh := 4

/-- Counterexample to C5 as stated: on `c5W` the search first records the
solution `[(0,0,2)]` (node 3), then keeps iterating and overwrites it with
`[(0,0,1)]` (node 2), so the returned solution is the *last* one found — it
differs from the spec-modelled short-circuiting search, which returns the
first solution `[(0,0,2)]`. -/
theorem solve_not_first_solution :
    (solveAux 10 { m := c5W, answer := none, sols := [] }).answer =
      some [(0, 0, 1)] ∧
    (solveSpecAux 10 { m := c5W, answer := none, sols := [] }).answer =
      some [(0, 0, 2)] ∧
    ((solveAux 10 { m := c5W, answer := none, sols := [] }).answer ≠
      (solveSpecAux 10 { m := c5W, answer := none, sols := [] }).answer) := by
  refine ⟨by decide, by decide, by decide⟩

/-- **C5 (amended)**: once a solution has been recorded, any *recursive
call* entered while constraint columns remain returns its state unchanged
(no column selection, no iteration); the enclosing loops, however, continue
iterating over remaining candidate rows, and a later candidate that empties
the root list overwrites the answer, so the last solution found is
returned. -/
theorem solve_short_circuit (fuel : Nat) (st : SolverSt)
    (h1 : st.answer.isSome) (h2 : st.m.right 0 ≠ 0) :
    solveAux fuel st = st := by
  cases fuel with
  | zero => rfl
  | succ f =>
    simp only [solveAux, if_neg h2, if_pos h1]

/-- Witness for the amended C5 at a concrete state with a recorded answer. -/
theorem solve_short_circuit_witness :
    (({ m := c5W, answer := some [(1, 1, 1)], sols := [] } : SolverSt).answer.isSome ∧
      ({ m := c5W, answer := some [(1, 1, 1)], sols := [] } : SolverSt).m.right 0 ≠ 0) ∧
    solveAux 7 { m := c5W, answer := some [(1, 1, 1)], sols := [] } =
      { m := c5W, answer := some [(1, 1, 1)], sols := [] } :=
  ⟨⟨by decide, by decide⟩,
   solve_short_circuit 7 { m := c5W, answer := some [(1, 1, 1)], sols := [] }
     (by decide) (by decide)⟩

/-! ## Determinism and the shared default `solutions` list (claim C9) -/

/-- The row loop leaves the shared `solutions` list exactly as it found it:
every `append` is matched by a `pop`. -/
theorem solveRowIter_sols (recur : SolverSt → SolverSt)
    (hrec : ∀ st, (recur st).sols = st.sols) (coverFuel : Nat) :
    ∀ (fuel : Nat) (st : SolverSt) (c cur : Nat),
      (solveRowIter recur coverFuel fuel st c cur).sols = st.sols := by
  intro fuel
  induction fuel with
  | zero => intro st c cur; rfl
  | succ f ih =>
    intro st c cur
    simp only [solveRowIter]
    split
    · rfl
    · rw [ih]
      show ((recur { st with m := _, sols := st.sols ++ [st.m.payload cur] }).sols).dropLast
        = st.sols
      rw [hrec]
      exact List.dropLast_concat ..

/-- `solve` leaves the shared `solutions` list exactly as it found it. -/
theorem solveAux_sols : ∀ (fuel : Nat) (st : SolverSt),
    (solveAux fuel st).sols = st.sols := by
  intro fuel
  induction fuel with
  | zero => intro st; rfl
  | succ f ih =>
    intro st
    simp only [solveAux]
    split
    · rfl
    · split
      · rfl
      · exact solveRowIter_sols (solveAux f) ih (f+1) (f+1) _ _ _

/-- `start` returns the shared list unchanged. -/
theorem start_shared (fuel : Nat) (s : DLX) (shared : List RCV) (grid : InGrid) :
    (start fuel s shared grid).2 = shared := by
  simp only [start]
  split
  · split
    · exact solveAux_sols fuel _
    · exact solveAux_sols fuel _
  · rfl

/-- **C9**: the solver is deterministic across runs.  A first invocation of
`sudoku_solver` leaves the shared mutable default `solutions` list empty
(every append is matched by a pop), so a second invocation on an equal grid
— which inherits that shared list — returns an equal result grid. -/
theorem sudoku_solver_deterministic (fuel : Nat) (grid : InGrid) :
    (sudoku_solver fuel [] grid).2 = [] ∧
    (sudoku_solver fuel (sudoku_solver fuel [] grid).2 grid).1 =
      (sudoku_solver fuel [] grid).1 := by
  have h : (sudoku_solver fuel [] grid).2 = [] :=
    start_shared fuel buildState [] grid
  exact ⟨h, by rw [h]⟩

/-! ## The counter invariant is violated during search (claim C7)

Because the backtracking step uncovers a candidate row's columns in the same
(not reverse) order it covered them, an `uncover(k)` can traverse rows that
were re-linked into `k`'s vertical list by an *earlier* uncover of the same
backtracking step — rows its matching `cover(k)` never saw (that cover ran
after those rows had already been removed via another column).  Re-linking
an already-linked node is a pointer no-op but still increments
`num_of_nodes`, so counters drift upward while the pointer structure stays
correct. -/

/-! ## Closed form of the matrix builder, part 1: `add_constraints`

`add_constraint` is applied 324 times to the root-only initial state; the
result is a horizontal chain `0 → 1 → ⋯ → 324 → 0` of self-looped constraint
columns whose `value` tuples follow the four creation loops (cells
column-major, then column, row and box constraints value-minor). -/

/-- The state after `k` constraint columns have been added: a horizontal
circular chain through the root, all columns self-looped vertically. -/
def chainState (k : Nat) (cvf : Nat → CVal) : DLX where
  left := fun x => if x = 0 then k else if x ≤ k then x - 1 else x
  right := fun x => if x < k then x + 1 else if x = k then 0 else x
  up := id
  down := id
  num := fun _ => 0
  col := id
  cval := cvf
  payload := fun _ => (0, 0, 0)
  fresh := k + 1

theorem initState_eq_chainState :
    initState = chainState 0 (fun _ => (Constraint.CELL, 0, 0)) := by
  apply DLX.ext
  · funext x
    show id x = (if x = 0 then 0 else if x ≤ 0 then x - 1 else x)
    simp only [id_eq]
    split_ifs <;> omega
  · funext x
    show id x = (if x < 0 then x + 1 else if x = 0 then 0 else x)
    simp only [id_eq]
    split_ifs <;> omega
  · rfl
  · rfl
  · rfl
  · rfl
  · rfl
  · rfl
  · rfl

/-- One `add_constraint` step extends the chain by one column. -/
theorem add_constraint_chainState (k : Nat) (cvf : Nat → CVal) (cv : CVal) :
    add_constraint (chainState k cvf) cv =
      chainState (k + 1) (Function.update cvf (k + 1) cv) := by
  apply DLX.ext
  · funext x
    show Function.update
        (Function.update (Function.update (fun y => if y = 0 then k else if y ≤ k then y - 1 else y) (k+1) (k+1)) (k+1)
          (Function.update (fun y => if y = 0 then k else if y ≤ k then y - 1 else y) (k+1) (k+1) 0)) 0 (k+1) x
      = (if x = 0 then k + 1 else if x ≤ k + 1 then x - 1 else x)
    simp only [Function.update_apply]
    split_ifs <;> first | contradiction | omega
  · funext x
    show Function.update
        (Function.update (Function.update (fun y => if y < k then y + 1 else if y = k then 0 else y) (k+1) (k+1))
          (Function.update (fun y => if y = 0 then k else if y ≤ k then y - 1 else y) (k+1) (k+1) 0) (k+1)) (k+1) 0 x
      = (if x < k + 1 then x + 1 else if x = k + 1 then 0 else x)
    simp only [Function.update_apply]
    split_ifs <;> first | contradiction | omega
  · funext x
    show Function.update id (k+1) (k+1) x = id x
    simp only [Function.update_apply, id_eq]
    split_ifs <;> omega
  · funext x
    show Function.update id (k+1) (k+1) x = id x
    simp only [Function.update_apply, id_eq]
    split_ifs <;> omega
  · funext x
    show Function.update (fun _ => (0 : Int)) (k+1) 0 x = 0
    simp only [Function.update_apply]
    split_ifs <;> rfl
  · funext x
    show Function.update id (k+1) (k+1) x = id x
    simp only [Function.update_apply, id_eq]
    split_ifs <;> omega
  · rfl
  · rfl
  · rfl

/-- Folding `add_constraint` over a list of tuples. -/
theorem foldl_add_constraint_chainState (l : List CVal) :
    ∀ (k : Nat) (cvf : Nat → CVal),
      l.foldl add_constraint (chainState k cvf) =
        chainState (k + l.length)
          (fun i => if k + 1 ≤ i ∧ i ≤ k + l.length then
            l.getD (i - (k + 1)) (Constraint.CELL, 0, 0) else cvf i) := by
  induction l with
  | nil =>
    intro k cvf
    simp only [List.foldl_nil, List.length_nil, Nat.add_zero]
    congr 1
    funext i
    split_ifs with h
    · omega
    · rfl
  | cons cv l ih =>
    intro k cvf
    rw [List.foldl_cons, add_constraint_chainState, ih]
    have hlen : k + 1 + l.length = k + (cv :: l).length := by
      simp only [List.length_cons]
      omega
    rw [hlen]
    congr 1
    funext i
    simp only [Function.update_apply, List.length_cons]
    by_cases hB : i = k + 1
    · subst hB
      have hc1 : ¬(k + 1 + 1 ≤ k + 1 ∧ k + 1 ≤ k + (l.length + 1)) := by omega
      have hc2 : k + 1 ≤ k + 1 ∧ k + 1 ≤ k + (l.length + 1) := ⟨by omega, by omega⟩
      rw [if_neg hc1, if_pos rfl, if_pos hc2, Nat.sub_self]
      rfl
    · rw [if_neg hB]
      by_cases hA : k + 1 + 1 ≤ i ∧ i ≤ k + (l.length + 1)
      · have hc3 : k + 1 ≤ i ∧ i ≤ k + (l.length + 1) := ⟨by omega, hA.2⟩
        rw [if_pos hA, if_pos hc3]
        have h2 : i - (k + 1) = (i - (k + 1 + 1)) + 1 := by omega
        rw [h2]
        rfl
      · have hc4 : ¬(k + 1 ≤ i ∧ i ≤ k + (l.length + 1)) := by omega
        rw [if_neg hA, if_neg hc4]

/-- The `value` tuple of constraint column `i` in creation order. -/
def cvalAt (i : Nat) : CVal :=
  if 1 ≤ i ∧ i ≤ 81 then (Constraint.CELL, (i - 1) % 9, (i - 1) / 9)
  else if 82 ≤ i ∧ i ≤ 162 then (Constraint.COLUMN, (i - 82) / 9, (i - 82) % 9 + 1)
  else if 163 ≤ i ∧ i ≤ 243 then (Constraint.ROW, (i - 163) / 9, (i - 163) % 9 + 1)
  else if 244 ≤ i ∧ i ≤ 324 then (Constraint.BOX, (i - 244) / 9, (i - 244) % 9 + 1)
  else (Constraint.CELL, 0, 0)

/-- The flat creation order of the 324 constraint tuples. -/
def cvList : List CVal :=
  ((List.range 9).flatMap (fun column =>
    (List.range 9).map (fun row => (Constraint.CELL, row, column)))) ++
  ((List.range 9).flatMap (fun column =>
    rng19.map (fun value => (Constraint.COLUMN, column, value)))) ++
  ((List.range 9).flatMap (fun row =>
    rng19.map (fun value => (Constraint.ROW, row, value)))) ++
  ((List.range 9).flatMap (fun box =>
    rng19.map (fun value => (Constraint.BOX, box, value))))

theorem foldl_flatMap_fold {β γ : Type} (g : β → γ → β) {α : Type}
    (f : α → List γ) (l : List α) :
    ∀ (init : β),
      (l.flatMap f).foldl g init = l.foldl (fun acc a => (f a).foldl g acc) init := by
  induction l with
  | nil => intro init; rfl
  | cons a l ih =>
    intro init
    rw [List.flatMap_cons, List.foldl_append, List.foldl_cons, ih]

/-- `add_constraints` is the fold of `add_constraint` over the flat creation
order. -/
theorem add_constraints_eq_foldl (s : DLX) :
    add_constraints s = cvList.foldl add_constraint s := by
  unfold add_constraints cvList
  rw [List.foldl_append, List.foldl_append, List.foldl_append]
  rw [foldl_flatMap_fold, foldl_flatMap_fold, foldl_flatMap_fold, foldl_flatMap_fold]
  simp only [List.foldl_map]

set_option maxRecDepth 4000 in
theorem cvList_length : cvList.length = 324 := by decide

set_option maxRecDepth 8000 in
/-- The state after `add_constraints`. -/
theorem add_constraints_initState :
    add_constraints initState = chainState 324 cvalAt := by
  rw [add_constraints_eq_foldl, initState_eq_chainState,
    foldl_add_constraint_chainState]
  rw [cvList_length]
  congr 1
  funext i
  by_cases hi : 1 ≤ i ∧ i ≤ 324
  · rw [if_pos (by omega)]
    have hb : ∀ j < 325, cvList.getD (j - (0 + 1)) (Constraint.CELL, 0, 0) =
        cvalAt j ∨ j = 0 := by decide
    rcases hb i (by omega) with h | h
    · exact h
    · omega
  · rw [if_neg (by omega)]
    unfold cvalAt
    split_ifs <;> first | rfl | omega

/-! ## Closed form of the matrix builder, part 2: `append_node` as a pair of
simultaneous updates -/

/-- `append_node` with no initial row node: the fresh node is vertically
spliced above its column header and self-looped horizontally. -/
theorem append_node_none_fst (s : DLX) (h : Nat) (rcv : RCV)
    (hhi : h ≠ s.fresh) :
    (append_node s h rcv none).1 =
      { s with
        fresh := s.fresh + 1,
        payload := Function.update s.payload s.fresh rcv,
        col := Function.update s.col s.fresh h,
        left := Function.update s.left s.fresh s.fresh,
        right := Function.update s.right s.fresh s.fresh,
        up := Function.update (Function.update s.up (s.down h) s.fresh) s.fresh h,
        down := Function.update (Function.update s.down h s.fresh) s.fresh (s.down h),
        num := Function.update s.num h (s.num h + 1) } := by
  apply DLX.ext
  · rfl
  · rfl
  · funext x
    simp only [append_node, Function.update_apply]
    split_ifs <;> first | rfl | contradiction | omega
  · funext x
    simp only [append_node, Function.update_apply]
    split_ifs <;> first | rfl | contradiction | omega
  · rfl
  · rfl
  · rfl
  · rfl
  · rfl

theorem append_node_none_snd (s : DLX) (h : Nat) (rcv : RCV) :
    (append_node s h rcv none).2 = s.fresh := rfl

/-- `append_node` with an initial row node: additionally the fresh node is
spliced left of `init` in the horizontal row list. -/
theorem append_node_some_fst (s : DLX) (h : Nat) (rcv : RCV) (init : Nat)
    (hhi : h ≠ s.fresh) (hini : init ≠ s.fresh) :
    (append_node s h rcv (some init)).1 =
      { s with
        fresh := s.fresh + 1,
        payload := Function.update s.payload s.fresh rcv,
        col := Function.update s.col s.fresh h,
        left := Function.update (Function.update s.left init s.fresh)
          s.fresh (s.left init),
        right := Function.update (Function.update s.right (s.left init) s.fresh)
          s.fresh init,
        up := Function.update (Function.update s.up (s.down h) s.fresh) s.fresh h,
        down := Function.update (Function.update s.down h s.fresh) s.fresh (s.down h),
        num := Function.update s.num h (s.num h + 1) } := by
  apply DLX.ext
  · funext x
    simp only [append_node, Function.update_apply]
    split_ifs <;> first | rfl | contradiction | omega
  · funext x
    simp only [append_node, Function.update_apply]
    split_ifs <;> first | rfl | contradiction | omega
  · funext x
    simp only [append_node, Function.update_apply]
    split_ifs <;> first | rfl | contradiction | omega
  · funext x
    simp only [append_node, Function.update_apply]
    split_ifs <;> first | rfl | contradiction | omega
  · rfl
  · rfl
  · rfl
  · rfl
  · rfl

theorem append_node_some_snd (s : DLX) (h : Nat) (rcv : RCV) (init : Nat) :
    (append_node s h rcv (some init)).2 = init := rfl

/-- A three-column exact-cover instance: columns 1, 2, 3; candidate row `X`
spans all three columns (nodes 4, 5, 6) and candidate row `Y` spans columns
2 and 3 (nodes 7, 8).  The search selects column 1, tries `X` (which
completes a cover), and while backtracking over `X` the same-order uncovers
of columns 2 and 3 double-count row `Y`. -/
def c7F : DLX where
  left := fun x => if x = 0 then 3 else if x = 1 then 0 else if x = 2 then 1
    else if x = 3 then 2 else if x = 4 then 6 else if x = 5 then 4
    else if x = 6 then 5 else if x = 7 then 8 else if x = 8 then 7 else x
  right := fun x => if x = 0 then 1 else if x = 1 then 2 else if x = 2 then 3
    else if x = 3 then 0 else if x = 4 then 5 else if x = 5 then 6
    else if x = 6 then 4 else if x = 7 then 8 else if x = 8 then 7 else x
  up := fun x => if x = 1 then 4 else if x = 4 then 1 else if x = 2 then 5
    else if x = 5 then 7 else if x = 7 then 2 else if x = 3 then 6
    else if x = 6 then 8 else if x = 8 then 3 else x
  down := fun x => if x = 1 then 4 else if x = 4 then 1 else if x = 2 then 7
    else if x = 7 then 5 else if x = 5 then 2 else if x = 3 then 8
    else if x = 8 then 6 else if x = 6 then 3 else x
  num := fun x => if x = 1 then 1 else if x = 2 then 2 else if x = 3 then 2 else 0
  col := fun x => if x = 4 then 1 else if x = 5 then 2 else if x = 6 then 3
    else if x = 7 then 2 else if x = 8 then 3 else x
  cval := fun _ => (Constraint.CELL, 0, 0)
  payload := fun x => if x = 4 ∨ x = 5 ∨ x = 6 then (0, 0, 1)
    else if x = 7 ∨ x = 8 then (1, 1, 1) else (0, 0, 0)
  fresh := 9

/-- The final state of running the search on `c7F`. -/
def c7Run : SolverSt := solveAux 10 { m := c7F, answer := none, sols := [] }

/-- **C7 is violated by the code**: after the search on the concrete
instance `c7F` completes (it finds the exact cover `X`), every constraint
column is back in the root's horizontal list and all pointers are restored —
but column 2's vertical list holds exactly the two nodes `7, 5` while its
`num_of_nodes` counter reads `3` (it started, correctly, at `2`).  The
same-order uncovers of the search do *not* preserve the counter
invariant. -/
theorem counter_invariant_violated :
    pathB c7Run.m.right (c7Run.m.right 0) [1, 2, 3] 0 = true ∧
    pathB c7Run.m.down (c7Run.m.down 2) [7, 5] 2 = true ∧
    c7F.num 2 = 2 ∧
    c7Run.m.num 2 = 3 := by
  refine ⟨by decide, by decide, by decide, by decide⟩

/-! ## Closed form of the matrix builder, part 3: the `add_nodes` invariant

`add_nodes` enumerates the 729 `(row, column, value)` triples in row-major,
column, value order; triple number `u` is `(u / 81, (u / 9) % 9, u % 9 + 1)`
and allocates node ids `325 + 4u .. 325 + 4u + 3`. -/

/-- The triple handled by iteration `u` of `add_nodes` (`0 ≤ u < 729`). -/
def tripleOf (u : Nat) : RCV := (u / 81, (u / 9) % 9, u % 9 + 1)

/-- Column id of the cell constraint `(CELL, ·, ·)` covering cell `(r, c)`. -/
def cellHdr (r c : Nat) : Nat := 1 + 9 * r + c

/-- Column id of the column constraint `(COLUMN, c, v)`. -/
def colHdr (c v : Nat) : Nat := 82 + 9 * c + (v - 1)

/-- Column id of the row constraint `(ROW, r, v)`. -/
def rowHdr (r v : Nat) : Nat := 163 + 9 * r + (v - 1)

/-- Column id of the box constraint `(BOX, b, v)`. -/
def boxHdr (b v : Nat) : Nat := 244 + 9 * b + (v - 1)

/-- The `j`-th node (0 = cell, 1 = column, 2 = row, 3 = box) allocated for
triple `u`. -/
def quadNode (u j : Nat) : Nat := 325 + 4 * u + j

/-- The constraint column under which the `j`-th node of triple `u` hangs. -/
def hdrOfQuad (u j : Nat) : Nat :=
  if j = 0 then cellHdr (u / 81) ((u / 9) % 9)
  else if j = 1 then colHdr ((u / 9) % 9) (u % 9 + 1)
  else if j = 2 then rowHdr (u / 81) (u % 9 + 1)
  else boxHdr (calculate_box (u / 81) ((u / 9) % 9)) (u % 9 + 1)

/-- The node (if any) that triple `u` appends to column `h`. -/
def quadContrib (u h : Nat) : Option Nat :=
  if hdrOfQuad u 0 = h then some (quadNode u 0)
  else if hdrOfQuad u 1 = h then some (quadNode u 1)
  else if hdrOfQuad u 2 = h then some (quadNode u 2)
  else if hdrOfQuad u 3 = h then some (quadNode u 3)
  else none

/-- The nodes appended to column `h` by the first `t` triples, oldest
first. -/
def appList (t h : Nat) : List Nat :=
  (List.range t).filterMap (fun u => quadContrib u h)

theorem appList_succ (t h : Nat) :
    appList (t + 1) h = appList t h ++ (quadContrib t h).toList := by
  simp only [appList, List.range_succ, List.filterMap_append]
  cases hq : quadContrib t h <;> simp [hq]

theorem quadContrib_mem (u h x : Nat) (hx : x ∈ (quadContrib u h).toList) :
    ∃ j < 4, x = quadNode u j ∧ hdrOfQuad u j = h := by
  unfold quadContrib at hx
  split_ifs at hx with h0 h1 h2 h3
  · simp only [Option.toList_some, List.mem_singleton] at hx
    exact ⟨0, by omega, hx, h0⟩
  · simp only [Option.toList_some, List.mem_singleton] at hx
    exact ⟨1, by omega, hx, h1⟩
  · simp only [Option.toList_some, List.mem_singleton] at hx
    exact ⟨2, by omega, hx, h2⟩
  · simp only [Option.toList_some, List.mem_singleton] at hx
    exact ⟨3, by omega, hx, h3⟩
  · simp at hx

theorem mem_appList (t h x : Nat) (hx : x ∈ appList t h) :
    ∃ u < t, ∃ j < 4, x = quadNode u j ∧ hdrOfQuad u j = h := by
  unfold appList at hx
  obtain ⟨u, hu, hq⟩ := List.mem_filterMap.mp hx
  obtain ⟨j, hj, hxj, hhj⟩ := quadContrib_mem u h x (by simp [hq])
  exact ⟨u, List.mem_range.mp hu, j, hj, hxj, hhj⟩

theorem mem_appList_range (t h x : Nat) (hx : x ∈ appList t h) :
    325 ≤ x ∧ x < 325 + 4 * t := by
  obtain ⟨u, hu, j, hj, hxj, -⟩ := mem_appList t h x hx
  subst hxj
  unfold quadNode
  omega

theorem appList_nodup (t h : Nat) : (appList t h).Nodup := by
  unfold appList
  apply List.Nodup.filterMap
  · intro u u' x hu hu'
    obtain ⟨j, hj, hxj, -⟩ := quadContrib_mem u h x (by simp [hu])
    obtain ⟨j', hj', hxj', -⟩ := quadContrib_mem u' h x (by simp [hu'])
    subst hxj
    unfold quadNode at hxj'
    omega
  · exact List.nodup_range t

/-! ### `pathB` congruence and extension -/

theorem pathB_congr (f f' : Nat → Nat) (l : List Nat) :
    ∀ (x b : Nat), (∀ n ∈ l, f' n = f n) →
      pathB f x l b = true → pathB f' x l b = true := by
  induction l with
  | nil => intro x b _ hp; exact hp
  | cons n ns ih =>
    intro x b hag hp
    simp only [pathB, Bool.and_eq_true, beq_iff_eq] at hp ⊢
    refine ⟨hp.1, ?_⟩
    rw [hag n (by simp)]
    exact ih (f n) b (fun m hm => hag m (by simp [hm])) hp.2

theorem pathB_snoc (f : Nat → Nat) (l : List Nat) :
    ∀ (x n b : Nat),
      pathB f x (l ++ [n]) b = (pathB f x l n && (f n == b)) := by
  induction l with
  | nil =>
    intro x n b
    simp [pathB]
  | cons m ms ih =>
    intro x n b
    simp only [List.cons_append, pathB, List.append_eq, ih, Bool.and_assoc]

/-! ### Walking the static header chain -/

theorem skipRight_chain (s : DLX)
    (hR : ∀ x ≤ 324, s.right x = (if x = 324 then 0 else x + 1)) :
    ∀ (k p : Nat), p + k ≤ 324 → 1 ≤ p → skipRight k s p = p + k := by
  intro k
  induction k with
  | zero => intro p _ _; simp [skipRight]
  | succ k ih =>
    intro p hb hp
    show skipRight k s (s.right p) = p + (k + 1)
    rw [hR p (by omega), if_neg (by omega)]
    rw [ih (p + 1) (by omega) (by omega)]
    omega

/-! ### Pointwise effect of `append_node` -/

theorem append_fresh (s : DLX) (h : Nat) (rcv : RCV) (o : Option Nat) :
    (append_node s h rcv o).1.fresh = s.fresh + 1 := by
  cases o <;> rfl

theorem append_cval (s : DLX) (h : Nat) (rcv : RCV) (o : Option Nat) :
    (append_node s h rcv o).1.cval = s.cval := by
  cases o <;> rfl

theorem append_payload (s : DLX) (h : Nat) (rcv : RCV) (o : Option Nat)
    (x : Nat) (hx : x ≠ s.fresh) :
    (append_node s h rcv o).1.payload x = s.payload x := by
  cases o <;>
    · simp only [append_node, Function.update_apply]
      rw [if_neg hx]

theorem append_payload_fresh (s : DLX) (h : Nat) (rcv : RCV) (o : Option Nat) :
    (append_node s h rcv o).1.payload s.fresh = rcv := by
  cases o <;>
    · simp [append_node, Function.update_apply]

theorem append_col (s : DLX) (h : Nat) (rcv : RCV) (o : Option Nat)
    (x : Nat) (hx : x ≠ s.fresh) :
    (append_node s h rcv o).1.col x = s.col x := by
  cases o <;>
    · simp only [append_node, Function.update_apply]
      rw [if_neg hx]

theorem append_col_fresh (s : DLX) (h : Nat) (rcv : RCV) (o : Option Nat) :
    (append_node s h rcv o).1.col s.fresh = h := by
  cases o <;>
    · simp [append_node, Function.update_apply]

theorem append_num (s : DLX) (h : Nat) (rcv : RCV) (o : Option Nat)
    (x : Nat) (hx : x ≠ h) :
    (append_node s h rcv o).1.num x = s.num x := by
  cases o <;>
    · simp only [append_node, Function.update_apply]
      rw [if_neg hx]

theorem append_up (s : DLX) (h : Nat) (rcv : RCV) (o : Option Nat)
    (x : Nat) (hx1 : x ≠ s.down h) (hx2 : x ≠ s.fresh) (hh : h ≠ s.fresh) :
    (append_node s h rcv o).1.up x = s.up x := by
  cases o <;>
    · simp only [append_node, Function.update_apply]
      split_ifs <;> first | rfl | contradiction | omega

theorem append_up_at_down (s : DLX) (h : Nat) (rcv : RCV) (o : Option Nat)
    (hd : s.down h ≠ s.fresh) (hh : h ≠ s.fresh) :
    (append_node s h rcv o).1.up (s.down h) = s.fresh := by
  cases o <;>
    · simp only [append_node, Function.update_apply]
      split_ifs <;> first | rfl | contradiction | omega

theorem append_up_fresh (s : DLX) (h : Nat) (rcv : RCV) (o : Option Nat) :
    (append_node s h rcv o).1.up s.fresh = h := by
  cases o <;>
    · simp only [append_node, Function.update_apply]
      split_ifs <;> first | rfl | contradiction | omega

theorem append_down (s : DLX) (h : Nat) (rcv : RCV) (o : Option Nat)
    (x : Nat) (hx1 : x ≠ h) (hx2 : x ≠ s.fresh) :
    (append_node s h rcv o).1.down x = s.down x := by
  cases o <;>
    · simp only [append_node, Function.update_apply]
      split_ifs <;> first | rfl | contradiction | omega

theorem append_down_h (s : DLX) (h : Nat) (rcv : RCV) (o : Option Nat)
    (hh : h ≠ s.fresh) :
    (append_node s h rcv o).1.down h = s.fresh := by
  cases o <;>
    · simp only [append_node, Function.update_apply]
      split_ifs <;> first | rfl | contradiction | omega

theorem append_down_fresh (s : DLX) (h : Nat) (rcv : RCV) (o : Option Nat)
    (hh : h ≠ s.fresh) :
    (append_node s h rcv o).1.down s.fresh = s.down h := by
  cases o <;>
    · simp only [append_node, Function.update_apply]
      split_ifs <;> first | rfl | contradiction | omega

theorem append_none_right (s : DLX) (h : Nat) (rcv : RCV)
    (x : Nat) (hx : x ≠ s.fresh) :
    (append_node s h rcv none).1.right x = s.right x := by
  simp only [append_node, Function.update_apply]
  rw [if_neg hx]

theorem append_none_right_fresh (s : DLX) (h : Nat) (rcv : RCV) :
    (append_node s h rcv none).1.right s.fresh = s.fresh := by
  simp [append_node, Function.update_apply]

theorem append_none_left (s : DLX) (h : Nat) (rcv : RCV)
    (x : Nat) (hx : x ≠ s.fresh) :
    (append_node s h rcv none).1.left x = s.left x := by
  simp only [append_node, Function.update_apply]
  rw [if_neg hx]

theorem append_none_left_fresh (s : DLX) (h : Nat) (rcv : RCV) :
    (append_node s h rcv none).1.left s.fresh = s.fresh := by
  simp [append_node, Function.update_apply]

theorem append_some_right (s : DLX) (h : Nat) (rcv : RCV) (init : Nat)
    (x : Nat) (hx1 : x ≠ s.left init) (hx2 : x ≠ s.fresh)
    (hini : init ≠ s.fresh) :
    (append_node s h rcv (some init)).1.right x = s.right x := by
  simp only [append_node, Function.update_apply]
  split_ifs <;> first | rfl | contradiction | omega

theorem append_some_right_prev (s : DLX) (h : Nat) (rcv : RCV) (init : Nat)
    (hini : init ≠ s.fresh) (hprev : s.left init ≠ s.fresh) :
    (append_node s h rcv (some init)).1.right (s.left init) = s.fresh := by
  simp only [append_node, Function.update_apply]
  split_ifs <;> first | rfl | contradiction | omega

theorem append_some_right_fresh (s : DLX) (h : Nat) (rcv : RCV) (init : Nat) :
    (append_node s h rcv (some init)).1.right s.fresh = init := by
  simp only [append_node, Function.update_apply]
  split_ifs <;> first | rfl | contradiction | omega

theorem append_some_left (s : DLX) (h : Nat) (rcv : RCV) (init : Nat)
    (x : Nat) (hx1 : x ≠ init) (hx2 : x ≠ s.fresh) :
    (append_node s h rcv (some init)).1.left x = s.left x := by
  simp only [append_node, Function.update_apply]
  split_ifs <;> first | rfl | contradiction | omega

theorem append_some_left_init (s : DLX) (h : Nat) (rcv : RCV) (init : Nat)
    (hini : init ≠ s.fresh) :
    (append_node s h rcv (some init)).1.left init = s.fresh := by
  simp only [append_node, Function.update_apply]
  split_ifs <;> first | rfl | contradiction | omega

theorem append_some_left_fresh (s : DLX) (h : Nat) (rcv : RCV) (init : Nat)
    (hini : init ≠ s.fresh) :
    (append_node s h rcv (some init)).1.left s.fresh = s.left init := by
  simp only [append_node, Function.update_apply]
  split_ifs <;> first | rfl | contradiction | omega

/-- Under the static header chain, one `add_nodes` iteration for `(r, c, v)`
is four `append_node` calls at the four constraint columns of the
candidate, threading the first allocated node id as the row's initial
node. -/
theorem addNodesValue_chain (s : DLX) (r c v : Nat)
    (hr9 : r < 9) (hc9 : c < 9) (hv1 : 1 ≤ v) (hv9 : v ≤ 9)
    (hfr : 325 ≤ s.fresh)
    (hR : ∀ x ≤ 324, s.right x = (if x = 324 then 0 else x + 1)) :
    addNodesValue s r c (calculate_box r c) v =
      (append_node
        (append_node
          (append_node
            (append_node s (cellHdr r c) (r, c, v) none).1
            (colHdr c v) (r, c, v) (some s.fresh)).1
          (rowHdr r v) (r, c, v) (some s.fresh)).1
        (boxHdr (calculate_box r c) v) (r, c, v) (some s.fresh)).1 := by
  have h0 : s.right 0 = 1 := by
    rw [hR 0 (by omega)]
    decide
  simp only [addNodesValue, List.foldl_cons, List.foldl_nil, h0]
  have hs1 : skipRight ((r + 1) * 9 - (9 - c)) s 1 = cellHdr r c := by
    rw [skipRight_chain s hR ((r + 1) * 9 - (9 - c)) 1 (by omega) (by omega)]
    unfold cellHdr
    omega
  rw [hs1]
  rw [append_node_none_snd s (cellHdr r c) (r, c, v)]
  have hR1 : ∀ x ≤ 324,
      (append_node s (cellHdr r c) (r, c, v) none).1.right x =
        (if x = 324 then 0 else x + 1) := by
    intro x hx
    rw [append_none_right s (cellHdr r c) (r, c, v) x (by omega)]
    exact hR x hx
  have hs2 : skipRight (81 - ((r + 1) * 9 - (9 - c)) + (c * 9 + (v - 1)))
      (append_node s (cellHdr r c) (r, c, v) none).1 (cellHdr r c) = colHdr c v := by
    rw [skipRight_chain _ hR1 _ _ (by unfold cellHdr; omega) (by unfold cellHdr; omega)]
    unfold cellHdr colHdr
    omega
  rw [hs2]
  rw [append_node_some_snd]
  have hR2 : ∀ x ≤ 324,
      (append_node (append_node s (cellHdr r c) (r, c, v) none).1
        (colHdr c v) (r, c, v) (some s.fresh)).1.right x =
        (if x = 324 then 0 else x + 1) := by
    intro x hx
    rw [append_some_right _ (colHdr c v) (r, c, v) s.fresh x
      (by rw [append_none_left_fresh]; omega)
      (by rw [append_fresh]; omega)
      (by rw [append_fresh]; omega)]
    exact hR1 x hx
  have hs3 : skipRight (81 - (c * 9 + (v - 1)) + (r * 9 + (v - 1)))
      (append_node (append_node s (cellHdr r c) (r, c, v) none).1
        (colHdr c v) (r, c, v) (some s.fresh)).1 (colHdr c v) = rowHdr r v := by
    rw [skipRight_chain _ hR2 _ _ (by unfold colHdr; omega) (by unfold colHdr; omega)]
    unfold colHdr rowHdr
    omega
  rw [hs3]
  rw [append_node_some_snd]
  have hR3 : ∀ x ≤ 324,
      (append_node (append_node (append_node s (cellHdr r c) (r, c, v) none).1
        (colHdr c v) (r, c, v) (some s.fresh)).1
        (rowHdr r v) (r, c, v) (some s.fresh)).1.right x =
        (if x = 324 then 0 else x + 1) := by
    intro x hx
    rw [append_some_right _ (rowHdr r v) (r, c, v) s.fresh x
      (by rw [append_some_left_init _ _ _ _ (by rw [append_fresh]; omega),
              append_fresh]; omega)
      (by rw [append_fresh, append_fresh]; omega)
      (by rw [append_fresh, append_fresh]; omega)]
    exact hR2 x hx
  have hbox : calculate_box r c < 9 := by unfold calculate_box; omega
  have hs4 : skipRight (81 - (r * 9 + (v - 1)) + (calculate_box r c * 9 + (v - 1)))
      (append_node (append_node (append_node s (cellHdr r c) (r, c, v) none).1
        (colHdr c v) (r, c, v) (some s.fresh)).1
        (rowHdr r v) (r, c, v) (some s.fresh)).1 (rowHdr r v) =
      boxHdr (calculate_box r c) v := by
    rw [skipRight_chain _ hR3 _ _ (by unfold rowHdr; omega) (by unfold rowHdr; omega)]
    unfold rowHdr boxHdr
    omega
  rw [hs4]


theorem pathB_start_cases (f : Nat → Nat) (x b : Nat) (l : List Nat)
    (hp : pathB f x l b = true) : x = b ∨ x ∈ l := by
  cases l with
  | nil =>
    left
    simpa [pathB] using hp
  | cons n ns =>
    right
    simp only [pathB, Bool.and_eq_true, beq_iff_eq] at hp
    simp [hp.1]

/-- Node ids determine their column: the same node cannot appear in the
chains of two different columns. -/
theorem appList_col_unique (t h h' x : Nat) (hx : x ∈ appList t h)
    (hx' : x ∈ appList t h') : h = h' := by
  obtain ⟨u, _, j, hj, hxe, hh⟩ := mem_appList t h x hx
  obtain ⟨u', _, j', hj', hxe', hh'⟩ := mem_appList t h' x hx'
  subst hxe
  unfold quadNode at hxe'
  have huu : u = u' ∧ j = j' := by omega
  rw [← hh, ← hh', huu.1, huu.2]

/-- Invariant of the `add_nodes` construction after the first `t` triples:
headers keep the static horizontal chain, each completed candidate forms a
4-cycle of row nodes carrying its triple, every column's vertical list
consists of the nodes appended to it in order, and ids at or beyond the
allocation frontier are untouched. -/
structure BuildInv (t : Nat) (s : DLX) : Prop where
  fresh_eq : s.fresh = 325 + 4 * t
  hdr_right : ∀ x ≤ 324, s.right x = (if x = 324 then 0 else x + 1)
  hdr_left : ∀ x ≤ 324, s.left x = (if x = 0 then 324 else x - 1)
  row_cycle : ∀ u < t,
    s.right (quadNode u 0) = quadNode u 1 ∧
    s.right (quadNode u 1) = quadNode u 2 ∧
    s.right (quadNode u 2) = quadNode u 3 ∧
    s.right (quadNode u 3) = quadNode u 0 ∧
    s.left (quadNode u 0) = quadNode u 3 ∧
    s.left (quadNode u 1) = quadNode u 0 ∧
    s.left (quadNode u 2) = quadNode u 1 ∧
    s.left (quadNode u 3) = quadNode u 2
  untouched : ∀ x, 325 + 4 * t ≤ x →
    s.right x = x ∧ s.left x = x ∧ s.up x = x ∧ s.down x = x ∧
    s.payload x = (0, 0, 0) ∧ s.col x = x
  payload_node : ∀ u < t, ∀ j < 4, s.payload (quadNode u j) = tripleOf u
  payload_hdr : ∀ x ≤ 324, s.payload x = (0, 0, 0)
  col_hdr : ∀ x ≤ 324, s.col x = x
  col_node : ∀ u < t, ∀ j < 4, s.col (quadNode u j) = hdrOfQuad u j
  cval_eq : s.cval = cvalAt
  root_ud : s.up 0 = 0 ∧ s.down 0 = 0
  chain_up : ∀ h, 1 ≤ h → h ≤ 324 →
    pathB s.up (s.up h) (appList t h) h = true
  chain_down : ∀ h, 1 ≤ h → h ≤ 324 →
    pathB s.down (s.down h) (appList t h).reverse h = true

/-- After `add_constraints` and before any `add_nodes` work, the invariant
holds with `t = 0`. -/
theorem buildInv_zero : BuildInv 0 (chainState 324 cvalAt) := by
  refine ⟨rfl, ?_, ?_, ?_, ?_, ?_, ?_, ?_, ?_, rfl, ⟨rfl, rfl⟩, ?_, ?_⟩
  · intro x hx
    show (if x < 324 then x + 1 else if x = 324 then 0 else x) = _
    split_ifs <;> omega
  · intro x hx
    show (if x = 0 then 324 else if x ≤ 324 then x - 1 else x) = _
    split_ifs <;> omega
  · intro u hu
    exact absurd hu (Nat.not_lt_zero u)
  · intro x hx
    refine ⟨?_, ?_, rfl, rfl, rfl, rfl⟩
    · show (if x < 324 then x + 1 else if x = 324 then 0 else x) = x
      split_ifs <;> omega
    · show (if x = 0 then 324 else if x ≤ 324 then x - 1 else x) = x
      split_ifs <;> omega
  · intro u hu
    exact absurd hu (Nat.not_lt_zero u)
  · intro x _
    rfl
  · intro x _
    rfl
  · intro u hu
    exact absurd hu (Nat.not_lt_zero u)
  · intro h _ _
    simp [appList, chainState, pathB]
  · intro h _ _
    simp [appList, chainState, pathB]

/-- The composite of the four `append_node` calls of one `add_nodes`
iteration: one node under each of the four constraint columns, threaded as a
row via the first node's id `s.fresh`. -/
def app4 (s : DLX) (H1 H2 H3 H4 : Nat) (rcv : RCV) : DLX :=
  (append_node (append_node (append_node (append_node s H1 rcv none).1
    H2 rcv (some s.fresh)).1 H3 rcv (some s.fresh)).1 H4 rcv (some s.fresh)).1

section App4
variable (s : DLX) (H1 H2 H3 H4 : Nat) (rcv : RCV)

theorem app4_fresh : (app4 s H1 H2 H3 H4 rcv).fresh = s.fresh + 4 := by
  unfold app4
  set t1 := (append_node s H1 rcv none).1 with ht1
  set t2 := (append_node t1 H2 rcv (some s.fresh)).1 with ht2
  set t3 := (append_node t2 H3 rcv (some s.fresh)).1 with ht3
  have e1 : t1.fresh = s.fresh + 1 := append_fresh s H1 rcv none
  have e2 : t2.fresh = t1.fresh + 1 := append_fresh t1 H2 rcv (some s.fresh)
  have e3 : t3.fresh = t2.fresh + 1 := append_fresh t2 H3 rcv (some s.fresh)
  have e4 : (append_node t3 H4 rcv (some s.fresh)).1.fresh = t3.fresh + 1 :=
    append_fresh t3 H4 rcv (some s.fresh)
  omega

theorem app4_cval : (app4 s H1 H2 H3 H4 rcv).cval = s.cval := by
  unfold app4
  set t1 := (append_node s H1 rcv none).1 with ht1
  set t2 := (append_node t1 H2 rcv (some s.fresh)).1 with ht2
  set t3 := (append_node t2 H3 rcv (some s.fresh)).1 with ht3
  have e1 : t1.cval = s.cval := append_cval s H1 rcv none
  have e2 : t2.cval = t1.cval := append_cval t1 H2 rcv (some s.fresh)
  have e3 : t3.cval = t2.cval := append_cval t2 H3 rcv (some s.fresh)
  have e4 : (append_node t3 H4 rcv (some s.fresh)).1.cval = t3.cval :=
    append_cval t3 H4 rcv (some s.fresh)
  rw [e4, e3, e2, e1]

theorem app4_lfresh :
    (app4 s H1 H2 H3 H4 rcv).left s.fresh = s.fresh + 3 := by
  unfold app4
  set t1 := (append_node s H1 rcv none).1 with ht1
  set t2 := (append_node t1 H2 rcv (some s.fresh)).1 with ht2
  set t3 := (append_node t2 H3 rcv (some s.fresh)).1 with ht3
  have f1 : t1.fresh = s.fresh + 1 := append_fresh s H1 rcv none
  have f2 : t2.fresh = t1.fresh + 1 := append_fresh t1 H2 rcv (some s.fresh)
  have f3 : t3.fresh = t2.fresh + 1 := append_fresh t2 H3 rcv (some s.fresh)
  have e4 : (append_node t3 H4 rcv (some s.fresh)).1.left s.fresh = t3.fresh :=
    append_some_left_init t3 H4 rcv s.fresh (by omega)
  omega

theorem app4_right_pres (x : Nat) (h0 : x ≠ s.fresh) (h1 : x ≠ s.fresh + 1)
    (h2 : x ≠ s.fresh + 2) (h3 : x ≠ s.fresh + 3) :
    (app4 s H1 H2 H3 H4 rcv).right x = s.right x := by
  unfold app4
  set t1 := (append_node s H1 rcv none).1 with ht1
  set t2 := (append_node t1 H2 rcv (some s.fresh)).1 with ht2
  set t3 := (append_node t2 H3 rcv (some s.fresh)).1 with ht3
  have f1 : t1.fresh = s.fresh + 1 := append_fresh s H1 rcv none
  have f2 : t2.fresh = t1.fresh + 1 := append_fresh t1 H2 rcv (some s.fresh)
  have f3 : t3.fresh = t2.fresh + 1 := append_fresh t2 H3 rcv (some s.fresh)
  have l1 : t1.left s.fresh = s.fresh := append_none_left_fresh s H1 rcv
  have l2 : t2.left s.fresh = t1.fresh := append_some_left_init t1 H2 rcv s.fresh (by omega)
  have l3 : t3.left s.fresh = t2.fresh := append_some_left_init t2 H3 rcv s.fresh (by omega)
  have e4 : (append_node t3 H4 rcv (some s.fresh)).1.right x = t3.right x :=
    append_some_right t3 H4 rcv s.fresh x (by omega) (by omega) (by omega)
  have e3 : t3.right x = t2.right x :=
    append_some_right t2 H3 rcv s.fresh x (by omega) (by omega) (by omega)
  have e2 : t2.right x = t1.right x :=
    append_some_right t1 H2 rcv s.fresh x (by omega) (by omega) (by omega)
  have e1 : t1.right x = s.right x := append_none_right s H1 rcv x h0
  omega

theorem app4_left_pres (x : Nat) (h0 : x ≠ s.fresh) (h1 : x ≠ s.fresh + 1)
    (h2 : x ≠ s.fresh + 2) (h3 : x ≠ s.fresh + 3) :
    (app4 s H1 H2 H3 H4 rcv).left x = s.left x := by
  unfold app4
  set t1 := (append_node s H1 rcv none).1 with ht1
  set t2 := (append_node t1 H2 rcv (some s.fresh)).1 with ht2
  set t3 := (append_node t2 H3 rcv (some s.fresh)).1 with ht3
  have f1 : t1.fresh = s.fresh + 1 := append_fresh s H1 rcv none
  have f2 : t2.fresh = t1.fresh + 1 := append_fresh t1 H2 rcv (some s.fresh)
  have f3 : t3.fresh = t2.fresh + 1 := append_fresh t2 H3 rcv (some s.fresh)
  have e4 : (append_node t3 H4 rcv (some s.fresh)).1.left x = t3.left x :=
    append_some_left t3 H4 rcv s.fresh x h0 (by omega)
  have e3 : t3.left x = t2.left x :=
    append_some_left t2 H3 rcv s.fresh x h0 (by omega)
  have e2 : t2.left x = t1.left x :=
    append_some_left t1 H2 rcv s.fresh x h0 (by omega)
  have e1 : t1.left x = s.left x := append_none_left s H1 rcv x h0
  omega

theorem app4_pay_pres (x : Nat) (h0 : x ≠ s.fresh) (h1 : x ≠ s.fresh + 1)
    (h2 : x ≠ s.fresh + 2) (h3 : x ≠ s.fresh + 3) :
    (app4 s H1 H2 H3 H4 rcv).payload x = s.payload x := by
  unfold app4
  set t1 := (append_node s H1 rcv none).1 with ht1
  set t2 := (append_node t1 H2 rcv (some s.fresh)).1 with ht2
  set t3 := (append_node t2 H3 rcv (some s.fresh)).1 with ht3
  have f1 : t1.fresh = s.fresh + 1 := append_fresh s H1 rcv none
  have f2 : t2.fresh = t1.fresh + 1 := append_fresh t1 H2 rcv (some s.fresh)
  have f3 : t3.fresh = t2.fresh + 1 := append_fresh t2 H3 rcv (some s.fresh)
  have e4 : (append_node t3 H4 rcv (some s.fresh)).1.payload x = t3.payload x :=
    append_payload t3 H4 rcv (some s.fresh) x (by omega)
  have e3 : t3.payload x = t2.payload x :=
    append_payload t2 H3 rcv (some s.fresh) x (by omega)
  have e2 : t2.payload x = t1.payload x :=
    append_payload t1 H2 rcv (some s.fresh) x (by omega)
  have e1 : t1.payload x = s.payload x := append_payload s H1 rcv none x h0
  rw [e4, e3, e2, e1]

theorem app4_col_pres (x : Nat) (h0 : x ≠ s.fresh) (h1 : x ≠ s.fresh + 1)
    (h2 : x ≠ s.fresh + 2) (h3 : x ≠ s.fresh + 3) :
    (app4 s H1 H2 H3 H4 rcv).col x = s.col x := by
  unfold app4
  set t1 := (append_node s H1 rcv none).1 with ht1
  set t2 := (append_node t1 H2 rcv (some s.fresh)).1 with ht2
  set t3 := (append_node t2 H3 rcv (some s.fresh)).1 with ht3
  have f1 : t1.fresh = s.fresh + 1 := append_fresh s H1 rcv none
  have f2 : t2.fresh = t1.fresh + 1 := append_fresh t1 H2 rcv (some s.fresh)
  have f3 : t3.fresh = t2.fresh + 1 := append_fresh t2 H3 rcv (some s.fresh)
  have e4 : (append_node t3 H4 rcv (some s.fresh)).1.col x = t3.col x :=
    append_col t3 H4 rcv (some s.fresh) x (by omega)
  have e3 : t3.col x = t2.col x := append_col t2 H3 rcv (some s.fresh) x (by omega)
  have e2 : t2.col x = t1.col x := append_col t1 H2 rcv (some s.fresh) x (by omega)
  have e1 : t1.col x = s.col x := append_col s H1 rcv none x h0
  rw [e4, e3, e2, e1]

theorem app4_up_pres (hH1 : 1 ≤ H1 ∧ H1 ≤ 81) (hH2 : 82 ≤ H2 ∧ H2 ≤ 162)
    (hH3 : 163 ≤ H3 ∧ H3 ≤ 243) (hH4 : 244 ≤ H4 ∧ H4 ≤ 324)
    (hfr : 325 ≤ s.fresh) (x : Nat)
    (a1 : x ≠ s.down H1) (a2 : x ≠ s.down H2) (a3 : x ≠ s.down H3)
    (a4 : x ≠ s.down H4) (h0 : x ≠ s.fresh) (h1 : x ≠ s.fresh + 1)
    (h2 : x ≠ s.fresh + 2) (h3 : x ≠ s.fresh + 3) :
    (app4 s H1 H2 H3 H4 rcv).up x = s.up x := by
  unfold app4
  set t1 := (append_node s H1 rcv none).1 with ht1
  set t2 := (append_node t1 H2 rcv (some s.fresh)).1 with ht2
  set t3 := (append_node t2 H3 rcv (some s.fresh)).1 with ht3
  have f1 : t1.fresh = s.fresh + 1 := append_fresh s H1 rcv none
  have f2 : t2.fresh = t1.fresh + 1 := append_fresh t1 H2 rcv (some s.fresh)
  have f3 : t3.fresh = t2.fresh + 1 := append_fresh t2 H3 rcv (some s.fresh)
  have d2 : t1.down H2 = s.down H2 := append_down s H1 rcv none H2 (by omega) (by omega)
  have d3a : t1.down H3 = s.down H3 := append_down s H1 rcv none H3 (by omega) (by omega)
  have d3 : t2.down H3 = t1.down H3 :=
    append_down t1 H2 rcv (some s.fresh) H3 (by omega) (by omega)
  have d4a : t1.down H4 = s.down H4 := append_down s H1 rcv none H4 (by omega) (by omega)
  have d4b : t2.down H4 = t1.down H4 :=
    append_down t1 H2 rcv (some s.fresh) H4 (by omega) (by omega)
  have d4 : t3.down H4 = t2.down H4 :=
    append_down t2 H3 rcv (some s.fresh) H4 (by omega) (by omega)
  have e4 : (append_node t3 H4 rcv (some s.fresh)).1.up x = t3.up x :=
    append_up t3 H4 rcv (some s.fresh) x (by omega) (by omega) (by omega)
  have e3 : t3.up x = t2.up x :=
    append_up t2 H3 rcv (some s.fresh) x (by omega) (by omega) (by omega)
  have e2 : t2.up x = t1.up x :=
    append_up t1 H2 rcv (some s.fresh) x (by omega) (by omega) (by omega)
  have e1 : t1.up x = s.up x := append_up s H1 rcv none x a1 h0 (by omega)
  omega

theorem app4_down_pres (x : Nat)
    (a1 : x ≠ H1) (a2 : x ≠ H2) (a3 : x ≠ H3) (a4 : x ≠ H4)
    (h0 : x ≠ s.fresh) (h1 : x ≠ s.fresh + 1) (h2 : x ≠ s.fresh + 2)
    (h3 : x ≠ s.fresh + 3) :
    (app4 s H1 H2 H3 H4 rcv).down x = s.down x := by
  unfold app4
  set t1 := (append_node s H1 rcv none).1 with ht1
  set t2 := (append_node t1 H2 rcv (some s.fresh)).1 with ht2
  set t3 := (append_node t2 H3 rcv (some s.fresh)).1 with ht3
  have f1 : t1.fresh = s.fresh + 1 := append_fresh s H1 rcv none
  have f2 : t2.fresh = t1.fresh + 1 := append_fresh t1 H2 rcv (some s.fresh)
  have f3 : t3.fresh = t2.fresh + 1 := append_fresh t2 H3 rcv (some s.fresh)
  have e4 : (append_node t3 H4 rcv (some s.fresh)).1.down x = t3.down x :=
    append_down t3 H4 rcv (some s.fresh) x a4 (by omega)
  have e3 : t3.down x = t2.down x :=
    append_down t2 H3 rcv (some s.fresh) x a3 (by omega)
  have e2 : t2.down x = t1.down x :=
    append_down t1 H2 rcv (some s.fresh) x a2 (by omega)
  have e1 : t1.down x = s.down x := append_down s H1 rcv none x a1 h0
  omega

theorem app4_right_new :
    (app4 s H1 H2 H3 H4 rcv).right s.fresh = s.fresh + 1 ∧
    (app4 s H1 H2 H3 H4 rcv).right (s.fresh + 1) = s.fresh + 2 ∧
    (app4 s H1 H2 H3 H4 rcv).right (s.fresh + 2) = s.fresh + 3 ∧
    (app4 s H1 H2 H3 H4 rcv).right (s.fresh + 3) = s.fresh := by
  unfold app4
  set t1 := (append_node s H1 rcv none).1 with ht1
  set t2 := (append_node t1 H2 rcv (some s.fresh)).1 with ht2
  set t3 := (append_node t2 H3 rcv (some s.fresh)).1 with ht3
  have f1 : t1.fresh = s.fresh + 1 := append_fresh s H1 rcv none
  have f2 : t2.fresh = t1.fresh + 1 := append_fresh t1 H2 rcv (some s.fresh)
  have f3 : t3.fresh = t2.fresh + 1 := append_fresh t2 H3 rcv (some s.fresh)
  have l1 : t1.left s.fresh = s.fresh := append_none_left_fresh s H1 rcv
  have l2 : t2.left s.fresh = t1.fresh := append_some_left_init t1 H2 rcv s.fresh (by omega)
  have l3 : t3.left s.fresh = t2.fresh := append_some_left_init t2 H3 rcv s.fresh (by omega)
  refine ⟨?_, ?_, ?_, ?_⟩
  · have p2 : t2.right (t1.left s.fresh) = t1.fresh :=
      append_some_right_prev t1 H2 rcv s.fresh (by omega) (by omega)
    rw [l1] at p2
    have e3 : t3.right s.fresh = t2.right s.fresh :=
      append_some_right t2 H3 rcv s.fresh s.fresh (by omega) (by omega) (by omega)
    have e4 : (append_node t3 H4 rcv (some s.fresh)).1.right s.fresh = t3.right s.fresh :=
      append_some_right t3 H4 rcv s.fresh s.fresh (by omega) (by omega) (by omega)
    omega
  · have p3 : t3.right (t2.left s.fresh) = t2.fresh :=
      append_some_right_prev t2 H3 rcv s.fresh (by omega) (by omega)
    rw [l2, f1] at p3
    have e4 : (append_node t3 H4 rcv (some s.fresh)).1.right (s.fresh + 1) =
        t3.right (s.fresh + 1) :=
      append_some_right t3 H4 rcv s.fresh (s.fresh + 1) (by omega) (by omega) (by omega)
    omega
  · have p4 : (append_node t3 H4 rcv (some s.fresh)).1.right (t3.left s.fresh) = t3.fresh :=
      append_some_right_prev t3 H4 rcv s.fresh (by omega) (by omega)
    rw [l3, f2, f1, show s.fresh + 1 + 1 = s.fresh + 2 by omega] at p4
    omega
  · have p4 : (append_node t3 H4 rcv (some s.fresh)).1.right t3.fresh = s.fresh :=
      append_some_right_fresh t3 H4 rcv s.fresh
    rw [f3, f2, f1, show s.fresh + 1 + 1 + 1 = s.fresh + 3 by omega] at p4
    exact p4

theorem app4_left_new :
    (app4 s H1 H2 H3 H4 rcv).left s.fresh = s.fresh + 3 ∧
    (app4 s H1 H2 H3 H4 rcv).left (s.fresh + 1) = s.fresh ∧
    (app4 s H1 H2 H3 H4 rcv).left (s.fresh + 2) = s.fresh + 1 ∧
    (app4 s H1 H2 H3 H4 rcv).left (s.fresh + 3) = s.fresh + 2 := by
  unfold app4
  set t1 := (append_node s H1 rcv none).1 with ht1
  set t2 := (append_node t1 H2 rcv (some s.fresh)).1 with ht2
  set t3 := (append_node t2 H3 rcv (some s.fresh)).1 with ht3
  have f1 : t1.fresh = s.fresh + 1 := append_fresh s H1 rcv none
  have f2 : t2.fresh = t1.fresh + 1 := append_fresh t1 H2 rcv (some s.fresh)
  have f3 : t3.fresh = t2.fresh + 1 := append_fresh t2 H3 rcv (some s.fresh)
  have l1 : t1.left s.fresh = s.fresh := append_none_left_fresh s H1 rcv
  have l2 : t2.left s.fresh = t1.fresh := append_some_left_init t1 H2 rcv s.fresh (by omega)
  have l3 : t3.left s.fresh = t2.fresh := append_some_left_init t2 H3 rcv s.fresh (by omega)
  refine ⟨?_, ?_, ?_, ?_⟩
  · have e4 : (append_node t3 H4 rcv (some s.fresh)).1.left s.fresh = t3.fresh :=
      append_some_left_init t3 H4 rcv s.fresh (by omega)
    omega
  · have p2 : t2.left t1.fresh = t1.left s.fresh :=
      append_some_left_fresh t1 H2 rcv s.fresh (by omega)
    rw [l1, f1] at p2
    have e3 : t3.left (s.fresh + 1) = t2.left (s.fresh + 1) :=
      append_some_left t2 H3 rcv s.fresh (s.fresh + 1) (by omega) (by omega)
    have e4 : (append_node t3 H4 rcv (some s.fresh)).1.left (s.fresh + 1) =
        t3.left (s.fresh + 1) :=
      append_some_left t3 H4 rcv s.fresh (s.fresh + 1) (by omega) (by omega)
    omega
  · have p3 : t3.left t2.fresh = t2.left s.fresh :=
      append_some_left_fresh t2 H3 rcv s.fresh (by omega)
    rw [l2, f2, f1, show s.fresh + 1 + 1 = s.fresh + 2 by omega] at p3
    have e4 : (append_node t3 H4 rcv (some s.fresh)).1.left (s.fresh + 2) =
        t3.left (s.fresh + 2) :=
      append_some_left t3 H4 rcv s.fresh (s.fresh + 2) (by omega) (by omega)
    omega
  · have p4 : (append_node t3 H4 rcv (some s.fresh)).1.left t3.fresh = t3.left s.fresh :=
      append_some_left_fresh t3 H4 rcv s.fresh (by omega)
    rw [l3, f3, f2, f1, show s.fresh + 1 + 1 + 1 = s.fresh + 3 by omega,
      show s.fresh + 1 + 1 = s.fresh + 2 by omega] at p4
    exact p4

theorem app4_payload_new :
    (app4 s H1 H2 H3 H4 rcv).payload s.fresh = rcv ∧
    (app4 s H1 H2 H3 H4 rcv).payload (s.fresh + 1) = rcv ∧
    (app4 s H1 H2 H3 H4 rcv).payload (s.fresh + 2) = rcv ∧
    (app4 s H1 H2 H3 H4 rcv).payload (s.fresh + 3) = rcv := by
  unfold app4
  set t1 := (append_node s H1 rcv none).1 with ht1
  set t2 := (append_node t1 H2 rcv (some s.fresh)).1 with ht2
  set t3 := (append_node t2 H3 rcv (some s.fresh)).1 with ht3
  have f1 : t1.fresh = s.fresh + 1 := append_fresh s H1 rcv none
  have f2 : t2.fresh = t1.fresh + 1 := append_fresh t1 H2 rcv (some s.fresh)
  have f3 : t3.fresh = t2.fresh + 1 := append_fresh t2 H3 rcv (some s.fresh)
  refine ⟨?_, ?_, ?_, ?_⟩
  · have e1 : t1.payload s.fresh = rcv := append_payload_fresh s H1 rcv none
    have e2 : t2.payload s.fresh = t1.payload s.fresh :=
      append_payload t1 H2 rcv (some s.fresh) s.fresh (by omega)
    have e3 : t3.payload s.fresh = t2.payload s.fresh :=
      append_payload t2 H3 rcv (some s.fresh) s.fresh (by omega)
    have e4 : (append_node t3 H4 rcv (some s.fresh)).1.payload s.fresh = t3.payload s.fresh :=
      append_payload t3 H4 rcv (some s.fresh) s.fresh (by omega)
    rw [e4, e3, e2, e1]
  · have e2 : t2.payload t1.fresh = rcv := append_payload_fresh t1 H2 rcv (some s.fresh)
    rw [f1] at e2
    have e3 : t3.payload (s.fresh + 1) = t2.payload (s.fresh + 1) :=
      append_payload t2 H3 rcv (some s.fresh) (s.fresh + 1) (by omega)
    have e4 : (append_node t3 H4 rcv (some s.fresh)).1.payload (s.fresh + 1) =
        t3.payload (s.fresh + 1) :=
      append_payload t3 H4 rcv (some s.fresh) (s.fresh + 1) (by omega)
    rw [e4, e3, e2]
  · have e3 : t3.payload t2.fresh = rcv := append_payload_fresh t2 H3 rcv (some s.fresh)
    rw [f2, f1, show s.fresh + 1 + 1 = s.fresh + 2 by omega] at e3
    have e4 : (append_node t3 H4 rcv (some s.fresh)).1.payload (s.fresh + 2) =
        t3.payload (s.fresh + 2) :=
      append_payload t3 H4 rcv (some s.fresh) (s.fresh + 2) (by omega)
    rw [e4, e3]
  · have e4 : (append_node t3 H4 rcv (some s.fresh)).1.payload t3.fresh = rcv :=
      append_payload_fresh t3 H4 rcv (some s.fresh)
    rw [f3, f2, f1, show s.fresh + 1 + 1 + 1 = s.fresh + 3 by omega] at e4
    exact e4

theorem app4_col_new :
    (app4 s H1 H2 H3 H4 rcv).col s.fresh = H1 ∧
    (app4 s H1 H2 H3 H4 rcv).col (s.fresh + 1) = H2 ∧
    (app4 s H1 H2 H3 H4 rcv).col (s.fresh + 2) = H3 ∧
    (app4 s H1 H2 H3 H4 rcv).col (s.fresh + 3) = H4 := by
  unfold app4
  set t1 := (append_node s H1 rcv none).1 with ht1
  set t2 := (append_node t1 H2 rcv (some s.fresh)).1 with ht2
  set t3 := (append_node t2 H3 rcv (some s.fresh)).1 with ht3
  have f1 : t1.fresh = s.fresh + 1 := append_fresh s H1 rcv none
  have f2 : t2.fresh = t1.fresh + 1 := append_fresh t1 H2 rcv (some s.fresh)
  have f3 : t3.fresh = t2.fresh + 1 := append_fresh t2 H3 rcv (some s.fresh)
  refine ⟨?_, ?_, ?_, ?_⟩
  · have e1 : t1.col s.fresh = H1 := append_col_fresh s H1 rcv none
    have e2 : t2.col s.fresh = t1.col s.fresh :=
      append_col t1 H2 rcv (some s.fresh) s.fresh (by omega)
    have e3 : t3.col s.fresh = t2.col s.fresh :=
      append_col t2 H3 rcv (some s.fresh) s.fresh (by omega)
    have e4 : (append_node t3 H4 rcv (some s.fresh)).1.col s.fresh = t3.col s.fresh :=
      append_col t3 H4 rcv (some s.fresh) s.fresh (by omega)
    omega
  · have e2 : t2.col t1.fresh = H2 := append_col_fresh t1 H2 rcv (some s.fresh)
    rw [f1] at e2
    have e3 : t3.col (s.fresh + 1) = t2.col (s.fresh + 1) :=
      append_col t2 H3 rcv (some s.fresh) (s.fresh + 1) (by omega)
    have e4 : (append_node t3 H4 rcv (some s.fresh)).1.col (s.fresh + 1) =
        t3.col (s.fresh + 1) :=
      append_col t3 H4 rcv (some s.fresh) (s.fresh + 1) (by omega)
    omega
  · have e3 : t3.col t2.fresh = H3 := append_col_fresh t2 H3 rcv (some s.fresh)
    rw [f2, f1, show s.fresh + 1 + 1 = s.fresh + 2 by omega] at e3
    have e4 : (append_node t3 H4 rcv (some s.fresh)).1.col (s.fresh + 2) =
        t3.col (s.fresh + 2) :=
      append_col t3 H4 rcv (some s.fresh) (s.fresh + 2) (by omega)
    omega
  · have e4 : (append_node t3 H4 rcv (some s.fresh)).1.col t3.fresh = H4 :=
      append_col_fresh t3 H4 rcv (some s.fresh)
    rw [f3, f2, f1, show s.fresh + 1 + 1 + 1 = s.fresh + 3 by omega] at e4
    exact e4

theorem app4_up_new (hH1 : 1 ≤ H1 ∧ H1 ≤ 81) (hH2 : 82 ≤ H2 ∧ H2 ≤ 162)
    (hH3 : 163 ≤ H3 ∧ H3 ≤ 243) (hH4 : 244 ≤ H4 ∧ H4 ≤ 324)
    (hfr : 325 ≤ s.fresh)
    (hdn2 : s.down H2 < s.fresh) (hdn3 : s.down H3 < s.fresh)
    (hdn4 : s.down H4 < s.fresh) :
    (app4 s H1 H2 H3 H4 rcv).up s.fresh = H1 ∧
    (app4 s H1 H2 H3 H4 rcv).up (s.fresh + 1) = H2 ∧
    (app4 s H1 H2 H3 H4 rcv).up (s.fresh + 2) = H3 ∧
    (app4 s H1 H2 H3 H4 rcv).up (s.fresh + 3) = H4 := by
  unfold app4
  set t1 := (append_node s H1 rcv none).1 with ht1
  set t2 := (append_node t1 H2 rcv (some s.fresh)).1 with ht2
  set t3 := (append_node t2 H3 rcv (some s.fresh)).1 with ht3
  have f1 : t1.fresh = s.fresh + 1 := append_fresh s H1 rcv none
  have f2 : t2.fresh = t1.fresh + 1 := append_fresh t1 H2 rcv (some s.fresh)
  have f3 : t3.fresh = t2.fresh + 1 := append_fresh t2 H3 rcv (some s.fresh)
  have d2 : t1.down H2 = s.down H2 := append_down s H1 rcv none H2 (by omega) (by omega)
  have d3a : t1.down H3 = s.down H3 := append_down s H1 rcv none H3 (by omega) (by omega)
  have d3 : t2.down H3 = t1.down H3 :=
    append_down t1 H2 rcv (some s.fresh) H3 (by omega) (by omega)
  have d4a : t1.down H4 = s.down H4 := append_down s H1 rcv none H4 (by omega) (by omega)
  have d4b : t2.down H4 = t1.down H4 :=
    append_down t1 H2 rcv (some s.fresh) H4 (by omega) (by omega)
  have d4 : t3.down H4 = t2.down H4 :=
    append_down t2 H3 rcv (some s.fresh) H4 (by omega) (by omega)
  refine ⟨?_, ?_, ?_, ?_⟩
  · have e1 : t1.up s.fresh = H1 := append_up_fresh s H1 rcv none
    have e2 : t2.up s.fresh = t1.up s.fresh :=
      append_up t1 H2 rcv (some s.fresh) s.fresh (by omega) (by omega) (by omega)
    have e3 : t3.up s.fresh = t2.up s.fresh :=
      append_up t2 H3 rcv (some s.fresh) s.fresh (by omega) (by omega) (by omega)
    have e4 : (append_node t3 H4 rcv (some s.fresh)).1.up s.fresh = t3.up s.fresh :=
      append_up t3 H4 rcv (some s.fresh) s.fresh (by omega) (by omega) (by omega)
    omega
  · have e2 : t2.up t1.fresh = H2 := append_up_fresh t1 H2 rcv (some s.fresh)
    rw [f1] at e2
    have e3 : t3.up (s.fresh + 1) = t2.up (s.fresh + 1) :=
      append_up t2 H3 rcv (some s.fresh) (s.fresh + 1) (by omega) (by omega) (by omega)
    have e4 : (append_node t3 H4 rcv (some s.fresh)).1.up (s.fresh + 1) =
        t3.up (s.fresh + 1) :=
      append_up t3 H4 rcv (some s.fresh) (s.fresh + 1) (by omega) (by omega) (by omega)
    omega
  · have e3 : t3.up t2.fresh = H3 := append_up_fresh t2 H3 rcv (some s.fresh)
    rw [f2, f1, show s.fresh + 1 + 1 = s.fresh + 2 by omega] at e3
    have e4 : (append_node t3 H4 rcv (some s.fresh)).1.up (s.fresh + 2) =
        t3.up (s.fresh + 2) :=
      append_up t3 H4 rcv (some s.fresh) (s.fresh + 2) (by omega) (by omega) (by omega)
    omega
  · have e4 : (append_node t3 H4 rcv (some s.fresh)).1.up t3.fresh = H4 :=
      append_up_fresh t3 H4 rcv (some s.fresh)
    rw [f3, f2, f1, show s.fresh + 1 + 1 + 1 = s.fresh + 3 by omega] at e4
    exact e4

theorem app4_down_new (hH1 : 1 ≤ H1 ∧ H1 ≤ 81) (hH2 : 82 ≤ H2 ∧ H2 ≤ 162)
    (hH3 : 163 ≤ H3 ∧ H3 ≤ 243) (hH4 : 244 ≤ H4 ∧ H4 ≤ 324)
    (hfr : 325 ≤ s.fresh) :
    (app4 s H1 H2 H3 H4 rcv).down s.fresh = s.down H1 ∧
    (app4 s H1 H2 H3 H4 rcv).down (s.fresh + 1) = s.down H2 ∧
    (app4 s H1 H2 H3 H4 rcv).down (s.fresh + 2) = s.down H3 ∧
    (app4 s H1 H2 H3 H4 rcv).down (s.fresh + 3) = s.down H4 := by
  unfold app4
  set t1 := (append_node s H1 rcv none).1 with ht1
  set t2 := (append_node t1 H2 rcv (some s.fresh)).1 with ht2
  set t3 := (append_node t2 H3 rcv (some s.fresh)).1 with ht3
  have f1 : t1.fresh = s.fresh + 1 := append_fresh s H1 rcv none
  have f2 : t2.fresh = t1.fresh + 1 := append_fresh t1 H2 rcv (some s.fresh)
  have f3 : t3.fresh = t2.fresh + 1 := append_fresh t2 H3 rcv (some s.fresh)
  have d2 : t1.down H2 = s.down H2 := append_down s H1 rcv none H2 (by omega) (by omega)
  have d3a : t1.down H3 = s.down H3 := append_down s H1 rcv none H3 (by omega) (by omega)
  have d3 : t2.down H3 = t1.down H3 :=
    append_down t1 H2 rcv (some s.fresh) H3 (by omega) (by omega)
  refine ⟨?_, ?_, ?_, ?_⟩
  · have e1 : t1.down s.fresh = s.down H1 := append_down_fresh s H1 rcv none (by omega)
    have e2 : t2.down s.fresh = t1.down s.fresh :=
      append_down t1 H2 rcv (some s.fresh) s.fresh (by omega) (by omega)
    have e3 : t3.down s.fresh = t2.down s.fresh :=
      append_down t2 H3 rcv (some s.fresh) s.fresh (by omega) (by omega)
    have e4 : (append_node t3 H4 rcv (some s.fresh)).1.down s.fresh = t3.down s.fresh :=
      append_down t3 H4 rcv (some s.fresh) s.fresh (by omega) (by omega)
    omega
  · have e2 : t2.down t1.fresh = t1.down H2 :=
      append_down_fresh t1 H2 rcv (some s.fresh) (by omega)
    rw [f1, d2] at e2
    have e3 : t3.down (s.fresh + 1) = t2.down (s.fresh + 1) :=
      append_down t2 H3 rcv (some s.fresh) (s.fresh + 1) (by omega) (by omega)
    have e4 : (append_node t3 H4 rcv (some s.fresh)).1.down (s.fresh + 1) =
        t3.down (s.fresh + 1) :=
      append_down t3 H4 rcv (some s.fresh) (s.fresh + 1) (by omega) (by omega)
    omega
  · have e3 : t3.down t2.fresh = t2.down H3 :=
      append_down_fresh t2 H3 rcv (some s.fresh) (by omega)
    rw [f2, f1, show s.fresh + 1 + 1 = s.fresh + 2 by omega, d3, d3a] at e3
    have e4 : (append_node t3 H4 rcv (some s.fresh)).1.down (s.fresh + 2) =
        t3.down (s.fresh + 2) :=
      append_down t3 H4 rcv (some s.fresh) (s.fresh + 2) (by omega) (by omega)
    omega
  · have e4 : (append_node t3 H4 rcv (some s.fresh)).1.down t3.fresh = t3.down H4 :=
      append_down_fresh t3 H4 rcv (some s.fresh) (by omega)
    rw [f3, f2, f1, show s.fresh + 1 + 1 + 1 = s.fresh + 3 by omega] at e4
    have d4a : t1.down H4 = s.down H4 := append_down s H1 rcv none H4 (by omega) (by omega)
    have d4b : t2.down H4 = t1.down H4 :=
      append_down t1 H2 rcv (some s.fresh) H4 (by omega) (by omega)
    have d4 : t3.down H4 = t2.down H4 :=
      append_down t2 H3 rcv (some s.fresh) H4 (by omega) (by omega)
    omega

theorem app4_down_hdr (hH1 : 1 ≤ H1 ∧ H1 ≤ 81) (hH2 : 82 ≤ H2 ∧ H2 ≤ 162)
    (hH3 : 163 ≤ H3 ∧ H3 ≤ 243) (hH4 : 244 ≤ H4 ∧ H4 ≤ 324)
    (hfr : 325 ≤ s.fresh) :
    (app4 s H1 H2 H3 H4 rcv).down H1 = s.fresh ∧
    (app4 s H1 H2 H3 H4 rcv).down H2 = s.fresh + 1 ∧
    (app4 s H1 H2 H3 H4 rcv).down H3 = s.fresh + 2 ∧
    (app4 s H1 H2 H3 H4 rcv).down H4 = s.fresh + 3 := by
  unfold app4
  set t1 := (append_node s H1 rcv none).1 with ht1
  set t2 := (append_node t1 H2 rcv (some s.fresh)).1 with ht2
  set t3 := (append_node t2 H3 rcv (some s.fresh)).1 with ht3
  have f1 : t1.fresh = s.fresh + 1 := append_fresh s H1 rcv none
  have f2 : t2.fresh = t1.fresh + 1 := append_fresh t1 H2 rcv (some s.fresh)
  have f3 : t3.fresh = t2.fresh + 1 := append_fresh t2 H3 rcv (some s.fresh)
  refine ⟨?_, ?_, ?_, ?_⟩
  · have e1 : t1.down H1 = s.fresh := append_down_h s H1 rcv none (by omega)
    have e2 : t2.down H1 = t1.down H1 :=
      append_down t1 H2 rcv (some s.fresh) H1 (by omega) (by omega)
    have e3 : t3.down H1 = t2.down H1 :=
      append_down t2 H3 rcv (some s.fresh) H1 (by omega) (by omega)
    have e4 : (append_node t3 H4 rcv (some s.fresh)).1.down H1 = t3.down H1 :=
      append_down t3 H4 rcv (some s.fresh) H1 (by omega) (by omega)
    omega
  · have e2 : t2.down H2 = t1.fresh := append_down_h t1 H2 rcv (some s.fresh) (by omega)
    rw [f1] at e2
    have e3 : t3.down H2 = t2.down H2 :=
      append_down t2 H3 rcv (some s.fresh) H2 (by omega) (by omega)
    have e4 : (append_node t3 H4 rcv (some s.fresh)).1.down H2 = t3.down H2 :=
      append_down t3 H4 rcv (some s.fresh) H2 (by omega) (by omega)
    omega
  · have e3 : t3.down H3 = t2.fresh := append_down_h t2 H3 rcv (some s.fresh) (by omega)
    rw [f2, f1] at e3
    have e4 : (append_node t3 H4 rcv (some s.fresh)).1.down H3 = t3.down H3 :=
      append_down t3 H4 rcv (some s.fresh) H3 (by omega) (by omega)
    omega
  · have e4 : (append_node t3 H4 rcv (some s.fresh)).1.down H4 = t3.fresh :=
      append_down_h t3 H4 rcv (some s.fresh) (by omega)
    omega

theorem app4_up_at (hH1 : 1 ≤ H1 ∧ H1 ≤ 81) (hH2 : 82 ≤ H2 ∧ H2 ≤ 162)
    (hH3 : 163 ≤ H3 ∧ H3 ≤ 243) (hH4 : 244 ≤ H4 ∧ H4 ≤ 324)
    (hfr : 325 ≤ s.fresh)
    (hdn1 : s.down H1 < s.fresh) (hdn2 : s.down H2 < s.fresh)
    (hdn3 : s.down H3 < s.fresh) (hdn4 : s.down H4 < s.fresh)
    (d12 : s.down H1 ≠ s.down H2) (d13 : s.down H1 ≠ s.down H3)
    (d14 : s.down H1 ≠ s.down H4) (d23 : s.down H2 ≠ s.down H3)
    (d24 : s.down H2 ≠ s.down H4) (d34 : s.down H3 ≠ s.down H4) :
    (app4 s H1 H2 H3 H4 rcv).up (s.down H1) = s.fresh ∧
    (app4 s H1 H2 H3 H4 rcv).up (s.down H2) = s.fresh + 1 ∧
    (app4 s H1 H2 H3 H4 rcv).up (s.down H3) = s.fresh + 2 ∧
    (app4 s H1 H2 H3 H4 rcv).up (s.down H4) = s.fresh + 3 := by
  unfold app4
  set t1 := (append_node s H1 rcv none).1 with ht1
  set t2 := (append_node t1 H2 rcv (some s.fresh)).1 with ht2
  set t3 := (append_node t2 H3 rcv (some s.fresh)).1 with ht3
  have f1 : t1.fresh = s.fresh + 1 := append_fresh s H1 rcv none
  have f2 : t2.fresh = t1.fresh + 1 := append_fresh t1 H2 rcv (some s.fresh)
  have f3 : t3.fresh = t2.fresh + 1 := append_fresh t2 H3 rcv (some s.fresh)
  have d2 : t1.down H2 = s.down H2 := append_down s H1 rcv none H2 (by omega) (by omega)
  have d3a : t1.down H3 = s.down H3 := append_down s H1 rcv none H3 (by omega) (by omega)
  have d3 : t2.down H3 = t1.down H3 :=
    append_down t1 H2 rcv (some s.fresh) H3 (by omega) (by omega)
  have d4a : t1.down H4 = s.down H4 := append_down s H1 rcv none H4 (by omega) (by omega)
  have d4b : t2.down H4 = t1.down H4 :=
    append_down t1 H2 rcv (some s.fresh) H4 (by omega) (by omega)
  have d4 : t3.down H4 = t2.down H4 :=
    append_down t2 H3 rcv (some s.fresh) H4 (by omega) (by omega)
  refine ⟨?_, ?_, ?_, ?_⟩
  · have e1 : t1.up (s.down H1) = s.fresh :=
      append_up_at_down s H1 rcv none (by omega) (by omega)
    have e2 : t2.up (s.down H1) = t1.up (s.down H1) :=
      append_up t1 H2 rcv (some s.fresh) (s.down H1) (by omega) (by omega) (by omega)
    have e3 : t3.up (s.down H1) = t2.up (s.down H1) :=
      append_up t2 H3 rcv (some s.fresh) (s.down H1) (by omega) (by omega) (by omega)
    have e4 : (append_node t3 H4 rcv (some s.fresh)).1.up (s.down H1) = t3.up (s.down H1) :=
      append_up t3 H4 rcv (some s.fresh) (s.down H1) (by omega) (by omega) (by omega)
    omega
  · have e2 : t2.up (t1.down H2) = t1.fresh :=
      append_up_at_down t1 H2 rcv (some s.fresh) (by omega) (by omega)
    rw [d2, f1] at e2
    have e3 : t3.up (s.down H2) = t2.up (s.down H2) :=
      append_up t2 H3 rcv (some s.fresh) (s.down H2) (by omega) (by omega) (by omega)
    have e4 : (append_node t3 H4 rcv (some s.fresh)).1.up (s.down H2) = t3.up (s.down H2) :=
      append_up t3 H4 rcv (some s.fresh) (s.down H2) (by omega) (by omega) (by omega)
    omega
  · have e3 : t3.up (t2.down H3) = t2.fresh :=
      append_up_at_down t2 H3 rcv (some s.fresh) (by omega) (by omega)
    rw [d3, d3a, f2, f1] at e3
    have e4 : (append_node t3 H4 rcv (some s.fresh)).1.up (s.down H3) = t3.up (s.down H3) :=
      append_up t3 H4 rcv (some s.fresh) (s.down H3) (by omega) (by omega) (by omega)
    omega
  · have e4 : (append_node t3 H4 rcv (some s.fresh)).1.up (t3.down H4) = t3.fresh :=
      append_up_at_down t3 H4 rcv (some s.fresh) (by omega) (by omega)
    rw [d4, d4b, d4a, f3, f2, f1] at e4
    omega

end App4

/-- Appending one node to a column's vertical list extends the up-chain by
one at its end. -/
theorem chain_up_extend (fold fnew : Nat → Nat) (H nw dH : Nat) (L : List Nat)
    (hold : pathB fold (fold H) L H = true)
    (hdH : (L = [] ∧ dH = H) ∨ (∃ M, L = M ++ [dH]))
    (hagree : ∀ n ∈ L, n ≠ dH → fnew n = fold n)
    (hstart : L ≠ [] → fnew H = fold H)
    (hat : fnew dH = nw)
    (hnw : fnew nw = H)
    (hnd : L.Nodup) (hnwH : nw ≠ H) :
    pathB fnew (fnew H) (L ++ [nw]) H = true := by
  rcases hdH with ⟨hnil, hdHH⟩ | ⟨M, hM⟩
  · subst hnil
    subst hdHH
    simp only [List.nil_append, pathB, Bool.and_eq_true, beq_iff_eq]
    exact ⟨hat, hnw⟩
  · subst hM
    rw [pathB_snoc, pathB_snoc, Bool.and_eq_true, Bool.and_eq_true]
    rw [pathB_snoc, Bool.and_eq_true] at hold
    obtain ⟨holdM, -⟩ := hold
    have hdM : dH ∉ M := by
      rw [List.nodup_append] at hnd
      intro hm
      exact hnd.2.2 hm (by simp)
    refine ⟨⟨?_, by simp [hat]⟩, by simp [hnw]⟩
    rw [hstart (by simp)]
    exact pathB_congr fold fnew M (fold H) dH
      (fun n hn => hagree n (by simp [hn]) (fun he => hdM (he ▸ hn))) holdM

/-- Appending one node to a column's vertical list pushes it on the front of
the down-chain. -/
theorem chain_down_extend (fold fnew : Nat → Nat) (H nw : Nat) (L : List Nat)
    (hold : pathB fold (fold H) L.reverse H = true)
    (hagree : ∀ n ∈ L, fnew n = fold n)
    (hnwH : fnew H = nw)
    (hnwv : fnew nw = fold H) :
    pathB fnew (fnew H) ((L ++ [nw]).reverse) H = true := by
  rw [List.reverse_append]
  simp only [List.reverse_cons, List.reverse_nil, List.nil_append,
    List.singleton_append, List.append_eq, pathB, Bool.and_eq_true, beq_iff_eq]
  refine ⟨hnwH, ?_⟩
  rw [hnwv]
  exact pathB_congr fold fnew L.reverse (fold H) H
    (fun n hn => hagree n (List.mem_reverse.mp hn)) hold

set_option maxHeartbeats 2000000 in
/-- One `add_nodes` iteration preserves the construction invariant. -/
theorem buildInv_append4 (t : Nat) (s : DLX) (inv : BuildInv t s)
    (H1 H2 H3 H4 : Nat) (rcv : RCV)
    (hH1 : 1 ≤ H1 ∧ H1 ≤ 81) (hH2 : 82 ≤ H2 ∧ H2 ≤ 162)
    (hH3 : 163 ≤ H3 ∧ H3 ≤ 243) (hH4 : 244 ≤ H4 ∧ H4 ≤ 324)
    (hq0 : hdrOfQuad t 0 = H1) (hq1 : hdrOfQuad t 1 = H2)
    (hq2 : hdrOfQuad t 2 = H3) (hq3 : hdrOfQuad t 3 = H4)
    (hrcv : rcv = tripleOf t) :
    BuildInv (t + 1) (app4 s H1 H2 H3 H4 rcv) := by
  have hb := inv.fresh_eq
  have hfr : 325 ≤ s.fresh := by omega
  -- facts about the old vertical chains
  have hdownb : ∀ H, 1 ≤ H → H ≤ 324 → 1 ≤ s.down H ∧ s.down H < s.fresh := by
    intro H l r
    rcases pathB_start_cases _ _ _ _ (inv.chain_down H l r) with he | hm
    · omega
    · have := mem_appList_range t H (s.down H) (List.mem_reverse.mp hm)
      omega
  have hdown_ne : ∀ H, 1 ≤ H → H ≤ 324 → ∀ y, y ≤ 324 → y ≠ H → s.down H ≠ y := by
    intro H l r y hy hne
    rcases pathB_start_cases _ _ _ _ (inv.chain_down H l r) with he | hm
    · omega
    · have := mem_appList_range t H (s.down H) (List.mem_reverse.mp hm)
      omega
  have hdown_ne_mem : ∀ H, 1 ≤ H → H ≤ 324 → ∀ h', h' ≠ H → ∀ n, n ∈ appList t h' →
      s.down H ≠ n := by
    intro H l r h' hne n hn
    rcases pathB_start_cases _ _ _ _ (inv.chain_down H l r) with he | hm
    · have := mem_appList_range t h' n hn
      omega
    · intro hc
      exact hne (appList_col_unique t h' H n hn (hc ▸ List.mem_reverse.mp hm))
  have hdowndisj : ∀ H H', 1 ≤ H → H ≤ 324 → 1 ≤ H' → H' ≤ 324 → H ≠ H' →
      s.down H ≠ s.down H' := by
    intro H H' l r l' r' hne
    rcases pathB_start_cases _ _ _ _ (inv.chain_down H' l' r') with he | hm
    · rw [he]
      exact hdown_ne H l r H' (by omega) (Ne.symm hne)
    · exact hdown_ne_mem H l r H' (Ne.symm hne) (s.down H') (List.mem_reverse.mp hm)
  have hdb1 := hdownb H1 (by omega) (by omega)
  have hdb2 := hdownb H2 (by omega) (by omega)
  have hdb3 := hdownb H3 (by omega) (by omega)
  have hdb4 := hdownb H4 (by omega) (by omega)
  -- the pointwise description of the appended state
  set T := app4 s H1 H2 H3 H4 rcv with hT
  have hfr4 : T.fresh = s.fresh + 4 := app4_fresh s H1 H2 H3 H4 rcv
  have hcv : T.cval = s.cval := app4_cval s H1 H2 H3 H4 rcv
  obtain ⟨hR0, hR1, hR2, hR3⟩ := app4_right_new s H1 H2 H3 H4 rcv
  obtain ⟨hLf0, hLf1, hLf2, hLf3⟩ := app4_left_new s H1 H2 H3 H4 rcv
  obtain ⟨hP0, hP1, hP2, hP3⟩ := app4_payload_new s H1 H2 H3 H4 rcv
  obtain ⟨hC0, hC1, hC2, hC3⟩ := app4_col_new s H1 H2 H3 H4 rcv
  obtain ⟨hU0, hU1, hU2, hU3⟩ :=
    app4_up_new s H1 H2 H3 H4 rcv hH1 hH2 hH3 hH4 hfr (by omega) (by omega) (by omega)
  obtain ⟨hD0, hD1, hD2, hD3⟩ := app4_down_new s H1 H2 H3 H4 rcv hH1 hH2 hH3 hH4 hfr
  obtain ⟨hDH1, hDH2, hDH3, hDH4⟩ := app4_down_hdr s H1 H2 H3 H4 rcv hH1 hH2 hH3 hH4 hfr
  obtain ⟨hUat1, hUat2, hUat3, hUat4⟩ :=
    app4_up_at s H1 H2 H3 H4 rcv hH1 hH2 hH3 hH4 hfr (by omega) (by omega) (by omega)
      (by omega)
      (hdowndisj H1 H2 (by omega) (by omega) (by omega) (by omega) (by omega))
      (hdowndisj H1 H3 (by omega) (by omega) (by omega) (by omega) (by omega))
      (hdowndisj H1 H4 (by omega) (by omega) (by omega) (by omega) (by omega))
      (hdowndisj H2 H3 (by omega) (by omega) (by omega) (by omega) (by omega))
      (hdowndisj H2 H4 (by omega) (by omega) (by omega) (by omega) (by omega))
      (hdowndisj H3 H4 (by omega) (by omega) (by omega) (by omega) (by omega))
  -- agreement of the new state with the old away from the four columns
  have hup_agree : ∀ h', 1 ≤ h' → h' ≤ 324 → ∀ n ∈ appList t h', n ≠ s.down h' →
      T.up n = s.up n := by
    intro h' l r n hn hne
    have hbn := mem_appList_range t h' n hn
    have c1 : n ≠ s.down H1 := by
      by_cases hcase : H1 = h'
      · subst hcase
        exact hne
      · exact Ne.symm (hdown_ne_mem H1 (by omega) (by omega) h' (fun e => hcase e.symm) n hn)
    have c2 : n ≠ s.down H2 := by
      by_cases hcase : H2 = h'
      · subst hcase
        exact hne
      · exact Ne.symm (hdown_ne_mem H2 (by omega) (by omega) h' (fun e => hcase e.symm) n hn)
    have c3 : n ≠ s.down H3 := by
      by_cases hcase : H3 = h'
      · subst hcase
        exact hne
      · exact Ne.symm (hdown_ne_mem H3 (by omega) (by omega) h' (fun e => hcase e.symm) n hn)
    have c4 : n ≠ s.down H4 := by
      by_cases hcase : H4 = h'
      · subst hcase
        exact hne
      · exact Ne.symm (hdown_ne_mem H4 (by omega) (by omega) h' (fun e => hcase e.symm) n hn)
    exact app4_up_pres s H1 H2 H3 H4 rcv hH1 hH2 hH3 hH4 hfr n c1 c2 c3 c4
      (by omega) (by omega) (by omega) (by omega)
  have hdown_agree : ∀ n, 325 ≤ n → n < s.fresh → T.down n = s.down n := by
    intro n l r
    exact app4_down_pres s H1 H2 H3 H4 rcv n (by omega) (by omega) (by omega)
      (by omega) (by omega) (by omega) (by omega) (by omega)
  -- which node the new triple hangs under each column
  have hqn0 : quadNode t 0 = s.fresh := by simp only [quadNode]; omega
  have hqn1 : quadNode t 1 = s.fresh + 1 := by simp only [quadNode]; omega
  have hqn2 : quadNode t 2 = s.fresh + 2 := by simp only [quadNode]; omega
  have hqn3 : quadNode t 3 = s.fresh + 3 := by simp only [quadNode]; omega
  have hsome1 : quadContrib t H1 = some (quadNode t 0) := by
    unfold quadContrib
    rw [hq0]
    rw [if_pos rfl]
  have hsome2 : quadContrib t H2 = some (quadNode t 1) := by
    unfold quadContrib
    rw [hq0, hq1]
    rw [if_neg (by omega), if_pos rfl]
  have hsome3 : quadContrib t H3 = some (quadNode t 2) := by
    unfold quadContrib
    rw [hq0, hq1, hq2]
    rw [if_neg (by omega), if_neg (by omega), if_pos rfl]
  have hsome4 : quadContrib t H4 = some (quadNode t 3) := by
    unfold quadContrib
    rw [hq0, hq1, hq2, hq3]
    rw [if_neg (by omega), if_neg (by omega), if_neg (by omega), if_pos rfl]
  have hnone : ∀ h, h ≠ H1 → h ≠ H2 → h ≠ H3 → h ≠ H4 → quadContrib t h = none := by
    intro h n1 n2 n3 n4
    unfold quadContrib
    rw [hq0, hq1, hq2, hq3]
    rw [if_neg (Ne.symm n1), if_neg (Ne.symm n2), if_neg (Ne.symm n3),
      if_neg (Ne.symm n4)]
  -- whether each column's list is empty, and its last element
  have hchaincase : ∀ H, 1 ≤ H → H ≤ 324 →
      (appList t H = [] ∧ s.down H = H) ∨
      (∃ M, appList t H = M ++ [s.down H]) := by
    intro H l r
    rcases List.eq_nil_or_concat (appList t H) with hnil | ⟨M, e, hsnoc⟩
    on_goal 2 => rw [List.concat_eq_append] at hsnoc
    · left
      refine ⟨hnil, ?_⟩
      have hcd := inv.chain_down H l r
      rw [hnil] at hcd
      simpa [pathB] using hcd
    · right
      have hcd := inv.chain_down H l r
      rw [hsnoc, List.reverse_append] at hcd
      simp only [List.reverse_cons, List.reverse_nil, List.nil_append,
        List.singleton_append, List.append_eq, pathB, Bool.and_eq_true,
        beq_iff_eq] at hcd
      exact ⟨M, by rw [hcd.1]; exact hsnoc⟩
  -- the up-chain of one of the four columns, extended by its new node
  have hextend_up : ∀ H j, 1 ≤ H → H ≤ 324 → T.up (s.down H) = s.fresh + j →
      T.up (s.fresh + j) = H →
      pathB T.up (T.up H) (appList t H ++ [s.fresh + j]) H = true := by
    intro H j l r hat hnw
    apply chain_up_extend s.up T.up H (s.fresh + j) (s.down H) (appList t H)
      (inv.chain_up H l r) (hchaincase H l r)
      (fun n hn hne => hup_agree H l r n hn hne)
      ?hstart hat hnw (appList_nodup t H) (by omega)
    intro hne
    rcases hchaincase H l r with ⟨hnil, -⟩ | ⟨M, hM⟩
    · exact absurd hnil hne
    · have hdmem : s.down H ∈ appList t H := by
        rw [hM]
        simp
      have hbd := mem_appList_range t H (s.down H) hdmem
      have c1 : H ≠ s.down H1 := by
        by_cases hcase : H1 = H
        · subst hcase
          omega
        · exact Ne.symm (hdown_ne H1 (by omega) (by omega) H (by omega) (fun e => hcase e.symm))
      have c2 : H ≠ s.down H2 := by
        by_cases hcase : H2 = H
        · subst hcase
          omega
        · exact Ne.symm (hdown_ne H2 (by omega) (by omega) H (by omega) (fun e => hcase e.symm))
      have c3 : H ≠ s.down H3 := by
        by_cases hcase : H3 = H
        · subst hcase
          omega
        · exact Ne.symm (hdown_ne H3 (by omega) (by omega) H (by omega) (fun e => hcase e.symm))
      have c4 : H ≠ s.down H4 := by
        by_cases hcase : H4 = H
        · subst hcase
          omega
        · exact Ne.symm (hdown_ne H4 (by omega) (by omega) H (by omega) (fun e => hcase e.symm))
      exact app4_up_pres s H1 H2 H3 H4 rcv hH1 hH2 hH3 hH4 hfr H c1 c2 c3 c4
        (by omega) (by omega) (by omega) (by omega)
  refine ⟨?_, ?_, ?_, ?_, ?_, ?_, ?_, ?_, ?_, ?_, ?_, ?_, ?_⟩
  · omega
  · intro x hx
    rw [app4_right_pres s H1 H2 H3 H4 rcv x (by omega) (by omega) (by omega) (by omega)]
    exact inv.hdr_right x hx
  · intro x hx
    rw [app4_left_pres s H1 H2 H3 H4 rcv x (by omega) (by omega) (by omega) (by omega)]
    exact inv.hdr_left x hx
  · intro u hu
    rcases Nat.lt_or_ge u t with hut | hut
    · have hq : ∀ j, quadNode u j = 325 + 4 * u + j := fun j => rfl
      have hlt : 325 + 4 * u + 3 < s.fresh := by omega
      obtain ⟨o1, o2, o3, o4, o5, o6, o7, o8⟩ := inv.row_cycle u hut
      refine ⟨?_, ?_, ?_, ?_, ?_, ?_, ?_, ?_⟩ <;>
        first
          | (rw [app4_right_pres s H1 H2 H3 H4 rcv _ (by rw [hq]; omega)
              (by rw [hq]; omega) (by rw [hq]; omega) (by rw [hq]; omega)]
             assumption)
          | (rw [app4_left_pres s H1 H2 H3 H4 rcv _ (by rw [hq]; omega)
              (by rw [hq]; omega) (by rw [hq]; omega) (by rw [hq]; omega)]
             assumption)
    · have hut' : u = t := by omega
      subst hut'
      rw [hqn0, hqn1, hqn2, hqn3]
      exact ⟨hR0, hR1, hR2, hR3, hLf0, hLf1, hLf2, hLf3⟩
  · intro x hx
    have hx4 : s.fresh + 4 ≤ x := by omega
    obtain ⟨o1, o2, o3, o4, o5, o6⟩ := inv.untouched x (by omega)
    refine ⟨?_, ?_, ?_, ?_, ?_, ?_⟩
    · rw [app4_right_pres s H1 H2 H3 H4 rcv x (by omega) (by omega) (by omega) (by omega)]
      exact o1
    · rw [app4_left_pres s H1 H2 H3 H4 rcv x (by omega) (by omega) (by omega) (by omega)]
      exact o2
    · rw [app4_up_pres s H1 H2 H3 H4 rcv hH1 hH2 hH3 hH4 hfr x (by omega) (by omega)
        (by omega) (by omega) (by omega) (by omega) (by omega) (by omega)]
      exact o3
    · rw [app4_down_pres s H1 H2 H3 H4 rcv x (by omega) (by omega) (by omega)
        (by omega) (by omega) (by omega) (by omega) (by omega)]
      exact o4
    · rw [app4_pay_pres s H1 H2 H3 H4 rcv x (by omega) (by omega) (by omega) (by omega)]
      exact o5
    · rw [app4_col_pres s H1 H2 H3 H4 rcv x (by omega) (by omega) (by omega) (by omega)]
      exact o6
  · intro u hu j hj
    rcases Nat.lt_or_ge u t with hut | hut
    · have hq : quadNode u j = 325 + 4 * u + j := rfl
      rw [app4_pay_pres s H1 H2 H3 H4 rcv _ (by rw [hq]; omega) (by rw [hq]; omega)
        (by rw [hq]; omega) (by rw [hq]; omega)]
      exact inv.payload_node u hut j hj
    · have hut' : u = t := by omega
      subst hut'
      rw [← hrcv]
      interval_cases j
      · rw [hqn0]
        exact hP0
      · rw [hqn1]
        exact hP1
      · rw [hqn2]
        exact hP2
      · rw [hqn3]
        exact hP3
  · intro x hx
    rw [app4_pay_pres s H1 H2 H3 H4 rcv x (by omega) (by omega) (by omega) (by omega)]
    exact inv.payload_hdr x hx
  · intro x hx
    rw [app4_col_pres s H1 H2 H3 H4 rcv x (by omega) (by omega) (by omega) (by omega)]
    exact inv.col_hdr x hx
  · intro u hu j hj
    rcases Nat.lt_or_ge u t with hut | hut
    · have hq : quadNode u j = 325 + 4 * u + j := rfl
      rw [app4_col_pres s H1 H2 H3 H4 rcv _ (by rw [hq]; omega) (by rw [hq]; omega)
        (by rw [hq]; omega) (by rw [hq]; omega)]
      exact inv.col_node u hut j hj
    · have hut' : u = t := by omega
      subst hut'
      interval_cases j
      · rw [hqn0, hq0]
        exact hC0
      · rw [hqn1, hq1]
        exact hC1
      · rw [hqn2, hq2]
        exact hC2
      · rw [hqn3, hq3]
        exact hC3
  · rw [hcv]
    exact inv.cval_eq
  · constructor
    · rw [app4_up_pres s H1 H2 H3 H4 rcv hH1 hH2 hH3 hH4 hfr 0 (by omega) (by omega)
        (by omega) (by omega) (by omega) (by omega) (by omega) (by omega)]
      exact inv.root_ud.1
    · rw [app4_down_pres s H1 H2 H3 H4 rcv 0 (by omega) (by omega) (by omega)
        (by omega) (by omega) (by omega) (by omega) (by omega)]
      exact inv.root_ud.2
  · intro h l r
    by_cases e1 : h = H1
    · subst e1
      rw [appList_succ, hsome1, hqn0]
      simp only [Option.toList_some]
      exact hextend_up h 0 l r (by rw [Nat.add_zero]; exact hUat1)
        (by rw [Nat.add_zero]; exact hU0)
    · by_cases e2 : h = H2
      · subst e2
        rw [appList_succ, hsome2, hqn1]
        simp only [Option.toList_some]
        exact hextend_up h 1 l r hUat2 hU1
      · by_cases e3 : h = H3
        · subst e3
          rw [appList_succ, hsome3, hqn2]
          simp only [Option.toList_some]
          exact hextend_up h 2 l r hUat3 hU2
        · by_cases e4 : h = H4
          · subst e4
            rw [appList_succ, hsome4, hqn3]
            simp only [Option.toList_some]
            exact hextend_up h 3 l r hUat4 hU3
          · rw [appList_succ, hnone h e1 e2 e3 e4]
            simp only [Option.toList_none, List.append_nil]
            have hstart : T.up h = s.up h := by
              have c1 : h ≠ s.down H1 :=
                Ne.symm (hdown_ne H1 (by omega) (by omega) h (by omega) e1)
              have c2 : h ≠ s.down H2 :=
                Ne.symm (hdown_ne H2 (by omega) (by omega) h (by omega) e2)
              have c3 : h ≠ s.down H3 :=
                Ne.symm (hdown_ne H3 (by omega) (by omega) h (by omega) e3)
              have c4 : h ≠ s.down H4 :=
                Ne.symm (hdown_ne H4 (by omega) (by omega) h (by omega) e4)
              exact app4_up_pres s H1 H2 H3 H4 rcv hH1 hH2 hH3 hH4 hfr h c1 c2 c3 c4
                (by omega) (by omega) (by omega) (by omega)
            rw [hstart]
            refine pathB_congr s.up T.up (appList t h) (s.up h) h ?_ (inv.chain_up h l r)
            intro n hn
            have hbn := mem_appList_range t h n hn
            have c1 : n ≠ s.down H1 := by
              by_cases hcase : H1 = h
              · exact absurd hcase.symm e1
              · exact Ne.symm (hdown_ne_mem H1 (by omega) (by omega) h
                  (fun e => hcase e.symm) n hn)
            have c2 : n ≠ s.down H2 := by
              by_cases hcase : H2 = h
              · exact absurd hcase.symm e2
              · exact Ne.symm (hdown_ne_mem H2 (by omega) (by omega) h
                  (fun e => hcase e.symm) n hn)
            have c3 : n ≠ s.down H3 := by
              by_cases hcase : H3 = h
              · exact absurd hcase.symm e3
              · exact Ne.symm (hdown_ne_mem H3 (by omega) (by omega) h
                  (fun e => hcase e.symm) n hn)
            have c4 : n ≠ s.down H4 := by
              by_cases hcase : H4 = h
              · exact absurd hcase.symm e4
              · exact Ne.symm (hdown_ne_mem H4 (by omega) (by omega) h
                  (fun e => hcase e.symm) n hn)
            exact app4_up_pres s H1 H2 H3 H4 rcv hH1 hH2 hH3 hH4 hfr n c1 c2 c3 c4
              (by omega) (by omega) (by omega) (by omega)
  · intro h l r
    have hmem_agree : ∀ n ∈ (appList t h).reverse, T.down n = s.down n := by
      intro n hn
      have hbn := mem_appList_range t h n (List.mem_reverse.mp hn)
      exact hdown_agree n (by omega) (by omega)
    by_cases e1 : h = H1
    · subst e1
      rw [appList_succ, hsome1, hqn0]
      simp only [Option.toList_some]
      exact chain_down_extend s.down T.down h s.fresh (appList t h)
        (inv.chain_down h l r)
        (fun n hn => hmem_agree n (List.mem_reverse.mpr hn)) hDH1 (by rw [hD0])
    · by_cases e2 : h = H2
      · subst e2
        rw [appList_succ, hsome2, hqn1]
        simp only [Option.toList_some]
        exact chain_down_extend s.down T.down h (s.fresh + 1) (appList t h)
          (inv.chain_down h l r)
          (fun n hn => hmem_agree n (List.mem_reverse.mpr hn)) hDH2 (by rw [hD1])
      · by_cases e3 : h = H3
        · subst e3
          rw [appList_succ, hsome3, hqn2]
          simp only [Option.toList_some]
          exact chain_down_extend s.down T.down h (s.fresh + 2) (appList t h)
            (inv.chain_down h l r)
            (fun n hn => hmem_agree n (List.mem_reverse.mpr hn)) hDH3 (by rw [hD2])
        · by_cases e4 : h = H4
          · subst e4
            rw [appList_succ, hsome4, hqn3]
            simp only [Option.toList_some]
            exact chain_down_extend s.down T.down h (s.fresh + 3) (appList t h)
              (inv.chain_down h l r)
              (fun n hn => hmem_agree n (List.mem_reverse.mpr hn)) hDH4 (by rw [hD3])
          · rw [appList_succ, hnone h e1 e2 e3 e4]
            simp only [Option.toList_none, List.append_nil]
            have hstart : T.down h = s.down h :=
              app4_down_pres s H1 H2 H3 H4 rcv h e1 e2 e3 e4 (by omega) (by omega)
                (by omega) (by omega)
            rw [hstart]
            exact pathB_congr s.down T.down (appList t h).reverse (s.down h) h
              hmem_agree (inv.chain_down h l r)

/-- One iteration of the flattened `add_nodes` enumeration. -/
def tripleStep (acc : DLX) (u : Nat) : DLX :=
  addNodesValue acc (u / 81) ((u / 9) % 9)
    (calculate_box (u / 81) ((u / 9) % 9)) (u % 9 + 1)

/-- The flat row-major enumeration order of `add_nodes`. -/
def tripleList : List (Nat × Nat × Nat) :=
  (List.range 9).flatMap (fun row =>
    (List.range 9).flatMap (fun column =>
      rng19.map (fun value => (row, column, value))))

theorem add_nodes_eq_tripleList (s : DLX) :
    add_nodes s = tripleList.foldl
      (fun acc p => addNodesValue acc p.1 p.2.1 (calculate_box p.1 p.2.1) p.2.2) s := by
  unfold add_nodes tripleList
  simp only [foldl_flatMap_fold, List.foldl_map]

set_option maxRecDepth 8000 in
theorem tripleList_eq :
    tripleList = (List.range 729).map (fun u => (u / 81, (u / 9) % 9, u % 9 + 1)) := by
  decide

/-- The three nested loops of `add_nodes` enumerate exactly the triples
numbered `0 ≤ u < 729`. -/
theorem add_nodes_eq_foldl (s : DLX) :
    add_nodes s = (List.range 729).foldl tripleStep s := by
  rw [add_nodes_eq_tripleList, tripleList_eq, List.foldl_map]
  rfl

theorem buildInv_tripleStep (t : Nat) (s : DLX) (inv : BuildInv t s)
    (ht : t < 729) : BuildInv (t + 1) (tripleStep s t) := by
  have hr9 : t / 81 < 9 := by omega
  have hc9 : (t / 9) % 9 < 9 := by omega
  have hbox : calculate_box (t / 81) ((t / 9) % 9) < 9 := by
    unfold calculate_box
    omega
  unfold tripleStep
  rw [addNodesValue_chain s (t / 81) ((t / 9) % 9) (t % 9 + 1) hr9 hc9 (by omega)
    (by omega) (by rw [inv.fresh_eq]; omega) inv.hdr_right]
  show BuildInv (t + 1) (app4 s (cellHdr (t / 81) ((t / 9) % 9))
    (colHdr ((t / 9) % 9) (t % 9 + 1)) (rowHdr (t / 81) (t % 9 + 1))
    (boxHdr (calculate_box (t / 81) ((t / 9) % 9)) (t % 9 + 1))
    (t / 81, (t / 9) % 9, t % 9 + 1))
  refine buildInv_append4 t s inv _ _ _ _ _ ?_ ?_ ?_ ?_ ?_ ?_ ?_ ?_ rfl
  · unfold cellHdr
    omega
  · unfold colHdr
    omega
  · unfold rowHdr
    omega
  · unfold boxHdr
    omega
  · rfl
  · rfl
  · rfl
  · rfl

theorem buildInv_range : ∀ n, n ≤ 729 →
    BuildInv n ((List.range n).foldl tripleStep (chainState 324 cvalAt)) := by
  intro n
  induction n with
  | zero =>
    intro _
    exact buildInv_zero
  | succ n ih =>
    intro hn
    rw [List.range_succ, List.foldl_append, List.foldl_cons, List.foldl_nil]
    exact buildInv_tripleStep n _ (ih (by omega)) (by omega)

/-- The fully built matrix satisfies the construction invariant with all 729
candidate triples placed. -/
theorem buildState_inv : BuildInv 729 buildState := by
  have h : buildState = (List.range 729).foldl tripleStep (chainState 324 cvalAt) := by
    unfold buildState
    rw [add_constraints_initState, add_nodes_eq_foldl]
  rw [h]
  exact buildInv_range 729 le_rfl

end DancingLinks
